import Mathlib

/-!
Verification of the parallel dependency-graph scheduler of `parallel_emerge`.

The development shallowly embeds the two components the specification's
claims are about:

* the graph builder (`ReverseTree`, `RemoveUnusedPackages`, `FindCycles`,
  `SanitizeTree`, `FindRecursiveProvides` of `DepGraphGenerator.GenDependencyGraph`),
* the scheduler (`EmergeQueue._Schedule`, `_ScheduleLoop`, `_Finish`,
  `_Retry`, and the event loop `Run`).

Packages are identified by naturals, the dependency graph is an association
list of package to node (matching the Python dict `deps_map`), and edge sets
(`needs`, `provides`, `tprovides`) are `Finset`s.  The Python dict values of
`needs` (joined dep-type strings) are only consumed by log printing, so the
key sets suffice.  All recursion that the Python source performs on the
mutable graph is embedded with explicit fuel; theorems show the fuel used by
the top-level entry points is sufficient where claims depend on it.
-/

set_option maxHeartbeats 1000000

namespace ParallelEmerge

/-- `Action` values appearing in the dependency graph. -/
inductive Action where
  | merge
  | nomerge
  | uninstall
deriving DecidableEq

/-- Dependency edge types of the input tree (`deptypes`). -/
inductive DepType where
  | blocker
  | buildtime
  | runtime
  | runtimePost
  | ignoredDep
  | optionalDep
deriving DecidableEq

/-- One node of `deps_map`, mirroring the per-package dict built by
`ReverseTree` (`action`, `needs`, `provides`, later `tprovides`, `idx`,
`binary`, `nodeps`). -/
structure Node where
  action : Action
  needs : Finset Nat
  provides : Finset Nat
  tprovides : Finset Nat
  idx : Nat
  binary : Bool
  nodeps : Bool
deriving DecidableEq

/-- The dependency graph `deps_map`: an association list keyed by package. -/
abbrev Graph := List (Nat × Node)

/-- Dict lookup `deps_map.get(p)`. -/
def findNode : Graph → Nat → Option Node
  | [], _ => none
  | (k, n) :: t, p => if k = p then some n else findNode t p

/-- Update the node stored at key `p` in place. -/
def mapNode (g : Graph) (p : Nat) (f : Node → Node) : Graph :=
  g.map fun e => if e.1 = p then (e.1, f e.2) else e

/-- `del deps_map[p]`. -/
def eraseNode (g : Graph) (p : Nat) : Graph :=
  g.filter fun e => decide (e.1 ≠ p)

def keysList (g : Graph) : List Nat := g.map Prod.fst

def keysF (g : Graph) : Finset Nat := (keysList g).toFinset

def needsOf (g : Graph) (p : Nat) : Finset Nat :=
  ((findNode g p).map Node.needs).getD ∅

def providesOf (g : Graph) (p : Nat) : Finset Nat :=
  ((findNode g p).map Node.provides).getD ∅

def tprovidesOf (g : Graph) (p : Nat) : Finset Nat :=
  ((findNode g p).map Node.tprovides).getD ∅

def actionOf (g : Graph) (p : Nat) : Option Action :=
  (findNode g p).map Node.action

def nodepsOf (g : Graph) (p : Nat) : Bool :=
  ((findNode g p).map Node.nodeps).getD false

/-- Ascending insertion of a package into a list. -/
def insortNat (x : Nat) : List Nat → List Nat
  | [] => [x]
  | y :: t => if x ≤ y then x :: y :: t else y :: insortNat x t

theorem insortNat_comm (a b : Nat) (l : List Nat) :
    insortNat a (insortNat b l) = insortNat b (insortNat a l) := by
  induction l with
  | nil =>
    rcases Nat.lt_trichotomy a b with h | h | h
    · have h1 : a ≤ b := Nat.le_of_lt h
      have h2 : ¬b ≤ a := by omega
      simp [insortNat, h1, h2]
    · subst h; rfl
    · have h1 : ¬a ≤ b := by omega
      have h2 : b ≤ a := Nat.le_of_lt h
      simp [insortNat, h1, h2]
  | cons y t ih =>
    rcases Nat.lt_trichotomy a b with h | h | h
    · have hab : a ≤ b := Nat.le_of_lt h
      have hba : ¬b ≤ a := by omega
      by_cases hby : b ≤ y
      · have hay : a ≤ y := by omega
        simp [insortNat, hby, hab, hay, hba]
      · by_cases hay : a ≤ y
        · simp [insortNat, hby, hay, hba]
        · simp [insortNat, hby, hay, ih]
    · subst h; rfl
    · have hab : ¬a ≤ b := by omega
      have hba : b ≤ a := Nat.le_of_lt h
      by_cases hay : a ≤ y
      · have hby : b ≤ y := by omega
        simp [insortNat, hay, hby, hab, hba]
      · by_cases hby : b ≤ y
        · simp [insortNat, hby, hay, hab]
        · simp [insortNat, hby, hay, ih]

instance : LeftCommutative insortNat := ⟨insortNat_comm⟩

/-- Deterministic iteration order for the Python dict/set loops (the source
iterates dicts and sets in unspecified order; we fix ascending order). -/
def sortF (s : Finset Nat) : List Nat := Multiset.foldr insortNat [] s.val

def defaultNode (a : Action) : Node :=
  { action := a, needs := ∅, provides := ∅, tprovides := ∅,
    idx := 0, binary := false, nodeps := false }

/-- External inputs of the graph builder: the resolver's install list
(`deps_info` keys) with its order hints (`idx`), and the package catalog
facts consumed by `ReverseTree` (`type_name == "binary"`, and whether the
package defines none of the binpkg phases setup/preinst/postinst). -/
structure BuildEnv where
  keep : Finset Nat
  idxf : Nat → Nat
  isBin : Nat → Bool
  noPh : Nat → Bool

/-- The raw dependency tree: each entry carries the package, its action, the
`deptypes` of the edge that reached it, and its own sub-tree of deps. -/
inductive DTree where
  | node : List (Nat × Action × List DepType × DTree) → DTree

def entriesOf : DTree → List (Nat × Action × List DepType × DTree)
  | .node es => es

/-- `needed_dep_types.intersection(dep_types)` is non-empty. -/
def needsDepB (dts : List DepType) : Bool :=
  dts.any fun t =>
    match t with
    | .blocker => true
    | .buildtime => true
    | .runtime => true
    | _ => false

/-- The dependency-edge loop at the end of each `ReverseTree` visit: for each
direct dep with a needed dep type, record `parent.needs[dep]` and
`dep.provides += parent`; a blocker dep additionally clears `parent.nodeps`. -/
def addEdges (g : Graph) (pkg : Nat)
    (subEntries : List (Nat × Action × List DepType × DTree)) : Graph :=
  subEntries.foldl
    (fun g e =>
      let dep := e.1
      let dts := e.2.2.1
      let g1 :=
        if needsDepB dts then
          let ga := mapNode g dep fun n => { n with provides := insert pkg n.provides }
          mapNode ga pkg fun n => { n with needs := insert dep n.needs }
        else g
      if DepType.blocker ∈ dts then
        mapNode g1 pkg fun n => { n with nodeps := false }
      else g1)
    g

mutual

/-- `ReverseTree`: visit every entry of the tree recursively. -/
def revTreeAux (env : BuildEnv) (g : Graph) : DTree → Graph
  | .node es => revEntries env g es

def revEntries (env : BuildEnv) (g : Graph) :
    List (Nat × Action × List DepType × DTree) → Graph
  | [] => g
  | (pkg, act, _, sub) :: rest =>
    let g1 := if pkg ∈ keysF g then g else g ++ [(pkg, defaultNode act)]
    let g2 := if pkg ∈ env.keep then mapNode g1 pkg (fun n => { n with idx := env.idxf pkg }) else g1
    let g3 :=
      if env.isBin pkg then
        mapNode g2 pkg fun n =>
          { n with binary := true, nodeps := if env.noPh pkg then true else n.nodeps }
      else g2
    let g4 := revTreeAux env g3 sub
    let g5 := addEdges g4 pkg (entriesOf sub)
    revEntries env g5 rest

end

def reverseTree (env : BuildEnv) (t : DTree) : Graph := revTreeAux env [] t

/-- Contraction of one non-installed package (`RemoveUnusedPackages` body):
merge its `provides` into each dep's `provides`, merge its `needs` into each
dependent's `needs`, then delete it.  Reads go against the current graph at
every step, matching the aliasing of the Python dict objects. -/
def contractNode (g : Graph) (pkg : Nat) : Graph :=
  let needs0 := sortF (needsOf g pkg)
  let g1 := needs0.foldl
    (fun g d =>
      let pv := providesOf g pkg
      mapNode g d fun n => { n with provides := ((n.provides ∪ pv).erase pkg).erase d })
    g
  let prov1 := sortF (providesOf g1 pkg)
  let g2 := prov1.foldl
    (fun g t =>
      let nd := needsOf g pkg
      mapNode g t fun n => { n with needs := ((n.needs ∪ nd).erase pkg).erase t })
    g1
  eraseNode g2 pkg

/-- `RemoveUnusedPackages`: contract every package absent from the install
list, in sorted order. -/
def removeUnusedPackages (env : BuildEnv) (g : Graph) : Graph :=
  (sortF (keysF g \ env.keep)).foldl contractNode g

/-- The `cycles` accumulator of `FindCycles`: the nested dict
`cycles[pkg1][pkg2] = mycycle`, flattened to a pair-keyed association list. -/
abbrev Cyc := List ((Nat × Nat) × List Nat)

def lookupPair : Cyc → Nat × Nat → Option (List Nat)
  | [], _ => none
  | (k, m) :: t, pr => if k = pr then some m else lookupPair t pr

/-- `cycles.get(pkg)` is a non-`None` dict (inner dicts are never empty). -/
def hasPkgCycles (c : Cyc) (p : Nat) : Bool :=
  c.any fun e => decide (e.1.1 = p)

def pairsOf (m : List Nat) : List (Nat × Nat) := m.zip m.tail

/-- Record a discovered cycle: `cycles.setdefault(pkg1, {}).setdefault(pkg2, mycycle)`
for every consecutive pair of `mycycle`. -/
def recordCycle (c : Cyc) (m : List Nat) : Cyc :=
  (pairsOf m).foldl
    (fun c pr =>
      match lookupPair c pr with
      | some _ => c
      | none => c ++ [(pr, m)])
    c

/-- The `for dep in deps_map[pkg]["needs"]` loop of `FindCyclesAtNode`,
parameterized by the recursive visit (`rec`).  `u'` is the `unresolved`
stack with the current package already pushed; `hadKey` records whether
`cycles.get(pkg)` was a live (aliased) inner dict rather than `None` at
entry, in which case later recorded cycles for `pkg` are visible to the
`dep not in pkg_cycles` test. -/
def fcFoldGo (rec : Nat → Cyc → List Nat → Finset Nat → Option (Cyc × Finset Nat))
    (u' : List Nat) (hadKey : Bool) (pkg : Nat) :
    List Nat → Cyc → Finset Nat → Option (Cyc × Finset Nat)
  | [], c, r => some (c, r)
  | dep :: rest, c, r =>
    if dep ∈ u' then
      let i := u'.indexOf dep
      let m := u'.drop i ++ [dep]
      fcFoldGo rec u' hadKey pkg rest (recordCycle c m) r
    else if hadKey = false ∨ lookupPair c (pkg, dep) = none then
      match rec dep c u' r with
      | none => none
      | some (c1, r1) => fcFoldGo rec u' hadKey pkg rest c1 r1
    else
      fcFoldGo rec u' hadKey pkg rest c r

/-- `FindCyclesAtNode`.  `u` is the `unresolved` stack at entry (the callee
pushes itself), `r` is `resolved`, `c` the cycles dict.  Fuel bounds the
recursion depth; `none` means fuel ran out (shown impossible for the fuel
used by `findCyclesO`). -/
def fcAtNode (g : Graph) : Nat → Nat → Cyc → List Nat → Finset Nat →
    Option (Cyc × Finset Nat)
  | 0, _, _, _, _ => none
  | f + 1, pkg, c, u, r =>
    if pkg ∈ r ∧ hasPkgCycles c pkg = false then some (c, r)
    else
      match fcFoldGo (fcAtNode g f) (u ++ [pkg]) (hasPkgCycles c pkg) pkg
          (sortF (needsOf g pkg)) c r with
      | none => none
      | some (c1, r1) => some (c1, insert pkg r1)

/-- All packages any `needs` set can mention. -/
def allNeeds (g : Graph) : Finset Nat :=
  g.foldr (fun e acc => e.2.needs ∪ acc) ∅

def univG (g : Graph) : Finset Nat := keysF g ∪ allNeeds g

def bigFuel (g : Graph) : Nat := (univG g).card + 1

/-- The top-level loop of `FindCycles` over all packages of the graph. -/
def fcTop (g : Graph) : List Nat → Cyc → Finset Nat → Option (Cyc × Finset Nat)
  | [], c, r => some (c, r)
  | p :: ps, c, r =>
    match fcAtNode g (bigFuel g) p c [] r with
    | none => none
    | some (c1, r1) => fcTop g ps c1 r1

def findCyclesO (g : Graph) : Option (Cyc × Finset Nat) :=
  fcTop g (keysList g).dedup [] ∅

/-- `FindCycles`. -/
def findCycles (g : Graph) : Cyc :=
  ((findCyclesO g).map Prod.fst).getD []

/-- The `needs` entries `SanitizeTree`'s deletion pass removes from node `a`:
all recorded pairs `(a, b)` whose `idx` condition holds. -/
def delNeeds (env : BuildEnv) (c : Cyc) (a : Nat) : Finset Nat :=
  c.foldr
    (fun e acc =>
      if e.1.1 = a ∧ env.idxf e.1.1 ≤ env.idxf e.1.2 then insert e.1.2 acc else acc)
    ∅

/-- The `provides` entries the deletion pass removes from node `b`. -/
def delProv (env : BuildEnv) (c : Cyc) (b : Nat) : Finset Nat :=
  c.foldr
    (fun e acc =>
      if e.1.2 = b ∧ env.idxf e.1.1 ≤ env.idxf e.1.2 then insert e.1.1 acc else acc)
    ∅

/-- Break one edge `p → q`: `del deps_map[p]["needs"][q]` and
`deps_map[q]["provides"].remove(p)`. -/
def eraseEdge (g : Graph) (p q : Nat) : Graph :=
  let g1 := mapNode g p fun n => { n with needs := n.needs.erase q }
  mapNode g1 q fun n => { n with provides := n.provides.erase p }

/-- One deletion pass of `SanitizeTree` over the cycles dict: for every
recorded pair `(dep, basedep)` with `idx[basedep] ≥ idx[dep]`, delete the
edge `dep → basedep`. -/
def deleteEdges (env : BuildEnv) (g : Graph) (c : Cyc) : Graph :=
  c.foldl
    (fun g e => if env.idxf e.1.1 ≤ env.idxf e.1.2 then eraseEdge g e.1.1 e.1.2 else g)
    g

def totalNeeds (g : Graph) : Nat := (g.map fun e => e.2.needs.card).sum

/-- The `while cycles:` loop of `SanitizeTree`, fuelled. -/
def sanitizeFuel (env : BuildEnv) : Nat → Graph → Graph
  | 0, g => g
  | f + 1, g =>
    if findCycles g = [] then g
    else sanitizeFuel env f (deleteEdges env g (findCycles g))

/-- `SanitizeTree`. -/
def sanitizeTree (env : BuildEnv) (g : Graph) : Graph :=
  sanitizeFuel env (totalNeeds g + 1) g

def allProvides (g : Graph) : Finset Nat :=
  g.foldr (fun e acc => e.2.provides ∪ acc) ∅

def frpBound (g : Graph) : Nat := (keysF g ∪ allProvides g).card + 1

/-- The `for dep in info["provides"]` loop of `FindRecursiveProvides`,
parameterized by the recursive visit. -/
def frpFold (recf : Graph → Finset Nat → Nat → Graph × Finset Nat) (pkg : Nat) :
    List Nat → Graph × Finset Nat → Graph × Finset Nat
  | [], acc => acc
  | dep :: rest, acc =>
    let r := recf acc.1 acc.2 dep
    let tp := tprovidesOf r.1 dep
    frpFold recf pkg rest
      (mapNode r.1 pkg fun n => { n with tprovides := n.tprovides ∪ tp }, r.2)

/-- `FindRecursiveProvides`: fill `tprovides` by DFS over `provides`. -/
def frp : Nat → Graph → Finset Nat → Nat → Graph × Finset Nat
  | 0, g, seen, _ => (g, seen)
  | f + 1, g, seen, pkg =>
    if pkg ∈ seen then (g, seen)
    else
      frpFold (frp f) pkg
        (sortF (providesOf (mapNode g pkg fun n => { n with tprovides := n.provides }) pkg))
        (mapNode g pkg fun n => { n with tprovides := n.provides }, insert pkg seen)

def frpAll (g : Graph) : Graph :=
  ((keysList g).dedup.foldl
    (fun (acc : Graph × Finset Nat) p => frp (frpBound g) acc.1 acc.2 p) (g, ∅)).1

/-- `GenDependencyGraph`: reverse the tree, prune non-installed packages,
break cycles, compute transitive provides. -/
def genDependencyGraph (env : BuildEnv) (t : DTree) : Graph :=
  frpAll (sanitizeTree env (removeUnusedPackages env (reverseTree env t)))

/-! ## Scheduler (`EmergeQueue`) -/

/-- Scores as pushed on the ready heap: `(-len(tprovides), binary, idx)`. -/
abbrev Score := Int × Bool × Nat

def bval (b : Bool) : Nat := if b then 1 else 0

def scoreOf (n : Node) : Score := (-(n.tprovides.card : Int), n.binary, n.idx)

/-- Heap keys `(score, target)`. -/
abbrev RKey := Score × Nat

/-- Strict lexicographic order on heap keys, exactly as Python compares the
tuples `((-len(tprovides), binary, idx), target)` (`False < True`). -/
def keyLt (a b : RKey) : Prop :=
  a.1.1 < b.1.1 ∨
    (a.1.1 = b.1.1 ∧
      (bval a.1.2.1 < bval b.1.2.1 ∨
        (bval a.1.2.1 = bval b.1.2.1 ∧
          (a.1.2.2 < b.1.2.2 ∨ (a.1.2.2 = b.1.2.2 ∧ a.2 < b.2)))))

instance (a b : RKey) : Decidable (keyLt a b) := by
  unfold keyLt; infer_instance

/-- The minimum of a key list (first occurrence wins on ties). -/
def minKey : List RKey → RKey → RKey
  | [], acc => acc
  | k :: t, acc => minKey t (if keyLt k acc then k else acc)

/-- `heapq.heappop`: remove and return the smallest key. -/
def popMin (l : List RKey) : Option (RKey × List RKey) :=
  match l with
  | [] => none
  | k :: t =>
    let m := minKey t k
    some (m, l.erase m)

/-- Scheduler state: the graph, the in-flight job table (keys only — the
per-job `EmergeJobState` payload carries no scheduling information), the
ready heap, the retry list, the failed set, and the fixed `procs` /
`--load-average` configuration. -/
structure SchedState where
  deps : Graph
  jobs : Finset Nat
  ready : List RKey
  retryQueue : List Nat
  failed : Finset Nat
  procs : Nat
  loadAvgSet : Bool
deriving DecidableEq

def finFuelOf (g : Graph) : Nat := g.length + 1

/-- The `for dep in this_pkg["provides"]` loop of `_Finish`, parameterized
by the recursive finish (`recf`). -/
def finFoldGo (recf : Graph → List RKey → Nat → Graph × List RKey) (target : Nat) :
    List Nat → Graph → List RKey → Graph × List RKey
  | [], g, rdy => (g, rdy)
  | dep :: rest, g, rdy =>
    match findNode g dep with
    | none => finFoldGo recf target rest g rdy
    | some dn =>
      let g' := mapNode g dep fun m => { m with needs := m.needs.erase target }
      if dn.needs.erase target = ∅ then
        if dn.nodeps = true ∧ dn.action = .nomerge then
          let st := recf g' rdy dep
          finFoldGo recf target rest st.1 st.2
        else finFoldGo recf target rest g' (rdy ++ [(scoreOf dn, dep)])
      else finFoldGo recf target rest g' rdy

/-- `EmergeQueue._Finish`, fuelled (the Python recursion depth is bounded by
the graph size on the acyclic graphs the scheduler runs on). -/
def finish : Nat → Graph → List RKey → Nat → Graph × List RKey
  | 0, g, rdy, _ => (g, rdy)
  | f + 1, g, rdy, target =>
    match findNode g target with
    | none => (g, rdy)
    | some n =>
      if n.needs ≠ ∅ ∧ n.nodeps = true then
        (mapNode g target fun m => { m with action := .nomerge }, rdy)
      else
        let st := finFoldGo (finish f) target (sortF n.provides) g rdy
        (eraseNode st.1 target, st.2)

/-- `EmergeQueue._Schedule`: returns the updated state and whether a job was
actually dispatched (the Python `return True`). -/
def scheduleOne (s : SchedState) (target : Nat) : SchedState × Bool :=
  match findNode s.deps target with
  | none => (s, false)
  | some n =>
    if n.action = .nomerge then
      let fr := finish (finFuelOf s.deps) s.deps s.ready target
      ({ s with deps := fr.1, ready := fr.2 }, false)
    else if target ∈ s.jobs then (s, false)
    else ({ s with jobs := insert target s.jobs }, true)

def slFuelOf (s : SchedState) : Nat := s.ready.length + totalNeeds s.deps + 1

/-- `EmergeQueue._ScheduleLoop`, fuelled.  `loadHigh` is the sampled
`os.getloadavg()[0] > self._load_avg` comparison. -/
def scheduleLoopAux (loadHigh : Bool) : Nat → SchedState → SchedState
  | 0, s => s
  | f + 1, s =>
    let needed := if s.loadAvgSet = true ∧ loadHigh = true then 1 else s.procs
    if s.jobs.card < needed then
      match popMin s.ready with
      | none => s
      | some (k, rest) =>
        let s1 := { s with ready := rest }
        if k.2 ∈ s.failed then scheduleLoopAux loadHigh f s1
        else scheduleLoopAux loadHigh f (scheduleOne s1 k.2).1
    else s

def scheduleLoop (loadHigh : Bool) (s : SchedState) : SchedState :=
  scheduleLoopAux loadHigh (slFuelOf s) s

/-- `EmergeQueue._Retry`: pop targets off the front of the retry queue until
one is dispatched; returns the dispatched target, if any. -/
def retryAux : List Nat → SchedState → SchedState × Option Nat
  | [], s => (s, none)
  | t :: rest, s =>
    let sd := scheduleOne { s with retryQueue := rest } t
    if sd.2 then (sd.1, some t) else retryAux rest sd.1

def retryStep (s : SchedState) : SchedState × Option Nat :=
  retryAux s.retryQueue s

/-- A worker report on the job queue (`EmergeJobState`): start events carry
`done = false`, completion events `done = true` with the exit code. -/
structure JobMsg where
  target : Nat
  done : Bool
  retcode : Nat
deriving DecidableEq

/-- The external events one iteration of `Run` consumes: the load-average
samples of the `_ScheduleLoop` calls made on `Queue.Empty` timeouts (`pre`),
the message received (if any; `none` means all three receive attempts timed
out), and the load sample of the trailing `_ScheduleLoop` after processing a
completion (`post`). -/
structure RunInput where
  pre : List Bool
  msg : Option JobMsg
  post : Bool
deriving DecidableEq

/-- How a run ends: the exit code, the graph dumped by `PrintDepsMap`, the
failed set reported (when non-empty), and whether the worker pool and
printer were shut down (`_Exit`). -/
structure ExitInfo where
  code : Nat
  dumpGraph : Graph
  dumpFailed : Option (Finset Nat)
  shutdown : Bool
deriving DecidableEq

inductive StepRes where
  | cont (s : SchedState) (doomReported : Bool)
  | halt (e : ExitInfo)
deriving DecidableEq

def preLoops (s : SchedState) (l : List Bool) : SchedState :=
  l.foldl (fun s lh => scheduleLoop lh s) s

/-- The head of one `Run` iteration: the `while self._deps_map` guard, the
quiescence check (note `jobs = ∅` forces both channels empty, since every
queued task or pending report belongs to an in-flight job), the `_Retry` on
quiescence-with-retries, and the `_ScheduleLoop` calls of the receive
timeouts. -/
def phase1 (s : SchedState) (inp : RunInput) : StepRes :=
  if s.deps = [] then .halt ⟨0, [], none, true⟩
  else if s.jobs = ∅ ∧ s.ready = [] ∧ s.retryQueue = [] then
    .halt ⟨1, s.deps, if s.failed = ∅ then none else some s.failed, true⟩
  else
    let s1 := if s.jobs = ∅ ∧ s.ready = [] then (retryStep s).1 else s
    .cont (preLoops s1 inp.pre) false

/-- Completion processing of `Run` (from `target = job.target` down to the
trailing `_ScheduleLoop`).  The returned flag reports a second failure of
the same package ("Your build has failed"). -/
def procMsg (s2 : SchedState) (j : JobMsg) (post : Bool) : SchedState × Bool :=
  if j.done = false then (s2, false)
  else
    let s3 := { s2 with jobs := s2.jobs.erase j.target }
    let prevFailed := j.target ∈ s2.failed
    if j.retcode ≠ 0 then
      if prevFailed then (scheduleLoop post s3, true)
      else
        (scheduleLoop post
          { s3 with retryQueue := s3.retryQueue ++ [j.target],
                    failed := insert j.target s3.failed }, false)
    else
      let s4 := if prevFailed then { s3 with failed := s3.failed.erase j.target } else s3
      let fr := finish (finFuelOf s4.deps) s4.deps s4.ready j.target
      let s5 := { s4 with deps := fr.1, ready := fr.2 }
      let s6 := if prevFailed ∧ s5.retryQueue ≠ [] then (retryStep s5).1 else s5
      (scheduleLoop post s6, false)

/-- One full iteration of `EmergeQueue.Run`'s while loop. -/
def runStep (s : SchedState) (inp : RunInput) : StepRes :=
  match phase1 s inp with
  | .halt e => .halt e
  | .cont s2 _ =>
    match inp.msg with
    | none => .cont s2 false
    | some j =>
      let pm := procMsg s2 j inp.post
      .cont pm.1 pm.2

/-- Run a whole input trace; `none` once the loop has exited. -/
def runTrace (s : SchedState) : List RunInput → Option SchedState
  | [] => some s
  | inp :: rest =>
    match runStep s inp with
    | .cont s' _ => runTrace s' rest
    | .halt _ => none

/-- The state after `phase1` (used to state event validity). -/
def afterPre (s : SchedState) (inp : RunInput) : SchedState :=
  match phase1 s inp with
  | .cont s2 _ => s2
  | .halt _ => s

/-- Valid events: a completion report's target is an in-flight job (workers
only report tasks the scheduler dispatched). -/
def ValidIn (s : SchedState) (inp : RunInput) : Prop :=
  ∀ j, inp.msg = some j → j.done = true → j.target ∈ (afterPre s inp).jobs

/-- The initial ready list built by `EmergeQueue.__init__`. -/
def initReady (g : Graph) : List RKey :=
  g.foldr
    (fun e acc =>
      if e.2.nodeps = true ∨ e.2.needs = ∅ then (scoreOf e.2, e.1) :: acc else acc)
    []

def totalJobs (g : Graph) : Nat :=
  (g.filter fun e => decide (e.2.action = Action.merge)).length

/-- Scheduler state as `EmergeQueue.__init__` builds it, before its initial
`_ScheduleLoop`. -/
def baseState (g : Graph) (procs : Nat) (las : Bool) : SchedState :=
  { deps := g, jobs := ∅, ready := initReady g, retryQueue := [],
    failed := ∅, procs := procs, loadAvgSet := las }

/-- Reachability through valid `Run` iterations. -/
inductive Reaches : SchedState → SchedState → Prop where
  | refl (s : SchedState) : Reaches s s
  | step (s t u : SchedState) (inp : RunInput) (b : Bool) (hv : ValidIn t inp)
      (h : runStep t inp = .cont u b) (ht : Reaches s t) : Reaches s u

/-! ## Graph-level specification predicates -/

/-- Edge symmetry with presence: every `needs`/`provides` edge has its mirror
and its endpoint in the graph. -/
def EdgeSym (g : Graph) : Prop :=
  ∀ p n, findNode g p = some n →
    (∀ q ∈ n.needs, ∃ m, findNode g q = some m ∧ p ∈ m.provides) ∧
    (∀ q ∈ n.provides, ∃ m, findNode g q = some m ∧ p ∈ m.needs)

/-- `l` is a path along `needs` edges. -/
def IsNeedsPath (g : Graph) (l : List Nat) : Prop :=
  l.Chain' fun a b => b ∈ needsOf g a

/-- `m` is a non-trivial cycle along `needs` edges. -/
def IsCycleL (g : Graph) (m : List Nat) : Prop :=
  2 ≤ m.length ∧ m.head? = m.getLast? ∧ IsNeedsPath g m

/-- No non-empty `needs` path returns to `p`. -/
def AcyclicAt (g : Graph) (p : Nat) : Prop :=
  ∀ m, IsCycleL g m → m.head? ≠ some p

/-- Soundness invariant of the cycles dict built by `FindCycles`: every
entry's example traversal is a genuine cycle of the graph, its key is a
consecutive pair of that traversal, and every consecutive pair of the
traversal is itself a key of the dict. -/
def CycOK (g : Graph) (c : Cyc) : Prop :=
  ∀ pr m, (pr, m) ∈ c →
    IsCycleL g m ∧ pr ∈ pairsOf m ∧ ∀ ab ∈ pairsOf m, ∃ m', (ab, m') ∈ c

/-- Every member of `r` is accessible along `needs` edges (no cycle is
reachable from it). -/
def AllAcc (g : Graph) (r : Finset Nat) : Prop :=
  ∀ x ∈ r, Acc (fun a b => a ∈ needsOf g b) x

/-- No package needs itself. -/
def NoSelfLoop (g : Graph) : Prop := ∀ p, p ∉ needsOf g p

/-- Edge symmetry away from a set `X` of in-progress `_Finish` targets:
every node outside `X` has fully mirrored, present edges. -/
def EdgeSymX (g : Graph) (X : Finset Nat) : Prop :=
  ∀ p, p ∉ X →
    (∀ q ∈ needsOf g p, q ∈ keysF g ∧ p ∈ providesOf g q) ∧
    (∀ q ∈ providesOf g p, q ∈ keysF g ∧ p ∈ needsOf g q)

/-- Executable edge-symmetry check (bridges to `EdgeSym` for concrete graphs). -/
def edgeSymB (g : Graph) : Bool :=
  g.all fun e =>
    ((sortF e.2.needs).all fun q =>
      match findNode g q with
      | some m => decide (e.1 ∈ m.provides)
      | none => false) &&
    ((sortF e.2.provides).all fun q =>
      match findNode g q with
      | some m => decide (e.1 ∈ m.needs)
      | none => false)

/-! ## Demo inputs for witnesses and counterexamples -/

/-- Two-package cycle of the spec's scenario 4: package 0 (A) and 1 (B) need
each other; `idx A = 0`, `idx B = 1`. -/
def nodeA : Node :=
  { action := .merge, needs := {1}, provides := {1}, tprovides := ∅,
    idx := 0, binary := false, nodeps := false }

def nodeB : Node :=
  { action := .merge, needs := {0}, provides := {0}, tprovides := ∅,
    idx := 1, binary := false, nodeps := false }

def gAB : Graph := [(0, nodeA), (1, nodeB)]

def envAB : BuildEnv :=
  { keep := {0, 1}, idxf := id, isBin := fun _ => false, noPh := fun _ => false }

/-- A `nodeps` binary node with an unmet dep, for the `_Finish` demote branch. -/
def node9 : Node :=
  { action := .merge, needs := {1}, provides := {2}, tprovides := ∅,
    idx := 0, binary := true, nodeps := true }

def g9 : Graph := [(0, node9), (1, defaultNode .merge), (2, defaultNode .merge)]

/-- `_Finish(0)` here removes both 0 and its `nodeps`/`nomerge` successor 1. -/
def nodeC4A : Node :=
  { action := .merge, needs := ∅, provides := {1}, tprovides := ∅,
    idx := 0, binary := false, nodeps := false }

def nodeC4B : Node :=
  { action := .nomerge, needs := {0}, provides := ∅, tprovides := ∅,
    idx := 1, binary := true, nodeps := true }

def gC4 : Graph := [(0, nodeC4A), (1, nodeC4B)]

/-- Two ready packages with equal `tprovides` size: package 0 is a binary
(idx 0), package 1 is not (idx 1). -/
def nodeC3bin : Node :=
  { action := .merge, needs := ∅, provides := ∅, tprovides := {5},
    idx := 0, binary := true, nodeps := false }

def nodeC3src : Node :=
  { action := .merge, needs := ∅, provides := ∅, tprovides := {6},
    idx := 1, binary := false, nodeps := false }

def gC3 : Graph := [(0, nodeC3bin), (1, nodeC3src)]

def sC3 : SchedState :=
  { deps := gC3, jobs := ∅, ready := initReady gC3, retryQueue := [],
    failed := ∅, procs := 1, loadAvgSet := false }

/-- State for the deadlock-exit witness: nothing runnable, graph non-empty. -/
def sC8 : SchedState :=
  { deps := [(3, defaultNode .merge)], jobs := ∅, ready := [], retryQueue := [],
    failed := {7}, procs := 2, loadAvgSet := false }

/-- State for the retry witness: target 4 is absent from the graph (so it is
discarded), target 0 is dispatchable. -/
def sC10 : SchedState :=
  { deps := gC3, jobs := ∅, ready := [], retryQueue := [4, 0, 9],
    failed := {4, 0, 9}, procs := 2, loadAvgSet := false }

/-- Two independent merge-ready packages, for the load-cap scenario. -/
def nodeC6A : Node :=
  { action := .merge, needs := ∅, provides := ∅, tprovides := ∅,
    idx := 0, binary := false, nodeps := false }

def nodeC6B : Node :=
  { action := .merge, needs := ∅, provides := ∅, tprovides := ∅,
    idx := 1, binary := false, nodeps := false }

def gC6 : Graph := [(0, nodeC6A), (1, nodeC6B)]

/-- The state after both packages were dispatched on a low-load sample. -/
def sC6run : SchedState :=
  { deps := gC6, jobs := insert 1 (insert 0 ∅), ready := [], retryQueue := [],
    failed := ∅, procs := 2, loadAvgSet := true }

/-- Second-failure scenario: package 0 is in flight and already in `failed`;
package 1 sits ready. -/
def sC7 : SchedState :=
  { deps := gC6, jobs := {0}, ready := [(scoreOf nodeC6B, 1)], retryQueue := [],
    failed := {0}, procs := 2, loadAvgSet := false }

/-- The state one `Run` iteration after `sC7` receives 0's second failure. -/
def sC7x : SchedState :=
  { deps := gC6, jobs := {1}, ready := [], retryQueue := [],
    failed := {0}, procs := 2, loadAvgSet := false }

/-- Executable irreflexivity check for `needs`. -/
def noSelfLoopB (g : Graph) : Bool :=
  (keysList g).all fun p => decide (p ∉ needsOf g p)

/-- A two-package tree: package 0 build-depends on package 1. -/
def tC5 : DTree :=
  .node [(0, .merge, [], .node [(1, .merge, [.buildtime], .node [])])]

def envC5 : BuildEnv :=
  { keep := {0, 1}, idxf := id, isBin := fun _ => false, noPh := fun _ => false }

/-- A degenerate tree where package 1 directly depends on itself, below a
root package 0 that is not on the install list. -/
def tSelf : DTree :=
  .node [(0, .merge, [],
    .node [(1, .merge, [.buildtime],
      .node [(1, .merge, [.buildtime], .node [])])])]

def envSelf : BuildEnv :=
  { keep := {1}, idxf := id, isBin := fun _ => false, noPh := fun _ => false }

/-- A symmetric two-cycle where package 0 is `nodeps` (demote scenario). -/
def gC5d : Graph :=
  [(0, { action := .merge, needs := {1}, provides := {1}, tprovides := ∅,
         idx := 0, binary := false, nodeps := true }),
   (1, { action := .merge, needs := {0}, provides := {0}, tprovides := ∅,
         idx := 1, binary := false, nodeps := false })]

/-! ## Basic lemmas about the graph primitives -/

theorem mapNode_cons (k : Nat) (v : Node) (t : Graph) (p : Nat) (f : Node → Node) :
    mapNode ((k, v) :: t) p f =
      (if k = p then (k, f v) else (k, v)) :: mapNode t p f := by
  by_cases hk : k = p <;> simp [mapNode, hk]

theorem eraseNode_cons (k : Nat) (v : Node) (t : Graph) (p : Nat) :
    eraseNode ((k, v) :: t) p =
      if k = p then eraseNode t p else (k, v) :: eraseNode t p := by
  by_cases hk : k = p <;> simp [eraseNode, List.filter_cons, hk]

theorem findNode_mem {g : Graph} {p : Nat} {n : Node} (h : findNode g p = some n) :
    (p, n) ∈ g := by
  induction g with
  | nil => simp [findNode] at h
  | cons e t ih =>
    obtain ⟨k, v⟩ := e
    simp only [findNode] at h
    by_cases hk : k = p
    · rw [if_pos hk] at h
      injection h with h2
      subst hk; subst h2
      exact List.mem_cons_self _ _
    · rw [if_neg hk] at h
      exact List.mem_cons_of_mem _ (ih h)

theorem findNode_mapNode (g : Graph) (p : Nat) (f : Node → Node) (q : Nat) :
    findNode (mapNode g p f) q = if q = p then (findNode g q).map f else findNode g q := by
  induction g with
  | nil => by_cases h : q = p <;> simp [findNode, mapNode, h]
  | cons e t ih =>
    obtain ⟨k, v⟩ := e
    rw [mapNode_cons]
    by_cases hk : k = p
    · rw [if_pos hk]
      by_cases hq : k = q
      · have hqp : q = p := hq.symm.trans hk
        simp only [findNode, if_pos hq, if_pos hqp, Option.map_some']
      · simp only [findNode, if_neg hq, ih]
    · rw [if_neg hk]
      by_cases hq : k = q
      · have hqp : ¬q = p := fun hc => hk (hq.trans hc)
        simp only [findNode, if_pos hq, if_neg hqp]
      · simp only [findNode, if_neg hq, ih]

theorem findNode_eraseNode (g : Graph) (p q : Nat) :
    findNode (eraseNode g p) q = if q = p then none else findNode g q := by
  induction g with
  | nil => by_cases h : q = p <;> simp [findNode, eraseNode, h]
  | cons e t ih =>
    obtain ⟨k, v⟩ := e
    rw [eraseNode_cons]
    by_cases hk : k = p
    · rw [if_pos hk, ih]
      by_cases hq : q = p
      · rw [if_pos hq, if_pos hq]
      · have hkq : ¬k = q := fun hc => hq (hc.symm.trans hk)
        rw [if_neg hq, if_neg hq]
        simp only [findNode, if_neg hkq]
    · rw [if_neg hk]
      by_cases hq : k = q
      · have hqp : ¬q = p := fun hc => hk (hq.trans hc)
        simp only [findNode, if_pos hq, if_neg hqp]
      · simp only [findNode, if_neg hq, ih]

theorem keysList_mapNode (g : Graph) (p : Nat) (f : Node → Node) :
    keysList (mapNode g p f) = keysList g := by
  induction g with
  | nil => rfl
  | cons e t ih =>
    obtain ⟨k, v⟩ := e
    rw [mapNode_cons]
    by_cases hk : k = p
    · rw [if_pos hk]
      simp only [keysList, List.map_cons]
      rw [show List.map Prod.fst (mapNode t p f) = keysList (mapNode t p f) from rfl, ih]
      rfl
    · rw [if_neg hk]
      simp only [keysList, List.map_cons]
      rw [show List.map Prod.fst (mapNode t p f) = keysList (mapNode t p f) from rfl, ih]
      rfl

theorem keysF_mapNode (g : Graph) (p : Nat) (f : Node → Node) :
    keysF (mapNode g p f) = keysF g := by
  simp [keysF, keysList_mapNode]

theorem findNode_isSome_iff (g : Graph) (p : Nat) :
    (findNode g p).isSome = true ↔ p ∈ keysF g := by
  induction g with
  | nil => simp [findNode, keysF, keysList]
  | cons e t ih =>
    obtain ⟨k, v⟩ := e
    by_cases hk : k = p
    · subst hk; simp [findNode, keysF, keysList]
    · simp only [findNode, if_neg hk]
      rw [ih]
      simp [keysF, keysList, Ne.symm hk]

theorem findNode_eq_none_iff (g : Graph) (p : Nat) :
    findNode g p = none ↔ p ∉ keysF g := by
  rw [← findNode_isSome_iff]
  cases findNode g p <;> simp

theorem mem_keysF_iff (g : Graph) (p : Nat) :
    p ∈ keysF g ↔ ∃ n, findNode g p = some n := by
  rw [← findNode_isSome_iff]
  cases findNode g p <;> simp

theorem keysF_eraseNode (g : Graph) (p : Nat) :
    keysF (eraseNode g p) = (keysF g).erase p := by
  ext q
  by_cases hq : q = p
  · subst hq
    rw [← findNode_isSome_iff, findNode_eraseNode]
    simp
  · rw [← findNode_isSome_iff, findNode_eraseNode, if_neg hq, findNode_isSome_iff]
    simp [Finset.mem_erase, hq]

theorem needsOf_mapNode (g : Graph) (p : Nat) (f : Node → Node) (q : Nat) :
    needsOf (mapNode g p f) q =
      if q = p then ((findNode g q).map fun n => (f n).needs).getD ∅ else needsOf g q := by
  by_cases h : q = p
  · subst h
    rw [needsOf, findNode_mapNode, if_pos rfl, if_pos rfl]
    cases findNode g q <;> rfl
  · rw [needsOf, findNode_mapNode, if_neg h, if_neg h, needsOf]

theorem providesOf_mapNode (g : Graph) (p : Nat) (f : Node → Node) (q : Nat) :
    providesOf (mapNode g p f) q =
      if q = p then ((findNode g q).map fun n => (f n).provides).getD ∅ else providesOf g q := by
  by_cases h : q = p
  · subst h
    rw [providesOf, findNode_mapNode, if_pos rfl, if_pos rfl]
    cases findNode g q <;> rfl
  · rw [providesOf, findNode_mapNode, if_neg h, if_neg h, providesOf]

theorem insortNat_perm (x : Nat) (l : List Nat) : (insortNat x l).Perm (x :: l) := by
  induction l with
  | nil => simp [insortNat]
  | cons y t ih =>
    by_cases h : x ≤ y
    · simp [insortNat, h]
    · simp only [insortNat, if_neg h]
      exact (ih.cons y).trans (List.Perm.swap x y t)

theorem foldr_insortNat_coe (m : Multiset Nat) :
    ((Multiset.foldr insortNat [] m : List Nat) : Multiset Nat) = m := by
  induction m using Multiset.induction_on with
  | empty => simp
  | cons a m ih =>
    rw [Multiset.foldr_cons]
    have h := Multiset.coe_eq_coe.mpr (insortNat_perm a (Multiset.foldr insortNat [] m))
    rw [h, ← Multiset.cons_coe, ih]

theorem sortF_coe (s : Finset Nat) : ((sortF s : List Nat) : Multiset Nat) = s.val :=
  foldr_insortNat_coe s.val

theorem mem_sortF (s : Finset Nat) (a : Nat) : a ∈ sortF s ↔ a ∈ s := by
  have h := sortF_coe s
  constructor
  · intro ha
    have : a ∈ (sortF s : Multiset Nat) := by simpa using ha
    rw [h] at this
    exact this
  · intro ha
    have : a ∈ s.val := ha
    rw [← h] at this
    simpa using this

theorem sortF_nodup (s : Finset Nat) : (sortF s).Nodup := by
  have h := sortF_coe s
  have : Multiset.Nodup (sortF s : Multiset Nat) := by rw [h]; exact s.nodup
  simpa using this

theorem edgeSymB_spec {g : Graph} (h : edgeSymB g = true) : EdgeSym g := by
  intro p n hfind
  have hmem := findNode_mem hfind
  rw [edgeSymB, List.all_eq_true] at h
  have he := h _ hmem
  rw [Bool.and_eq_true, List.all_eq_true, List.all_eq_true] at he
  constructor
  · intro q hq
    have := he.1 q ((mem_sortF _ _).mpr hq)
    revert this
    cases hfq : findNode g q with
    | none => intro hfalse; cases hfalse
    | some m => intro hdec; exact ⟨m, rfl, of_decide_eq_true hdec⟩
  · intro q hq
    have := he.2 q ((mem_sortF _ _).mpr hq)
    revert this
    cases hfq : findNode g q with
    | none => intro hfalse; cases hfalse
    | some m => intro hdec; exact ⟨m, rfl, of_decide_eq_true hdec⟩

/-! ## Frame lemmas for `_Finish` -/

theorem finFoldGo_keys_sub {recf : Graph → List RKey → Nat → Graph × List RKey}
    (hrec : ∀ g rdy d, keysF (recf g rdy d).1 ⊆ keysF g) (target : Nat) :
    ∀ (deps : List Nat) (g : Graph) (rdy : List RKey),
      keysF (finFoldGo recf target deps g rdy).1 ⊆ keysF g := by
  intro deps
  induction deps with
  | nil => intro g rdy; simp [finFoldGo]
  | cons dep rest ih =>
    intro g rdy
    cases hfd : findNode g dep with
    | none => simp only [finFoldGo, hfd]; exact ih g rdy
    | some dn =>
      simp only [finFoldGo, hfd]
      by_cases h1 : dn.needs.erase target = ∅
      · rw [if_pos h1]
        by_cases h2 : dn.nodeps = true ∧ dn.action = .nomerge
        · rw [if_pos h2]
          refine (ih _ _).trans ((hrec _ _ _).trans ?_)
          rw [keysF_mapNode]
        · rw [if_neg h2]
          refine (ih _ _).trans ?_
          rw [keysF_mapNode]
      · rw [if_neg h1]
        refine (ih _ _).trans ?_
        rw [keysF_mapNode]

theorem finish_keys_sub :
    ∀ (f : Nat) (g : Graph) (rdy : List RKey) (t : Nat),
      keysF (finish f g rdy t).1 ⊆ keysF g := by
  intro f
  induction f with
  | zero => intro g rdy t; simp [finish]
  | succ f ih =>
    intro g rdy t
    cases hft : findNode g t with
    | none => simp only [finish, hft]; exact Finset.Subset.refl _
    | some n =>
      simp only [finish, hft]
      by_cases hc : n.needs ≠ ∅ ∧ n.nodeps = true
      · rw [if_pos hc, keysF_mapNode]
      · rw [if_neg hc]
        rw [keysF_eraseNode]
        exact (Finset.erase_subset _ _).trans
          (finFoldGo_keys_sub (fun g rdy d => ih g rdy d) t _ g rdy)

theorem finish_else_not_mem (f : Nat) (g : Graph) (rdy : List RKey) (t : Nat)
    (n : Node) (hft : findNode g t = some n) (hc : ¬(n.needs ≠ ∅ ∧ n.nodeps = true)) :
    t ∉ keysF (finish (f + 1) g rdy t).1 ∧
    keysF (finish (f + 1) g rdy t).1 ⊆ (keysF g).erase t := by
  have heq : (finish (f + 1) g rdy t).1 =
      eraseNode (finFoldGo (finish f) t (sortF n.provides) g rdy).1 t := by
    simp only [finish, hft]
    rw [if_neg hc]
  rw [heq, keysF_eraseNode]
  refine ⟨Finset.not_mem_erase _ _, ?_⟩
  exact Finset.erase_subset_erase _
    (finFoldGo_keys_sub (fun g rdy d => finish_keys_sub f g rdy d) t _ g rdy)

theorem finFoldGo_actions {recf : Graph → List RKey → Nat → Graph × List RKey}
    (hrecK : ∀ g rdy d, keysF (recf g rdy d).1 ⊆ keysF g)
    (hrec : ∀ g rdy d, needsOf g d = ∅ →
      ∀ q m m', findNode g q = some m → findNode (recf g rdy d).1 q = some m' →
        m'.action = m.action)
    (target : Nat) :
    ∀ (deps : List Nat) (g : Graph) (rdy : List RKey) (q : Nat) (m m' : Node),
      findNode g q = some m →
      findNode (finFoldGo recf target deps g rdy).1 q = some m' →
      m'.action = m.action := by
  intro deps
  induction deps with
  | nil =>
    intro g rdy q m m' hm hm'
    simp only [finFoldGo] at hm'
    rw [hm] at hm'
    injection hm' with h
    rw [h]
  | cons dep rest ih =>
    intro g rdy q m m' hm hm'
    cases hfd : findNode g dep with
    | none =>
      simp only [finFoldGo, hfd] at hm'
      exact ih g rdy q m m' hm hm'
    | some dn =>
      simp only [finFoldGo, hfd] at hm'
      have hm1 : ∃ m1, findNode (mapNode g dep fun nd => { nd with needs := nd.needs.erase target }) q
          = some m1 ∧ m1.action = m.action := by
        rw [findNode_mapNode]
        by_cases hq : q = dep
        · subst hq
          rw [if_pos rfl, hm]
          exact ⟨_, rfl, rfl⟩
        · rw [if_neg hq]
          exact ⟨m, hm, rfl⟩
      obtain ⟨m1, hm1f, hm1a⟩ := hm1
      by_cases h1 : dn.needs.erase target = ∅
      · rw [if_pos h1] at hm'
        by_cases h2 : dn.nodeps = true ∧ dn.action = .nomerge
        · rw [if_pos h2] at hm'
          -- through the recursive finish, then the rest of the fold
          set g' := mapNode g dep fun nd => { nd with needs := nd.needs.erase target } with hg'
          have hdnil : needsOf g' dep = ∅ := by
            rw [hg', needsOf_mapNode, if_pos rfl, hfd]
            simpa using h1
          -- q survives in (recf g' rdy dep).1 since it survives to the end
          have hq2 : q ∈ keysF (finFoldGo recf target rest (recf g' rdy dep).1 (recf g' rdy dep).2).1 :=
            (mem_keysF_iff _ _).mpr ⟨m', hm'⟩
          have hq3 : q ∈ keysF (recf g' rdy dep).1 :=
            finFoldGo_keys_sub hrecK target rest _ _ hq2
          obtain ⟨m2, hm2⟩ := (mem_keysF_iff _ _).mp hq3
          have ha2 : m2.action = m1.action := hrec g' rdy dep hdnil q m1 m2 hm1f hm2
          have ha3 : m'.action = m2.action := ih _ _ q m2 m' hm2 hm'
          rw [ha3, ha2, hm1a]
        · rw [if_neg h2] at hm'
          have := ih _ _ q m1 m' hm1f hm'
          rw [this, hm1a]
      · rw [if_neg h1] at hm'
        have := ih _ _ q m1 m' hm1f hm'
        rw [this, hm1a]

theorem finish_actions :
    ∀ (f : Nat) (g : Graph) (rdy : List RKey) (t : Nat),
      ¬(needsOf g t ≠ ∅ ∧ nodepsOf g t = true) →
      ∀ q m m', findNode g q = some m → findNode (finish f g rdy t).1 q = some m' →
        m'.action = m.action := by
  intro f
  induction f with
  | zero =>
    intro g rdy t _ q m m' hm hm'
    simp only [finish] at hm'
    rw [hm] at hm'
    injection hm' with h
    rw [h]
  | succ f ih =>
    intro g rdy t ht q m m' hm hm'
    cases hft : findNode g t with
    | none =>
      simp only [finish, hft] at hm'
      rw [hm] at hm'
      injection hm' with h
      rw [h]
    | some n =>
      simp only [finish, hft] at hm'
      have hc : ¬(n.needs ≠ ∅ ∧ n.nodeps = true) := by
        intro hcon
        apply ht
        constructor
        · rw [needsOf, hft]; simpa using hcon.1
        · rw [nodepsOf, hft]; simpa using hcon.2
      rw [if_neg hc] at hm'
      rw [findNode_eraseNode] at hm'
      by_cases hq : q = t
      · rw [if_pos hq] at hm'; cases hm'
      · rw [if_neg hq] at hm'
        exact finFoldGo_actions (fun g rdy d => finish_keys_sub f g rdy d)
          (fun g rdy d hd => ih g rdy d (fun hcon => hcon.1 hd)) t _ g rdy q m m' hm hm'

/-- Claim C9: when `_Finish(p)` runs on a node with unmet needs and
`nodeps` set, the only state change is demoting that node's action to
`nomerge`: the node stays in the graph, every node's `needs` and `provides`
sets are untouched, and the ready heap is returned unchanged. -/
theorem C9_finish_demote_frame (f : Nat) (g : Graph) (rdy : List RKey) (t : Nat)
    (n : Node) (hfind : findNode g t = some n) (hne : n.needs ≠ ∅)
    (hnd : n.nodeps = true) :
    finish (f + 1) g rdy t = (mapNode g t fun m => { m with action := .nomerge }, rdy) ∧
    t ∈ keysF (finish (f + 1) g rdy t).1 ∧
    actionOf (finish (f + 1) g rdy t).1 t = some .nomerge ∧
    (∀ q, needsOf (finish (f + 1) g rdy t).1 q = needsOf g q) ∧
    (∀ q, providesOf (finish (f + 1) g rdy t).1 q = providesOf g q) ∧
    (finish (f + 1) g rdy t).2 = rdy := by
  have heq : finish (f + 1) g rdy t =
      (mapNode g t fun m => { m with action := .nomerge }, rdy) := by
    simp only [finish, hfind]
    rw [if_pos ⟨hne, hnd⟩]
  refine ⟨heq, ?_, ?_, ?_, ?_, ?_⟩
  · rw [heq]
    simp only [keysF_mapNode]
    exact (mem_keysF_iff _ _).mpr ⟨n, hfind⟩
  · rw [heq, actionOf, findNode_mapNode, if_pos rfl, hfind]
    rfl
  · intro q
    rw [heq]
    rw [needsOf_mapNode]
    by_cases hq : q = t
    · rw [if_pos hq, needsOf, hq]
    · rw [if_neg hq]
  · intro q
    rw [heq]
    rw [providesOf_mapNode]
    by_cases hq : q = t
    · rw [if_pos hq, providesOf, hq]
    · rw [if_neg hq]
  · rw [heq]

/-- Witness for C9 at a concrete graph. -/
theorem C9_finish_demote_frame_witness :
    findNode g9 0 = some node9 ∧ node9.needs ≠ ∅ ∧ node9.nodeps = true ∧
      finish 1 g9 [] 0 = (mapNode g9 0 fun m => { m with action := .nomerge }, []) :=
  ⟨rfl, by decide, rfl, (C9_finish_demote_frame 0 g9 [] 0 node9 rfl (by decide) rfl).1⟩

/-- Claim C4 (amended): a `_Finish(p)` call on a present node either (demote
case) rewrites exactly `p`'s action to `nomerge` and changes nothing else,
or (removal case) strictly reduces the graph's key count by at least one and
changes no surviving node's action; the two cases are mutually exclusive.
As stated the original claim is false: the removal case can delete more
than one node (see the counterexample). -/
theorem C4_finish_progress (f : Nat) (g : Graph) (rdy : List RKey) (t : Nat)
    (n : Node) (hfind : findNode g t = some n) :
    ((n.needs ≠ ∅ ∧ n.nodeps = true) →
      finish (f + 1) g rdy t = (mapNode g t fun m => { m with action := .nomerge }, rdy)) ∧
    (¬(n.needs ≠ ∅ ∧ n.nodeps = true) →
      (keysF (finish (f + 1) g rdy t).1).card < (keysF g).card ∧
      t ∉ keysF (finish (f + 1) g rdy t).1 ∧
      (∀ q m m', findNode g q = some m →
        findNode (finish (f + 1) g rdy t).1 q = some m' → m'.action = m.action)) := by
  constructor
  · intro hc
    simp only [finish, hfind]
    rw [if_pos hc]
  · intro hc
    have hmem : t ∈ keysF g := (mem_keysF_iff _ _).mpr ⟨n, hfind⟩
    obtain ⟨hnot, hsub⟩ := finish_else_not_mem f g rdy t n hfind hc
    refine ⟨?_, hnot, ?_⟩
    · calc (keysF (finish (f + 1) g rdy t).1).card
          ≤ ((keysF g).erase t).card := Finset.card_le_card hsub
        _ < (keysF g).card := by
            rw [Finset.card_erase_of_mem hmem]
            have : 0 < (keysF g).card := Finset.card_pos.mpr ⟨t, hmem⟩
            omega
    · intro q m m' hm hm'
      refine finish_actions (f + 1) g rdy t ?_ q m m' hm hm'
      intro hcon
      apply hc
      constructor
      · rw [needsOf, hfind] at hcon
        simpa using hcon.1
      · rw [nodepsOf, hfind] at hcon
        simpa using hcon.2

/-- Witness for C4 (amended) at a concrete graph. -/
theorem C4_finish_progress_witness :
    findNode gC4 0 = some nodeC4A ∧
      ¬(nodeC4A.needs ≠ ∅ ∧ nodeC4A.nodeps = true) ∧
      (keysF (finish 2 gC4 [] 0).1).card < (keysF gC4).card :=
  ⟨rfl, by decide,
    ((C4_finish_progress 1 gC4 [] 0 nodeC4A rfl).2 (by decide)).1⟩

/-- Counterexample for C4 as stated: finishing package 0 of `gC4` removes
*two* nodes (0 and its `nodeps`/`nomerge` dependent 1), so a successful
`Finish` neither reduces `|DepGraph|` by exactly one nor demotes a node. -/
theorem C4_finish_two_removed :
    finish 2 gC4 [] 0 = ([], []) ∧ gC4.length = 2 ∧
      (keysF gC4).card = 2 ∧ (keysF (finish 2 gC4 [] 0).1).card = 0 := by
  refine ⟨?_, rfl, ?_, ?_⟩ <;> rfl

/-! ## The ready-heap order -/

theorem bval_inj {a b : Bool} (h : bval a = bval b) : a = b := by
  cases a <;> cases b <;> first | rfl | simp [bval] at h

theorem keyLt_irrefl (a : RKey) : ¬keyLt a a := by
  unfold keyLt
  omega

theorem keyLt_trans {a b c : RKey} (h1 : keyLt a b) (h2 : keyLt b c) : keyLt a c := by
  unfold keyLt at *
  omega

theorem keyLt_antisym_eq {a b : RKey} (h1 : ¬keyLt a b) (h2 : ¬keyLt b a) : a = b := by
  obtain ⟨⟨a1, ab, ai⟩, ap⟩ := a
  obtain ⟨⟨b1, bb, bi⟩, bp⟩ := b
  unfold keyLt at h1 h2
  simp only at h1 h2
  have e1 : a1 = b1 := by omega
  have e2 : bval ab = bval bb := by omega
  have e3 : ai = bi := by omega
  have e4 : ap = bp := by omega
  rw [e1, bval_inj e2, e3, e4]

theorem minKey_mem (l : List RKey) (acc : RKey) :
    minKey l acc = acc ∨ minKey l acc ∈ l := by
  induction l generalizing acc with
  | nil => left; rfl
  | cons k t ih =>
    simp only [minKey]
    rcases ih (if keyLt k acc then k else acc) with h | h
    · rw [h]
      by_cases hk : keyLt k acc
      · right; rw [if_pos hk]; exact List.mem_cons_self _ _
      · left; rw [if_neg hk]
    · right; exact List.mem_cons_of_mem _ h

theorem keyLt_cases (a b : RKey) : keyLt a b ∨ a = b ∨ keyLt b a := by
  by_cases h1 : keyLt a b
  · exact Or.inl h1
  by_cases h2 : keyLt b a
  · exact Or.inr (Or.inr h2)
  exact Or.inr (Or.inl (keyLt_antisym_eq h1 h2))

theorem minKey_min :
    ∀ (l : List RKey) (acc x : RKey), (x = acc ∨ x ∈ l) → ¬keyLt x (minKey l acc) := by
  intro l
  induction l with
  | nil =>
    intro acc x hx
    rcases hx with rfl | h
    · simp only [minKey]; exact keyLt_irrefl x
    · cases h
  | cons k t ih =>
    intro acc x hx
    simp only [minKey]
    by_cases hk : keyLt k acc
    · rw [if_pos hk]
      rcases hx with rfl | hx
      · intro hcon
        exact ih _ _ (Or.inl rfl) (keyLt_trans hk hcon)
      · rcases List.mem_cons.mp hx with rfl | hx2
        · exact ih _ _ (Or.inl rfl)
        · exact ih _ _ (Or.inr hx2)
    · rw [if_neg hk]
      rcases hx with rfl | hx
      · exact ih _ _ (Or.inl rfl)
      · rcases List.mem_cons.mp hx with rfl | hx2
        · rcases keyLt_cases x acc with h1 | h1 | h1
          · exact absurd h1 hk
          · rw [h1]; exact ih _ _ (Or.inl rfl)
          · intro hcon
            exact ih _ _ (Or.inl rfl) (keyLt_trans h1 hcon)
        · exact ih _ _ (Or.inr hx2)

theorem popMin_none_iff (l : List RKey) : popMin l = none ↔ l = [] := by
  cases l <;> simp [popMin]

theorem popMin_spec {l : List RKey} {k : RKey} {rest : List RKey}
    (h : popMin l = some (k, rest)) :
    k ∈ l ∧ rest = l.erase k ∧ ∀ x ∈ l, ¬keyLt x k := by
  cases l with
  | nil => cases h
  | cons a t =>
    simp only [popMin] at h
    have h' := Option.some_inj.mp h
    obtain ⟨h1, h2⟩ := Prod.mk.inj h'
    subst h1
    subst h2
    refine ⟨?_, rfl, ?_⟩
    · rcases minKey_mem t a with h3 | h3
      · rw [h3]; exact List.mem_cons_self _ _
      · exact List.mem_cons_of_mem _ h3
    · intro x hx
      rcases List.mem_cons.mp hx with rfl | hx2
      · exact minKey_min t x x (Or.inl rfl)
      · exact minKey_min t a x (Or.inr hx2)

/-- Claim C3 (amended): the ready heap pops the lexicographically smallest
`((-len(tprovides), binary, idx), target)` tuple (Python's heap key), and on
an equal structural term the *non-binary* package sorts first (Python's
`False < True`), with `idx` breaking the remaining tie.  The original
claim's direction — binary preferred — is refuted by
`C3_binary_not_preferred`. -/
theorem C3_ready_order (l : List RKey) (k : RKey) (rest : List RKey)
    (h : popMin l = some (k, rest)) :
    (k ∈ l ∧ rest = l.erase k ∧ ∀ x ∈ l, ¬keyLt x k) ∧
    (∀ (t : Int) (i j p q : Nat), keyLt ((t, false, i), p) ((t, true, j), q)) ∧
    (∀ (t : Int) (b : Bool) (i j p q : Nat), i < j →
      keyLt ((t, b, i), p) ((t, b, j), q)) := by
  refine ⟨popMin_spec h, ?_, ?_⟩
  · intro t i j p q
    exact Or.inr ⟨rfl, Or.inl Nat.zero_lt_one⟩
  · intro t b i j p q hij
    exact Or.inr ⟨rfl, Or.inr ⟨rfl, Or.inl hij⟩⟩

/-- Witness for C3 (amended) on the concrete ready list of `sC3`. -/
theorem C3_ready_order_witness :
    popMin (initReady gC3) = some ((((-1 : Int), false, 1), 1), [(((-1 : Int), true, 0), 0)]) ∧
      (((-1 : Int), false, 1), 1) ∈ initReady gC3 :=
  ⟨rfl, (C3_ready_order (initReady gC3) _ _ rfl).1.1⟩

/-- Counterexample for C3 as stated: with equal `tprovides` sizes, the
scheduler dispatches the *non-binary* package 1 first and leaves the binary
package 0 in the heap — Python's `False < True` makes the binary term sort
*after* on a tie, the opposite of the claimed preference. -/
theorem C3_binary_not_preferred :
    nodeC3bin.binary = true ∧ nodeC3src.binary = false ∧
    nodeC3bin.tprovides.card = nodeC3src.tprovides.card ∧
    popMin (initReady gC3) = some ((((-1 : Int), false, 1), 1), [(((-1 : Int), true, 0), 0)]) ∧
    (scheduleLoop false sC3).jobs = {1} ∧ 0 ∉ (scheduleLoop false sC3).jobs := by
  refine ⟨rfl, rfl, rfl, rfl, rfl, by decide⟩

/-! ## `_Retry` (claim C10) -/

theorem scheduleOne_frame (s : SchedState) (t : Nat) :
    (scheduleOne s t).1.retryQueue = s.retryQueue ∧
    (scheduleOne s t).1.failed = s.failed ∧
    (scheduleOne s t).1.procs = s.procs ∧
    (scheduleOne s t).1.loadAvgSet = s.loadAvgSet := by
  cases hf : findNode s.deps t with
  | none => simp [scheduleOne, hf]
  | some n =>
    simp only [scheduleOne, hf]
    by_cases h1 : n.action = .nomerge
    · rw [if_pos h1]
      exact ⟨rfl, rfl, rfl, rfl⟩
    · rw [if_neg h1]
      by_cases h2 : t ∈ s.jobs
      · rw [if_pos h2]
        exact ⟨rfl, rfl, rfl, rfl⟩
      · rw [if_neg h2]
        exact ⟨rfl, rfl, rfl, rfl⟩

theorem scheduleOne_jobs_false {s : SchedState} {t : Nat}
    (h : (scheduleOne s t).2 = false) : (scheduleOne s t).1.jobs = s.jobs := by
  cases hf : findNode s.deps t with
  | none => simp only [scheduleOne, hf]
  | some n =>
    simp only [scheduleOne, hf] at h ⊢
    by_cases h1 : n.action = .nomerge
    · rw [if_pos h1]
    · rw [if_neg h1] at h ⊢
      by_cases h2 : t ∈ s.jobs
      · rw [if_pos h2]
      · rw [if_neg h2] at h; cases h

theorem scheduleOne_jobs_true {s : SchedState} {t : Nat}
    (h : (scheduleOne s t).2 = true) :
    (scheduleOne s t).1.jobs = insert t s.jobs ∧ t ∉ s.jobs ∧
      findNode s.deps t ≠ none ∧ actionOf s.deps t ≠ some .nomerge := by
  cases hf : findNode s.deps t with
  | none => simp only [scheduleOne, hf] at h; cases h
  | some n =>
    simp only [scheduleOne, hf] at h ⊢
    by_cases h1 : n.action = .nomerge
    · rw [if_pos h1] at h; cases h
    · rw [if_neg h1] at h ⊢
      by_cases h2 : t ∈ s.jobs
      · rw [if_pos h2] at h; cases h
      · rw [if_neg h2] at h ⊢
        refine ⟨rfl, h2, by simp [hf], ?_⟩
        rw [actionOf, hf]
        simpa using h1

/-- Claim C10: `_Retry` pops targets off the front of the retry queue until
one actually dispatches or the queue empties; targets popped without
dispatching are discarded for good, and at most one job is dispatched per
call (the jobs table gains exactly the dispatched target or nothing). -/
theorem C10_retry_discard (s : SchedState) :
    ((retryStep s).2 = none →
      (retryStep s).1.retryQueue = [] ∧ (retryStep s).1.jobs = s.jobs) ∧
    (∀ d, (retryStep s).2 = some d →
      (∃ pre, s.retryQueue = pre ++ d :: (retryStep s).1.retryQueue) ∧
      (retryStep s).1.jobs = insert d s.jobs ∧ d ∉ s.jobs) := by
  have main : ∀ (q : List Nat) (s0 : SchedState), s0.retryQueue = q →
      ((retryAux q s0).2 = none →
        (retryAux q s0).1.retryQueue = [] ∧ (retryAux q s0).1.jobs = s0.jobs) ∧
      (∀ d, (retryAux q s0).2 = some d →
        (∃ pre, q = pre ++ d :: (retryAux q s0).1.retryQueue) ∧
        (retryAux q s0).1.jobs = insert d s0.jobs ∧ d ∉ s0.jobs) := by
    intro q
    induction q with
    | nil =>
      intro s0 hq0
      constructor
      · intro _
        exact ⟨hq0, rfl⟩
      · intro d hd; cases hd
    | cons t rest ih =>
      intro s0 _
      simp only [retryAux]
      by_cases hd : (scheduleOne { s0 with retryQueue := rest } t).2 = true
      · rw [if_pos hd]
        constructor
        · intro hcon; cases hcon
        · intro d hd2
          have hd3 : t = d := by injection hd2
          subst hd3
          obtain ⟨hj, hnj, _, _⟩ := scheduleOne_jobs_true hd
          have hq : (scheduleOne { s0 with retryQueue := rest } t).1.retryQueue = rest :=
            (scheduleOne_frame _ t).1
          exact ⟨⟨[], by rw [hq]; rfl⟩, hj, hnj⟩
      · rw [if_neg hd]
        have hd' : (scheduleOne { s0 with retryQueue := rest } t).2 = false := by
          revert hd; cases (scheduleOne { s0 with retryQueue := rest } t).2 <;> simp
        have hj := scheduleOne_jobs_false hd'
        have hq : (scheduleOne { s0 with retryQueue := rest } t).1.retryQueue = rest :=
          (scheduleOne_frame _ t).1
        have ihx := ih (scheduleOne { s0 with retryQueue := rest } t).1 hq
        constructor
        · intro hn
          obtain ⟨hq2, hj2⟩ := ihx.1 hn
          exact ⟨hq2, by rw [hj2, hj]⟩
        · intro d hd2
          obtain ⟨⟨pre, hpre⟩, hj2, hnj⟩ := ihx.2 d hd2
          refine ⟨⟨t :: pre, ?_⟩, ?_, ?_⟩
          · rw [List.cons_append, ← hpre]
          · rw [hj2, hj]
          · rw [hj] at hnj; exact hnj
  exact main s.retryQueue s rfl

/-- Witness for C10: target 4 (absent from the graph) is discarded, then
target 0 dispatches; target 9 stays queued. -/
theorem C10_retry_discard_witness :
    (retryStep sC10).2 = some 0 ∧
      (∃ pre, sC10.retryQueue = pre ++ 0 :: (retryStep sC10).1.retryQueue) ∧
      (retryStep sC10).1.jobs = insert 0 sC10.jobs ∧ 0 ∉ sC10.jobs :=
  ⟨rfl, (C10_retry_discard sC10).2 0 rfl⟩

/-! ## Deadlock detection (claim C8) -/

/-- Claim C8: when the channels are idle (equivalently: no in-flight jobs —
every queued task or pending report belongs to a job-table entry), the ready
heap and the retry queue are empty, and the graph is non-empty, `Run` exits
fatally with code 1, dumps the remaining graph, reports the failed set when
non-empty, and shuts the workers and printer down. -/
theorem C8_deadlock_exit (s : SchedState) (inp : RunInput)
    (hj : s.jobs = ∅) (hr : s.ready = []) (hq : s.retryQueue = [])
    (hd : s.deps ≠ []) :
    runStep s inp =
      .halt { code := 1, dumpGraph := s.deps,
              dumpFailed := if s.failed = ∅ then none else some s.failed,
              shutdown := true } := by
  unfold runStep phase1
  rw [if_neg hd, if_pos ⟨hj, hr, hq⟩]

/-- Witness for C8 at a concrete stuck state. -/
theorem C8_deadlock_exit_witness :
    runStep sC8 { pre := [], msg := none, post := false } =
      .halt { code := 1, dumpGraph := sC8.deps, dumpFailed := some {7},
              shutdown := true } := by
  have h := C8_deadlock_exit sC8 { pre := [], msg := none, post := false }
    rfl rfl rfl (by decide)
  rw [h]
  rfl

/-! ## Soundness of the cycles dict (`FindCycles` / `SanitizeTree`) -/

theorem pairsOf_cons_cons (x y : Nat) (t : List Nat) :
    pairsOf (x :: y :: t) = (x, y) :: pairsOf (y :: t) := rfl

theorem chain_pairs {g : Graph} :
    ∀ {m : List Nat}, IsNeedsPath g m → ∀ ab ∈ pairsOf m, ab.2 ∈ needsOf g ab.1 := by
  intro m
  induction m with
  | nil => intro _ ab hab; cases hab
  | cons x t ih =>
    cases t with
    | nil => intro _ ab hab; cases hab
    | cons y t2 =>
      intro hc ab hab
      rw [pairsOf_cons_cons] at hab
      have hc' := List.chain'_cons.mp hc
      rcases List.mem_cons.mp hab with rfl | hab2
      · exact hc'.1
      · exact ih hc'.2 ab hab2

theorem pairs_desc_weak (idxf : Nat → Nat) :
    ∀ (m : List Nat), (∀ ab ∈ pairsOf m, idxf ab.2 < idxf ab.1) →
      ∀ h l, m.head? = some h → m.getLast? = some l → idxf l ≤ idxf h := by
  intro m
  induction m with
  | nil => intro _ h l hh; cases hh
  | cons x t ih =>
    cases t with
    | nil =>
      intro _ h l hh hl
      have hh2 : x = h := by injection hh
      have hl2 : x = l := by
        have he : ([x] : List Nat).getLast? = some x := rfl
        rw [he] at hl
        injection hl
      rw [← hh2, ← hl2]
    | cons y t2 =>
      intro hd h l hh hl
      have hh2 : x = h := by injection hh
      rw [List.getLast?_cons_cons] at hl
      have h1 : idxf y < idxf x := hd (x, y) (by rw [pairsOf_cons_cons]; exact List.mem_cons_self _ _)
      have h2 := ih (fun ab hab => hd ab (by rw [pairsOf_cons_cons]; exact List.mem_cons_of_mem _ hab))
        y l rfl hl
      subst hh2
      omega

theorem pairs_desc_strict (idxf : Nat → Nat) :
    ∀ (m : List Nat), 2 ≤ m.length → (∀ ab ∈ pairsOf m, idxf ab.2 < idxf ab.1) →
      ∀ h l, m.head? = some h → m.getLast? = some l → idxf l < idxf h := by
  intro m
  cases m with
  | nil => intro hlen; cases hlen
  | cons x t =>
    cases t with
    | nil => intro hlen; simp at hlen
    | cons y t2 =>
      intro _ hd h l hh hl
      have hh2 : x = h := by injection hh
      rw [List.getLast?_cons_cons] at hl
      have h1 : idxf y < idxf x := hd (x, y) (by rw [pairsOf_cons_cons]; exact List.mem_cons_self _ _)
      have h2 := pairs_desc_weak idxf (y :: t2)
        (fun ab hab => hd ab (by rw [pairsOf_cons_cons]; exact List.mem_cons_of_mem _ hab))
        y l rfl hl
      subst hh2
      omega

theorem cycle_deletable (idxf : Nat → Nat) {g : Graph} {m : List Nat}
    (hm : IsCycleL g m) : ∃ ab ∈ pairsOf m, idxf ab.1 ≤ idxf ab.2 := by
  by_contra hno
  push_neg at hno
  obtain ⟨hlen, hhl, _⟩ := hm
  have hh : ∃ h, m.head? = some h := by
    cases m with
    | nil => cases hlen
    | cons x t => exact ⟨x, rfl⟩
  obtain ⟨h, hh⟩ := hh
  have hl : m.getLast? = some h := by rw [← hhl, hh]
  have := pairs_desc_strict idxf m hlen (fun ab hab => by
    have := hno ab hab
    omega) h h hh hl
  omega

theorem lookupPair_mem {c : Cyc} {pr : Nat × Nat} {m' : List Nat}
    (h : lookupPair c pr = some m') : (pr, m') ∈ c := by
  induction c with
  | nil => cases h
  | cons e t ih =>
    obtain ⟨k, v⟩ := e
    simp only [lookupPair] at h
    by_cases hk : k = pr
    · rw [if_pos hk] at h
      injection h with h2
      rw [hk, h2]
      exact List.mem_cons_self _ _
    · rw [if_neg hk] at h
      exact List.mem_cons_of_mem _ (ih h)

theorem lookupPair_append_some {c : Cyc} {pr : Nat × Nat} {m' : List Nat}
    (h : lookupPair c pr = some m') (ext : Cyc) :
    lookupPair (c ++ ext) pr = some m' := by
  induction c with
  | nil => cases h
  | cons e t ih =>
    obtain ⟨k, v⟩ := e
    simp only [lookupPair] at h ⊢
    by_cases hk : k = pr
    · rw [if_pos hk] at h ⊢; exact h
    · rw [if_neg hk] at h ⊢; exact ih h

theorem lookupPair_append_none {c : Cyc} {pr : Nat × Nat}
    (h : lookupPair c pr = none) (ext : Cyc) :
    lookupPair (c ++ ext) pr = lookupPair ext pr := by
  induction c with
  | nil => rfl
  | cons e t ih =>
    obtain ⟨k, v⟩ := e
    simp only [lookupPair] at h ⊢
    by_cases hk : k = pr
    · rw [if_pos hk] at h; cases h
    · rw [if_neg hk] at h ⊢; exact ih h

theorem recStep_cases (m : List Nat) (c : Cyc) (pr : Nat × Nat) :
    (match lookupPair c pr with
      | some _ => c
      | none => c ++ [(pr, m)]) = c ∨
    (match lookupPair c pr with
      | some _ => c
      | none => c ++ [(pr, m)]) = c ++ [(pr, m)] := by
  cases lookupPair c pr with
  | none => right; rfl
  | some _ => left; rfl

theorem recFold_ext (m : List Nat) :
    ∀ (prs : List (Nat × Nat)) (c : Cyc),
      ∃ ext, prs.foldl (fun c pr =>
        match lookupPair c pr with
        | some _ => c
        | none => c ++ [(pr, m)]) c = c ++ ext := by
  intro prs
  induction prs with
  | nil => intro c; exact ⟨[], (List.append_nil c).symm⟩
  | cons pr rest ih =>
    intro c
    rw [List.foldl_cons]
    rcases recStep_cases m c pr with he | he
    · rw [he]; exact ih c
    · rw [he]
      obtain ⟨ext, hext⟩ := ih (c ++ [(pr, m)])
      exact ⟨[(pr, m)] ++ ext, by rw [hext, List.append_assoc]⟩

theorem recordCycle_ext (c : Cyc) (m : List Nat) :
    ∃ ext, recordCycle c m = c ++ ext := recFold_ext m (pairsOf m) c

theorem recFold_key (m : List Nat) :
    ∀ (prs : List (Nat × Nat)) (c : Cyc) (pr : Nat × Nat), pr ∈ prs →
      ∃ m', lookupPair (prs.foldl (fun c pr =>
        match lookupPair c pr with
        | some _ => c
        | none => c ++ [(pr, m)]) c) pr = some m' := by
  intro prs
  induction prs with
  | nil => intro c pr hpr; cases hpr
  | cons pr0 rest ih =>
    intro c pr hpr
    rw [List.foldl_cons]
    rcases List.mem_cons.mp hpr with rfl | hpr2
    · -- pr is recorded (or present) in the first step, then persists
      have hkey : ∃ m', lookupPair (match lookupPair c pr with
          | some _ => c
          | none => c ++ [(pr, m)]) pr = some m' := by
        cases hl : lookupPair c pr with
        | some mv => exact ⟨mv, hl⟩
        | none =>
          refine ⟨m, ?_⟩
          show lookupPair (c ++ [(pr, m)]) pr = some m
          rw [lookupPair_append_none hl]
          simp [lookupPair]
      obtain ⟨m', hm'⟩ := hkey
      obtain ⟨ext, hext⟩ := recFold_ext m rest (match lookupPair c pr with
        | some _ => c
        | none => c ++ [(pr, m)])
      exact ⟨m', by rw [hext]; exact lookupPair_append_some hm' ext⟩
    · exact ih _ pr hpr2

theorem recordCycle_key (c : Cyc) (m : List Nat) (ab : Nat × Nat)
    (hab : ab ∈ pairsOf m) : ∃ m', (ab, m') ∈ recordCycle c m := by
  obtain ⟨m', hm'⟩ := recFold_key m (pairsOf m) c ab hab
  exact ⟨m', lookupPair_mem hm'⟩

theorem recFold_entries (m : List Nat) :
    ∀ (prs : List (Nat × Nat)) (c : Cyc) (pr : Nat × Nat) (m' : List Nat),
      (pr, m') ∈ prs.foldl (fun c pr =>
        match lookupPair c pr with
        | some _ => c
        | none => c ++ [(pr, m)]) c →
      (pr, m') ∈ c ∨ (pr ∈ prs ∧ m' = m) := by
  intro prs
  induction prs with
  | nil => intro c pr m' h; exact Or.inl h
  | cons pr0 rest ih =>
    intro c pr m' h
    rw [List.foldl_cons] at h
    rcases recStep_cases m c pr0 with he | he
    · rw [he] at h
      rcases ih c pr m' h with h2 | h2
      · exact Or.inl h2
      · exact Or.inr ⟨List.mem_cons_of_mem _ h2.1, h2.2⟩
    · rw [he] at h
      rcases ih _ pr m' h with h2 | h2
      · rcases List.mem_append.mp h2 with h3 | h3
        · exact Or.inl h3
        · rcases List.mem_singleton.mp h3 with h4
          injection h4 with h5 h6
          exact Or.inr ⟨by rw [h5]; exact List.mem_cons_self _ _, h6⟩
      · exact Or.inr ⟨List.mem_cons_of_mem _ h2.1, h2.2⟩

theorem recordCycle_entries (c : Cyc) (m : List Nat) (pr : Nat × Nat) (m' : List Nat)
    (h : (pr, m') ∈ recordCycle c m) : (pr, m') ∈ c ∨ (pr ∈ pairsOf m ∧ m' = m) :=
  recFold_entries m (pairsOf m) c pr m' h

theorem recordCycle_CycOK {g : Graph} {c : Cyc} {m : List Nat}
    (hC : CycOK g c) (hm : IsCycleL g m) : CycOK g (recordCycle c m) := by
  intro pr mv hpr
  rcases recordCycle_entries c m pr mv hpr with hold | hnew
  · obtain ⟨h1, h2, h3⟩ := hC pr mv hold
    refine ⟨h1, h2, ?_⟩
    intro ab hab
    obtain ⟨m2, hm2⟩ := h3 ab hab
    obtain ⟨ext, hext⟩ := recordCycle_ext c m
    exact ⟨m2, by rw [hext]; exact List.mem_append_left _ hm2⟩
  · obtain ⟨hpr2, rfl⟩ := hnew
    exact ⟨hm, hpr2, fun ab hab => recordCycle_key c mv ab hab⟩

theorem recordCycle_ne_nil (c : Cyc) (m : List Nat) (h : pairsOf m ≠ []) :
    recordCycle c m ≠ [] := by
  obtain ⟨ab, hab⟩ := List.exists_mem_of_ne_nil _ h
  obtain ⟨m', hm'⟩ := recordCycle_key c m ab hab
  intro hcon
  rw [hcon] at hm'
  cases hm'

theorem pairsOf_ne_nil {m : List Nat} (h : 2 ≤ m.length) : pairsOf m ≠ [] := by
  cases m with
  | nil => cases h
  | cons x t =>
    cases t with
    | nil => simp at h
    | cons y t2 => rw [pairsOf_cons_cons]; exact List.cons_ne_nil _ _

/-- The `mycycle` recorded when the DFS sees a stack member again is a
genuine cycle of the graph. -/
theorem stack_cycle {g : Graph} {u' : List Nat} {dep pkg : Nat}
    (hpath : IsNeedsPath g u') (hlast : u'.getLast? = some pkg)
    (hdep : dep ∈ needsOf g pkg) (hmem : dep ∈ u') :
    IsCycleL g (u'.drop (u'.indexOf dep) ++ [dep]) := by
  have hi : u'.indexOf dep < u'.length := List.indexOf_lt_length.mpr hmem
  have hdropeq : u'.drop (u'.indexOf dep) = dep :: u'.drop (u'.indexOf dep + 1) := by
    rw [List.drop_eq_getElem_cons hi]
    congr 1
    exact List.getElem_indexOf hi
  have hdropne : u'.drop (u'.indexOf dep) ≠ [] := by rw [hdropeq]; exact List.cons_ne_nil _ _
  have hdropchain : IsNeedsPath g (u'.drop (u'.indexOf dep)) := by
    have := hpath
    rw [← List.take_append_drop (u'.indexOf dep) u'] at this
    exact this.right_of_append
  have hdroplast : (u'.drop (u'.indexOf dep)).getLast? = some pkg := by
    rw [← List.getLast?_append_of_ne_nil (u'.take (u'.indexOf dep)) hdropne,
      List.take_append_drop]
    exact hlast
  refine ⟨?_, ?_, ?_⟩
  · rw [List.length_append, hdropeq]
    simp
  · have h1 : (u'.drop (u'.indexOf dep) ++ [dep]).getLast? = some dep :=
      List.getLast?_concat _
    have h2 : (u'.drop (u'.indexOf dep) ++ [dep]).head? = some dep := by
      rw [hdropeq]; rfl
    rw [h1, h2]
  · refine List.Chain'.append hdropchain (List.chain'_singleton dep) ?_
    intro x hx y hy
    rw [hdroplast] at hx
    have hx2 : pkg = x := by injection hx
    have hy2 : dep = y := by injection hy
    rw [← hx2, ← hy2]
    exact hdep

theorem fcFoldGo_cycOK {g : Graph}
    {rec : Nat → Cyc → List Nat → Finset Nat → Option (Cyc × Finset Nat)}
    (hrec : ∀ p c u r out, rec p c u r = some out →
      IsNeedsPath g (u ++ [p]) → CycOK g c → CycOK g out.1)
    (u' : List Nat) (hadKey : Bool) (pkg : Nat)
    (hpath : IsNeedsPath g u') (hlast : u'.getLast? = some pkg) :
    ∀ (deps : List Nat), (∀ d ∈ deps, d ∈ needsOf g pkg) →
      ∀ c r out, fcFoldGo rec u' hadKey pkg deps c r = some out →
        CycOK g c → CycOK g out.1 := by
  intro deps
  induction deps with
  | nil =>
    intro _ c r out h hC
    simp only [fcFoldGo] at h
    have h2 := Option.some_inj.mp h
    rw [← h2]
    exact hC
  | cons dep rest ih =>
    intro hdeps c r out h hC
    simp only [fcFoldGo] at h
    by_cases hmem : dep ∈ u'
    · rw [if_pos hmem] at h
      refine ih (fun d hd => hdeps d (List.mem_cons_of_mem _ hd)) _ _ _ h ?_
      exact recordCycle_CycOK hC
        (stack_cycle hpath hlast (hdeps dep (List.mem_cons_self _ _)) hmem)
    · rw [if_neg hmem] at h
      by_cases hrecb : hadKey = false ∨ lookupPair c (pkg, dep) = none
      · rw [if_pos hrecb] at h
        cases hrc : rec dep c u' r with
        | none => rw [hrc] at h; cases h
        | some cr =>
          rw [hrc] at h
          have hpath2 : IsNeedsPath g (u' ++ [dep]) := by
            refine List.Chain'.append hpath (List.chain'_singleton dep) ?_
            intro x hx y hy
            rw [hlast] at hx
            have hx2 : pkg = x := by injection hx
            have hy2 : dep = y := by injection hy
            rw [← hx2, ← hy2]
            exact hdeps dep (List.mem_cons_self _ _)
          have hC1 := hrec dep c u' r cr hrc hpath2 hC
          exact ih (fun d hd => hdeps d (List.mem_cons_of_mem _ hd)) _ _ _ h hC1
      · rw [if_neg hrecb] at h
        exact ih (fun d hd => hdeps d (List.mem_cons_of_mem _ hd)) _ _ _ h hC

theorem fcAtNode_cycOK {g : Graph} :
    ∀ (fuel : Nat) (p : Nat) (c : Cyc) (u : List Nat) (r : Finset Nat) out,
      fcAtNode g fuel p c u r = some out →
      IsNeedsPath g (u ++ [p]) → CycOK g c → CycOK g out.1 := by
  intro fuel
  induction fuel with
  | zero => intro p c u r out h; cases h
  | succ f ih =>
    intro p c u r out h hpath hC
    simp only [fcAtNode] at h
    by_cases hcond : p ∈ r ∧ hasPkgCycles c p = false
    · rw [if_pos hcond] at h
      have h2 := Option.some_inj.mp h
      rw [← h2]
      exact hC
    · rw [if_neg hcond] at h
      cases hfold : fcFoldGo (fcAtNode g f) (u ++ [p]) (hasPkgCycles c p) p
          (sortF (needsOf g p)) c r with
      | none => rw [hfold] at h; cases h
      | some cr =>
        rw [hfold] at h
        obtain ⟨c1, r1⟩ := cr
        have h2 := Option.some_inj.mp h
        have hout : out.1 = c1 := by rw [← h2]
        rw [hout]
        exact fcFoldGo_cycOK (fun p' c' u' r' out' hx => ih p' c' u' r' out' hx)
          (u ++ [p]) (hasPkgCycles c p) p hpath (List.getLast?_concat u)
          (sortF (needsOf g p)) (fun d hd => (mem_sortF _ _).mp hd) c r (c1, r1) hfold hC

theorem fcTop_cycOK {g : Graph} :
    ∀ (ps : List Nat) (c : Cyc) (r : Finset Nat) out,
      fcTop g ps c r = some out → CycOK g c → CycOK g out.1 := by
  intro ps
  induction ps with
  | nil =>
    intro c r out h hC
    have h2 := Option.some_inj.mp h
    rw [← h2]
    exact hC
  | cons p ps ih =>
    intro c r out h hC
    simp only [fcTop] at h
    cases hat : fcAtNode g (bigFuel g) p c [] r with
    | none => rw [hat] at h; cases h
    | some cr =>
      rw [hat] at h
      have hC1 := fcAtNode_cycOK (bigFuel g) p c [] r cr hat
        (by rw [List.nil_append]; exact List.chain'_singleton p) hC
      exact ih cr.1 cr.2 out h hC1

/-- Every entry of `FindCycles`' output satisfies the soundness invariant. -/
theorem findCycles_cycOK (g : Graph) : CycOK g (findCycles g) := by
  cases h : findCyclesO g with
  | none =>
    intro pr m hpr
    rw [findCycles, h] at hpr
    cases hpr
  | some cr =>
    have : findCycles g = cr.1 := by rw [findCycles, h]; rfl
    rw [this]
    exact fcTop_cycOK (keysList g).dedup [] ∅ cr h (fun pr m hpr => absurd hpr (by simp))

/-! ## The deletion pass of `SanitizeTree` (claim C2) -/

theorem needsOf_mapNode_keep (f : Node → Node) (hf : ∀ n, (f n).needs = n.needs)
    (g : Graph) (p a : Nat) : needsOf (mapNode g p f) a = needsOf g a := by
  rw [needsOf_mapNode]
  by_cases h : a = p
  · rw [if_pos h, needsOf]
    cases findNode g a with
    | none => rfl
    | some v => simp [hf]
  · rw [if_neg h]

theorem providesOf_mapNode_keep (f : Node → Node)
    (hf : ∀ n, (f n).provides = n.provides) (g : Graph) (p a : Nat) :
    providesOf (mapNode g p f) a = providesOf g a := by
  rw [providesOf_mapNode]
  by_cases h : a = p
  · rw [if_pos h, providesOf]
    cases findNode g a with
    | none => rfl
    | some v => simp [hf]
  · rw [if_neg h]

theorem needsOf_eraseEdge (g : Graph) (p q a : Nat) :
    needsOf (eraseEdge g p q) a = if a = p then (needsOf g a).erase q else needsOf g a := by
  rw [eraseEdge]
  rw [needsOf_mapNode_keep (fun n => { n with provides := n.provides.erase p })
    (fun n => rfl)]
  rw [needsOf_mapNode]
  by_cases h : a = p
  · rw [if_pos h, if_pos h, needsOf]
    cases findNode g a with
    | none => simp
    | some v => rfl
  · rw [if_neg h, if_neg h]

theorem providesOf_eraseEdge (g : Graph) (p q b : Nat) :
    providesOf (eraseEdge g p q) b =
      if b = q then (providesOf g b).erase p else providesOf g b := by
  rw [eraseEdge, providesOf_mapNode]
  by_cases h : b = q
  · rw [if_pos h, if_pos h, findNode_mapNode]
    by_cases hbp : b = p
    · rw [if_pos hbp, providesOf]
      cases findNode g b with
      | none => simp
      | some v => rfl
    · rw [if_neg hbp, providesOf]
      cases findNode g b with
      | none => simp
      | some v => rfl
  · rw [if_neg h, providesOf_mapNode_keep
      (fun n => { n with needs := n.needs.erase q }) (fun n => rfl), if_neg h]

theorem delNeeds_cons (env : BuildEnv) (p1 p2 : Nat) (mv : List Nat) (rest : Cyc) (a : Nat) :
    delNeeds env (((p1, p2), mv) :: rest) a =
      if p1 = a ∧ env.idxf p1 ≤ env.idxf p2 then insert p2 (delNeeds env rest a)
      else delNeeds env rest a := rfl

theorem delProv_cons (env : BuildEnv) (p1 p2 : Nat) (mv : List Nat) (rest : Cyc) (b : Nat) :
    delProv env (((p1, p2), mv) :: rest) b =
      if p2 = b ∧ env.idxf p1 ≤ env.idxf p2 then insert p1 (delProv env rest b)
      else delProv env rest b := rfl

theorem mem_delNeeds (env : BuildEnv) (c : Cyc) (a x : Nat) :
    x ∈ delNeeds env c a ↔ ∃ m', ((a, x), m') ∈ c ∧ env.idxf a ≤ env.idxf x := by
  induction c with
  | nil => simp [delNeeds]
  | cons e rest ih =>
    obtain ⟨⟨p1, p2⟩, mv⟩ := e
    rw [delNeeds_cons]
    by_cases hc : p1 = a ∧ env.idxf p1 ≤ env.idxf p2
    · rw [if_pos hc]
      constructor
      · intro hx
        rcases Finset.mem_insert.mp hx with rfl | hx2
        · refine ⟨mv, ?_, ?_⟩
          · rw [← hc.1]
            exact List.mem_cons_self _ _
          · rw [← hc.1]
            exact hc.2
        · obtain ⟨m', hm', hcnd⟩ := ih.mp hx2
          exact ⟨m', List.mem_cons_of_mem _ hm', hcnd⟩
      · rintro ⟨m', hm', hcnd⟩
        rcases List.mem_cons.mp hm' with heq | hm2
        · have h1 : (a, x) = (p1, p2) := congrArg Prod.fst heq
          have h2 : x = p2 := congrArg Prod.snd h1
          rw [h2]
          exact Finset.mem_insert_self _ _
        · exact Finset.mem_insert_of_mem (ih.mpr ⟨m', hm2, hcnd⟩)
    · rw [if_neg hc]
      constructor
      · intro hx
        obtain ⟨m', hm', hcnd⟩ := ih.mp hx
        exact ⟨m', List.mem_cons_of_mem _ hm', hcnd⟩
      · rintro ⟨m', hm', hcnd⟩
        rcases List.mem_cons.mp hm' with heq | hm2
        · exfalso
          have h1 : (a, x) = (p1, p2) := congrArg Prod.fst heq
          have h2 : a = p1 := congrArg Prod.fst h1
          have h3 : x = p2 := congrArg Prod.snd h1
          exact hc ⟨h2.symm, by rw [← h2, ← h3]; exact hcnd⟩
        · exact ih.mpr ⟨m', hm2, hcnd⟩

theorem mem_delProv (env : BuildEnv) (c : Cyc) (b x : Nat) :
    x ∈ delProv env c b ↔ ∃ m', ((x, b), m') ∈ c ∧ env.idxf x ≤ env.idxf b := by
  induction c with
  | nil => simp [delProv]
  | cons e rest ih =>
    obtain ⟨⟨p1, p2⟩, mv⟩ := e
    rw [delProv_cons]
    by_cases hc : p2 = b ∧ env.idxf p1 ≤ env.idxf p2
    · rw [if_pos hc]
      constructor
      · intro hx
        rcases Finset.mem_insert.mp hx with rfl | hx2
        · refine ⟨mv, ?_, ?_⟩
          · rw [← hc.1]
            exact List.mem_cons_self _ _
          · rw [← hc.1]
            exact hc.2
        · obtain ⟨m', hm', hcnd⟩ := ih.mp hx2
          exact ⟨m', List.mem_cons_of_mem _ hm', hcnd⟩
      · rintro ⟨m', hm', hcnd⟩
        rcases List.mem_cons.mp hm' with heq | hm2
        · have h1 : (x, b) = (p1, p2) := congrArg Prod.fst heq
          have h2 : x = p1 := congrArg Prod.fst h1
          rw [h2]
          exact Finset.mem_insert_self _ _
        · exact Finset.mem_insert_of_mem (ih.mpr ⟨m', hm2, hcnd⟩)
    · rw [if_neg hc]
      constructor
      · intro hx
        obtain ⟨m', hm', hcnd⟩ := ih.mp hx
        exact ⟨m', List.mem_cons_of_mem _ hm', hcnd⟩
      · rintro ⟨m', hm', hcnd⟩
        rcases List.mem_cons.mp hm' with heq | hm2
        · exfalso
          have h1 : (x, b) = (p1, p2) := congrArg Prod.fst heq
          have h2 : x = p1 := congrArg Prod.fst h1
          have h3 : b = p2 := congrArg Prod.snd h1
          exact hc ⟨h3.symm, by rw [← h2, ← h3]; exact hcnd⟩
        · exact ih.mpr ⟨m', hm2, hcnd⟩

theorem deleteEdges_cons (env : BuildEnv) (g : Graph) (e : (Nat × Nat) × List Nat)
    (rest : Cyc) :
    deleteEdges env g (e :: rest) =
      deleteEdges env
        (if env.idxf e.1.1 ≤ env.idxf e.1.2 then eraseEdge g e.1.1 e.1.2 else g) rest := rfl

theorem erase_sdiff_insert (s t : Finset Nat) (b : Nat) :
    s.erase b \ t = s \ insert b t := by
  ext x
  simp only [Finset.mem_sdiff, Finset.mem_erase, Finset.mem_insert]
  constructor
  · rintro ⟨⟨h1, h2⟩, h3⟩
    exact ⟨h2, fun hc => hc.elim h1 h3⟩
  · rintro ⟨h1, h2⟩
    exact ⟨⟨fun hc => h2 (Or.inl hc), h1⟩, fun hc => h2 (Or.inr hc)⟩

theorem deleteEdges_needs (env : BuildEnv) :
    ∀ (c : Cyc) (g : Graph) (a : Nat),
      needsOf (deleteEdges env g c) a = needsOf g a \ delNeeds env c a := by
  intro c
  induction c with
  | nil => intro g a; simp [deleteEdges, delNeeds]
  | cons e rest ih =>
    intro g a
    obtain ⟨⟨p1, p2⟩, mv⟩ := e
    rw [deleteEdges_cons]
    by_cases hcnd : env.idxf p1 ≤ env.idxf p2
    · rw [if_pos hcnd, ih, needsOf_eraseEdge, delNeeds_cons]
      by_cases ha : a = p1
      · rw [if_pos ha, if_pos ⟨ha.symm, hcnd⟩, erase_sdiff_insert]
      · rw [if_neg ha, if_neg (fun hcon => ha hcon.1.symm)]
    · rw [if_neg hcnd, ih, delNeeds_cons, if_neg (fun hcon => hcnd hcon.2)]

theorem deleteEdges_provides (env : BuildEnv) :
    ∀ (c : Cyc) (g : Graph) (b : Nat),
      providesOf (deleteEdges env g c) b = providesOf g b \ delProv env c b := by
  intro c
  induction c with
  | nil => intro g b; simp [deleteEdges, delProv]
  | cons e rest ih =>
    intro g b
    obtain ⟨⟨p1, p2⟩, mv⟩ := e
    rw [deleteEdges_cons]
    by_cases hcnd : env.idxf p1 ≤ env.idxf p2
    · rw [if_pos hcnd, ih, providesOf_eraseEdge, delProv_cons]
      by_cases hb : b = p2
      · rw [if_pos hb, if_pos ⟨hb.symm, hcnd⟩, erase_sdiff_insert]
      · rw [if_neg hb, if_neg (fun hcon => hb hcon.1.symm)]
    · rw [if_neg hcnd, ih, delProv_cons, if_neg (fun hcon => hcnd hcon.2)]

/-- Claim C2: every entry of the cycles dict is a genuine detected cycle
whose consecutive pairs are all themselves recorded; the deletion pass
removes exactly the recorded pairs `(pᵢ, pⱼ)` with `idx[pⱼ] ≥ idx[pᵢ]` —
both `pⱼ` from `pᵢ.needs` and `pᵢ` from `pⱼ.provides` — and no other edge;
and on the two-package cycle A ↔ B with `idx[A] = 0 < 1 = idx[B]`,
`SanitizeTree` deletes edge A → B and keeps edge B → A. -/
theorem C2_cycle_break_exact (env : BuildEnv) (g : Graph) (pr : Nat × Nat)
    (m : List Nat) (hmem : (pr, m) ∈ findCycles g) :
    (IsCycleL g m ∧ pr ∈ pairsOf m ∧
      ∀ ab ∈ pairsOf m, ∃ m', (ab, m') ∈ findCycles g) ∧
    (∀ ab ∈ pairsOf m, env.idxf ab.1 ≤ env.idxf ab.2 →
      ab.2 ∉ needsOf (deleteEdges env g (findCycles g)) ab.1 ∧
      ab.1 ∉ providesOf (deleteEdges env g (findCycles g)) ab.2) ∧
    (∀ a b, b ∈ needsOf g a → b ∉ delNeeds env (findCycles g) a →
      b ∈ needsOf (deleteEdges env g (findCycles g)) a) ∧
    (∀ a b, a ∈ providesOf g b → a ∉ delProv env (findCycles g) b →
      a ∈ providesOf (deleteEdges env g (findCycles g)) b) ∧
    (sortF (needsOf (sanitizeTree envAB gAB) 0) = [] ∧
      sortF (needsOf (sanitizeTree envAB gAB) 1) = [0] ∧
      sortF (providesOf (sanitizeTree envAB gAB) 0) = [1] ∧
      sortF (providesOf (sanitizeTree envAB gAB) 1) = []) := by
  obtain ⟨hcyc, hpr, hkeys⟩ := findCycles_cycOK g pr m hmem
  refine ⟨⟨hcyc, hpr, hkeys⟩, ?_, ?_, ?_, by decide, by decide, by decide, by decide⟩
  · intro ab hab hidx
    obtain ⟨m', hm'⟩ := hkeys ab hab
    constructor
    · rw [deleteEdges_needs]
      intro hcon
      exact (Finset.mem_sdiff.mp hcon).2 ((mem_delNeeds env _ _ _).mpr ⟨m', hm', hidx⟩)
    · rw [deleteEdges_provides]
      intro hcon
      exact (Finset.mem_sdiff.mp hcon).2 ((mem_delProv env _ _ _).mpr ⟨m', hm', hidx⟩)
  · intro a b hb hnd
    rw [deleteEdges_needs]
    exact Finset.mem_sdiff.mpr ⟨hb, hnd⟩
  · intro a b hb hnd
    rw [deleteEdges_provides]
    exact Finset.mem_sdiff.mpr ⟨hb, hnd⟩

/-- Witness for C2 on the concrete two-package cycle. -/
theorem C2_cycle_break_exact_witness :
    ((0, 1), [0, 1, 0]) ∈ findCycles gAB ∧
      envAB.idxf 0 ≤ envAB.idxf 1 ∧
      (1 ∉ needsOf (deleteEdges envAB gAB (findCycles gAB)) 0 ∧
        0 ∉ providesOf (deleteEdges envAB gAB (findCycles gAB)) 1) := by
  refine ⟨by decide, by decide, ?_⟩
  exact (C2_cycle_break_exact envAB gAB (0, 1) [0, 1, 0] (by decide)).2.1 (0, 1)
    (by decide) (by decide)

/-! ## Termination of `SanitizeTree`: each pass deletes at least one edge -/

theorem totalNeeds_cons (k : Nat) (v : Node) (t : Graph) :
    totalNeeds ((k, v) :: t) = v.needs.card + totalNeeds t := by
  simp [totalNeeds]

theorem totalNeeds_mapNode_keep (f : Node → Node) (hf : ∀ n, (f n).needs = n.needs)
    (p : Nat) : ∀ (g : Graph), totalNeeds (mapNode g p f) = totalNeeds g := by
  intro g
  induction g with
  | nil => rfl
  | cons e t ih =>
    obtain ⟨k, v⟩ := e
    rw [mapNode_cons]
    by_cases hk : k = p
    · rw [if_pos hk, totalNeeds_cons, totalNeeds_cons, ih, hf]
    · rw [if_neg hk, totalNeeds_cons, totalNeeds_cons, ih]

theorem totalNeeds_erase_le (q p : Nat) :
    ∀ (g : Graph),
      totalNeeds (mapNode g p fun n => { n with needs := n.needs.erase q }) ≤
        totalNeeds g := by
  intro g
  induction g with
  | nil => exact Nat.le_refl _
  | cons e t ih =>
    obtain ⟨k, v⟩ := e
    rw [mapNode_cons]
    by_cases hk : k = p
    · rw [if_pos hk, totalNeeds_cons, totalNeeds_cons]
      have h1 : (v.needs.erase q).card ≤ v.needs.card := Finset.card_erase_le
      dsimp only
      omega
    · rw [if_neg hk, totalNeeds_cons, totalNeeds_cons]
      omega

theorem totalNeeds_erase_lt (q p : Nat) :
    ∀ (g : Graph), q ∈ needsOf g p →
      totalNeeds (mapNode g p fun n => { n with needs := n.needs.erase q }) <
        totalNeeds g := by
  intro g
  induction g with
  | nil => intro h; simp [needsOf, findNode] at h
  | cons e t ih =>
    obtain ⟨k, v⟩ := e
    intro hq
    rw [mapNode_cons]
    by_cases hk : k = p
    · rw [if_pos hk, totalNeeds_cons, totalNeeds_cons]
      have hq2 : q ∈ v.needs := by
        rw [needsOf] at hq
        simp only [findNode, if_pos hk] at hq
        simpa using hq
      have h1 : (v.needs.erase q).card < v.needs.card :=
        Finset.card_erase_lt_of_mem hq2
      have h2 := totalNeeds_erase_le q p t
      dsimp only
      omega
    · rw [if_neg hk, totalNeeds_cons, totalNeeds_cons]
      have hq2 : q ∈ needsOf t p := by
        rw [needsOf] at hq ⊢
        simp only [findNode, if_neg hk] at hq
        exact hq
      have h1 := ih hq2
      omega

theorem totalNeeds_eraseEdge_le (g : Graph) (p q : Nat) :
    totalNeeds (eraseEdge g p q) ≤ totalNeeds g := by
  rw [eraseEdge, totalNeeds_mapNode_keep (fun n => { n with provides := n.provides.erase p })
    (fun n => rfl)]
  exact totalNeeds_erase_le q p g

theorem totalNeeds_eraseEdge_lt (g : Graph) (p q : Nat) (h : q ∈ needsOf g p) :
    totalNeeds (eraseEdge g p q) < totalNeeds g := by
  rw [eraseEdge, totalNeeds_mapNode_keep (fun n => { n with provides := n.provides.erase p })
    (fun n => rfl)]
  exact totalNeeds_erase_lt q p g h

theorem deleteEdges_le (env : BuildEnv) :
    ∀ (c : Cyc) (g : Graph), totalNeeds (deleteEdges env g c) ≤ totalNeeds g := by
  intro c
  induction c with
  | nil => intro g; exact Nat.le_refl _
  | cons e rest ih =>
    intro g
    rw [deleteEdges_cons]
    by_cases hc : env.idxf e.1.1 ≤ env.idxf e.1.2
    · rw [if_pos hc]
      exact (ih _).trans (totalNeeds_eraseEdge_le g e.1.1 e.1.2)
    · rw [if_neg hc]
      exact ih g

theorem deleteEdges_lt (env : BuildEnv) :
    ∀ (c : Cyc) (g : Graph),
      (∃ pr m', ((pr, m') ∈ c) ∧ pr.2 ∈ needsOf g pr.1 ∧ env.idxf pr.1 ≤ env.idxf pr.2) →
      totalNeeds (deleteEdges env g c) < totalNeeds g := by
  intro c
  induction c with
  | nil =>
    intro g h
    obtain ⟨pr, m', hmem, _, _⟩ := h
    cases hmem
  | cons e rest ih =>
    intro g h
    obtain ⟨pr, m', hmem, hedge, hcond⟩ := h
    rw [deleteEdges_cons]
    rcases List.mem_cons.mp hmem with heq | hrest
    · have he1 : e.1 = pr := by rw [← heq]
      rw [if_pos (by rw [he1]; exact hcond)]
      refine Nat.lt_of_le_of_lt (deleteEdges_le env rest _) ?_
      rw [he1]
      exact totalNeeds_eraseEdge_lt g pr.1 pr.2 hedge
    · by_cases hc : env.idxf e.1.1 ≤ env.idxf e.1.2
      · rw [if_pos hc]
        by_cases hsame : pr.1 = e.1.1 ∧ pr.2 = e.1.2
        · refine Nat.lt_of_le_of_lt (deleteEdges_le env rest _) ?_
          rw [← hsame.1, ← hsame.2]
          exact totalNeeds_eraseEdge_lt g pr.1 pr.2 hedge
        · refine Nat.lt_of_lt_of_le (ih _ ⟨pr, m', hrest, ?_, hcond⟩)
            (totalNeeds_eraseEdge_le g e.1.1 e.1.2)
          rw [needsOf_eraseEdge]
          by_cases hp : pr.1 = e.1.1
          · rw [if_pos hp]
            have hne : pr.2 ≠ e.1.2 := fun hcon => hsame ⟨hp, hcon⟩
            exact Finset.mem_erase.mpr ⟨hne, hedge⟩
          · rw [if_neg hp]
            exact hedge
      · rw [if_neg hc]
        exact ih g ⟨pr, m', hrest, hedge, hcond⟩

theorem sanitizeFuel_nocycles (env : BuildEnv) :
    ∀ (fuel : Nat) (g : Graph), totalNeeds g < fuel →
      findCycles (sanitizeFuel env fuel g) = [] := by
  intro fuel
  induction fuel with
  | zero => intro g h; omega
  | succ f ih =>
    intro g h
    simp only [sanitizeFuel]
    by_cases hc : findCycles g = []
    · rw [if_pos hc]
      exact hc
    · rw [if_neg hc]
      refine ih _ ?_
      obtain ⟨e, he⟩ := List.exists_mem_of_ne_nil _ hc
      obtain ⟨pr0, m0⟩ := e
      obtain ⟨hcyc0, _, hkeys0⟩ := findCycles_cycOK g pr0 m0 he
      obtain ⟨ab, hab, habcond⟩ := cycle_deletable env.idxf hcyc0
      obtain ⟨m1, hm1⟩ := hkeys0 ab hab
      obtain ⟨hcyc1, hab1, _⟩ := findCycles_cycOK g ab m1 hm1
      have hedge : ab.2 ∈ needsOf g ab.1 := chain_pairs hcyc1.2.2 ab hab1
      have hlt := deleteEdges_lt env (findCycles g) g ⟨ab, m1, hm1, hedge, habcond⟩
      omega

/-- After `SanitizeTree`, `FindCycles` reports no cycles (and in particular
the `while cycles:` loop has reached its fixpoint within the fuel used). -/
theorem sanitizeTree_nocycles (env : BuildEnv) (g : Graph) :
    findCycles (sanitizeTree env g) = [] :=
  sanitizeFuel_nocycles env (totalNeeds g + 1) g (Nat.lt_succ_self _)

/-! ## Fuel sufficiency for `FindCycles` -/

theorem mem_allNeeds {g : Graph} {k x : Nat} {n : Node}
    (hmem : (k, n) ∈ g) (hx : x ∈ n.needs) : x ∈ allNeeds g := by
  induction g with
  | nil => cases hmem
  | cons e t ih =>
    rcases List.mem_cons.mp hmem with heq | hmem2
    · rw [allNeeds, List.foldr_cons, ← heq]
      exact Finset.mem_union_left _ hx
    · rw [allNeeds, List.foldr_cons]
      exact Finset.mem_union_right _ (ih hmem2)

theorem needs_subset_univ {g : Graph} {p d : Nat} (hd : d ∈ needsOf g p) :
    d ∈ univG g := by
  rw [needsOf] at hd
  cases hf : findNode g p with
  | none => rw [hf] at hd; simp at hd
  | some n =>
    rw [hf] at hd
    simp only [Option.map_some', Option.getD_some] at hd
    exact Finset.mem_union_right _ (mem_allNeeds (findNode_mem hf) hd)

theorem keys_subset_univ {g : Graph} {p : Nat} (hp : p ∈ keysF g) : p ∈ univG g :=
  Finset.mem_union_left _ hp

theorem fcFoldGo_isSome {g : Graph} (f : Nat)
    (ihf : ∀ (p : Nat) (c : Cyc) (u : List Nat) (r : Finset Nat),
      u.Nodup → p ∉ u → (∀ x ∈ u, x ∈ univG g) → p ∈ univG g →
      (univG g).card - u.length < f → (fcAtNode g f p c u r).isSome = true)
    (u' : List Nat) (hadKey : Bool) (pkg : Nat)
    (hnd : u'.Nodup) (hu : ∀ x ∈ u', x ∈ univG g)
    (hlt : (univG g).card - u'.length < f) :
    ∀ (deps : List Nat), (∀ d ∈ deps, d ∈ univG g) →
      ∀ c r, (fcFoldGo (fcAtNode g f) u' hadKey pkg deps c r).isSome = true := by
  intro deps
  induction deps with
  | nil => intro _ c r; simp [fcFoldGo]
  | cons dep rest ih =>
    intro hdeps c r
    simp only [fcFoldGo]
    by_cases hmem : dep ∈ u'
    · rw [if_pos hmem]
      exact ih (fun d hd => hdeps d (List.mem_cons_of_mem _ hd)) _ _
    · rw [if_neg hmem]
      by_cases hb : hadKey = false ∨ lookupPair c (pkg, dep) = none
      · rw [if_pos hb]
        have hsome := ihf dep c u' r hnd hmem hu (hdeps dep (List.mem_cons_self _ _)) hlt
        cases hrc : fcAtNode g f dep c u' r with
        | none => rw [hrc] at hsome; cases hsome
        | some cr =>
          obtain ⟨c1, r1⟩ := cr
          exact ih (fun d hd => hdeps d (List.mem_cons_of_mem _ hd)) c1 r1
      · rw [if_neg hb]
        exact ih (fun d hd => hdeps d (List.mem_cons_of_mem _ hd)) _ _

theorem fcAtNode_isSome {g : Graph} :
    ∀ (fuel : Nat) (p : Nat) (c : Cyc) (u : List Nat) (r : Finset Nat),
      u.Nodup → p ∉ u → (∀ x ∈ u, x ∈ univG g) → p ∈ univG g →
      (univG g).card - u.length < fuel → (fcAtNode g fuel p c u r).isSome = true := by
  intro fuel
  induction fuel with
  | zero =>
    intro p c u r _ _ _ _ hlt
    omega
  | succ f ih =>
    intro p c u r hnd hpu hu hp hlt
    simp only [fcAtNode]
    by_cases hcond : p ∈ r ∧ hasPkgCycles c p = false
    · rw [if_pos hcond]; rfl
    · rw [if_neg hcond]
      have hnd' : (u ++ [p]).Nodup := by
        rw [List.nodup_append]
        exact ⟨hnd, List.nodup_singleton p,
          fun a ha hb => hpu (by rwa [List.mem_singleton.mp hb] at ha)⟩
      have hu' : ∀ x ∈ u ++ [p], x ∈ univG g := by
        intro x hx
        rcases List.mem_append.mp hx with h1 | h1
        · exact hu x h1
        · rw [List.mem_singleton.mp h1]; exact hp
      have hlen : (u ++ [p]).length ≤ (univG g).card := by
        have hcard : (u ++ [p]).toFinset.card = (u ++ [p]).length :=
          List.toFinset_card_of_nodup hnd'
        have hsub : (u ++ [p]).toFinset ⊆ univG g :=
          fun x hx => hu' x (List.mem_toFinset.mp hx)
        rw [← hcard]
        exact Finset.card_le_card hsub
      have hlt' : (univG g).card - (u ++ [p]).length < f := by
        rw [List.length_append] at *
        simp only [List.length_singleton] at *
        omega
      have hfold := fcFoldGo_isSome f ih (u ++ [p]) (hasPkgCycles c p) p hnd' hu' hlt'
        (sortF (needsOf g p))
        (fun d hd => needs_subset_univ ((mem_sortF _ _).mp hd)) c r
      cases hrc : fcFoldGo (fcAtNode g f) (u ++ [p]) (hasPkgCycles c p) p
          (sortF (needsOf g p)) c r with
      | none => rw [hrc] at hfold; cases hfold
      | some cr =>
        obtain ⟨c1, r1⟩ := cr
        rfl

theorem fcTop_isSome {g : Graph} :
    ∀ (ps : List Nat), (∀ x ∈ ps, x ∈ univG g) →
      ∀ c r, (fcTop g ps c r).isSome = true := by
  intro ps
  induction ps with
  | nil => intro _ c r; rfl
  | cons p rest ih =>
    intro hps c r
    simp only [fcTop]
    have hAt := fcAtNode_isSome (bigFuel g) p c [] r List.nodup_nil
      (List.not_mem_nil p) (fun x hx => absurd hx (List.not_mem_nil x))
      (hps p (List.mem_cons_self _ _))
      (by rw [bigFuel]; omega)
    cases hrc : fcAtNode g (bigFuel g) p c [] r with
    | none => rw [hrc] at hAt; cases hAt
    | some cr => exact ih (fun x hx => hps x (List.mem_cons_of_mem _ hx)) cr.1 cr.2

theorem findCyclesO_isSome (g : Graph) : (findCyclesO g).isSome = true := by
  refine fcTop_isSome (keysList g).dedup ?_ [] ∅
  intro x hx
  exact keys_subset_univ (List.mem_toFinset.mpr (List.mem_dedup.mp hx))

/-! ## Completeness of `FindCycles`: an empty cycles dict means acyclicity -/

theorem fcFoldGo_ext2 {g : Graph} (f : Nat)
    (ihext : ∀ p c u r out, fcAtNode g f p c u r = some out → ∃ ext, out.1 = c ++ ext)
    (u' : List Nat) (hadKey : Bool) (pkg : Nat) :
    ∀ (deps : List Nat) (c : Cyc) (r : Finset Nat) (out : Cyc × Finset Nat),
      fcFoldGo (fcAtNode g f) u' hadKey pkg deps c r = some out →
      ∃ ext, out.1 = c ++ ext := by
  intro deps
  induction deps with
  | nil =>
    intro c r out h
    have h2 := Option.some_inj.mp h
    exact ⟨[], by rw [← h2, List.append_nil]⟩
  | cons dep rest ih =>
    intro c r out h
    simp only [fcFoldGo] at h
    by_cases hmem : dep ∈ u'
    · rw [if_pos hmem] at h
      obtain ⟨e1, he1⟩ := recordCycle_ext c (u'.drop (u'.indexOf dep) ++ [dep])
      obtain ⟨e2, he2⟩ := ih _ _ _ h
      exact ⟨e1 ++ e2, by rw [he2, he1, List.append_assoc]⟩
    · rw [if_neg hmem] at h
      by_cases hb : hadKey = false ∨ lookupPair c (pkg, dep) = none
      · rw [if_pos hb] at h
        cases hrc : fcAtNode g f dep c u' r with
        | none => rw [hrc] at h; cases h
        | some cr =>
          rw [hrc] at h
          obtain ⟨c1, r1⟩ := cr
          obtain ⟨e1, he1⟩ := ihext dep c u' r (c1, r1) hrc
          obtain ⟨e2, he2⟩ := ih _ _ _ h
          have he1b : c1 = c ++ e1 := he1
          exact ⟨e1 ++ e2, by rw [he2, he1b, List.append_assoc]⟩
      · rw [if_neg hb] at h
        exact ih _ _ _ h

theorem fcAtNode_ext {g : Graph} :
    ∀ (fuel : Nat) (p : Nat) (c : Cyc) (u : List Nat) (r : Finset Nat)
      (out : Cyc × Finset Nat),
      fcAtNode g fuel p c u r = some out → ∃ ext, out.1 = c ++ ext := by
  intro fuel
  induction fuel with
  | zero => intro p c u r out h; cases h
  | succ f ih =>
    intro p c u r out h
    simp only [fcAtNode] at h
    by_cases hcond : p ∈ r ∧ hasPkgCycles c p = false
    · rw [if_pos hcond] at h
      have h2 := Option.some_inj.mp h
      exact ⟨[], by rw [← h2, List.append_nil]⟩
    · rw [if_neg hcond] at h
      cases hfold : fcFoldGo (fcAtNode g f) (u ++ [p]) (hasPkgCycles c p) p
          (sortF (needsOf g p)) c r with
      | none => rw [hfold] at h; cases h
      | some cr =>
        rw [hfold] at h
        obtain ⟨c1, r1⟩ := cr
        have h2 := Option.some_inj.mp h
        obtain ⟨e1, he1⟩ := fcFoldGo_ext2 f ih (u ++ [p]) (hasPkgCycles c p) p
          (sortF (needsOf g p)) c r (c1, r1) hfold
        exact ⟨e1, by rw [← h2]; exact he1⟩

theorem fcTop_ext {g : Graph} :
    ∀ (ps : List Nat) (c : Cyc) (r : Finset Nat) (out : Cyc × Finset Nat),
      fcTop g ps c r = some out → ∃ ext, out.1 = c ++ ext := by
  intro ps
  induction ps with
  | nil =>
    intro c r out h
    have h2 := Option.some_inj.mp h
    exact ⟨[], by rw [← h2, List.append_nil]⟩
  | cons p rest ih =>
    intro c r out h
    simp only [fcTop] at h
    cases hat : fcAtNode g (bigFuel g) p c [] r with
    | none => rw [hat] at h; cases h
    | some cr =>
      rw [hat] at h
      obtain ⟨e1, he1⟩ := fcAtNode_ext (bigFuel g) p c [] r cr hat
      obtain ⟨e2, he2⟩ := ih cr.1 cr.2 out h
      exact ⟨e1 ++ e2, by rw [he2, he1, List.append_assoc]⟩

theorem fcFoldGo_acc {g : Graph} (f : Nat)
    (ihacc : ∀ p u r out, fcAtNode g f p [] u r = some out → out.1 = [] →
      AllAcc g r → r ⊆ out.2 ∧ AllAcc g out.2 ∧ p ∈ out.2)
    (u' : List Nat) (hadKey : Bool) (pkg : Nat) :
    ∀ (deps : List Nat) (r : Finset Nat) (out : Cyc × Finset Nat),
      fcFoldGo (fcAtNode g f) u' hadKey pkg deps [] r = some out →
      out.1 = [] → AllAcc g r →
      r ⊆ out.2 ∧ AllAcc g out.2 ∧ ∀ d ∈ deps, d ∈ out.2 := by
  intro deps
  induction deps with
  | nil =>
    intro r out h hout hAcc
    have h2 := Option.some_inj.mp h
    rw [← h2]
    exact ⟨Finset.Subset.refl r, hAcc, fun d hd => absurd hd (List.not_mem_nil d)⟩
  | cons dep rest ih =>
    intro r out h hout hAcc
    simp only [fcFoldGo] at h
    by_cases hmem : dep ∈ u'
    · rw [if_pos hmem] at h
      obtain ⟨ext, hext⟩ := fcFoldGo_ext2 f (fun p c u r out hx => fcAtNode_ext f p c u r out hx)
        u' hadKey pkg rest _ r out h
      rw [hout] at hext
      have hi : u'.indexOf dep < u'.length := List.indexOf_lt_length.mpr hmem
      have hm2 : 2 ≤ (u'.drop (u'.indexOf dep) ++ [dep]).length := by
        rw [List.length_append, List.length_drop]
        simp only [List.length_singleton]
        omega
      exact absurd (List.append_eq_nil.mp hext.symm).1
        (recordCycle_ne_nil _ _ (pairsOf_ne_nil hm2))
    · rw [if_neg hmem] at h
      have hb : hadKey = false ∨ lookupPair ([] : Cyc) (pkg, dep) = none := Or.inr rfl
      rw [if_pos hb] at h
      cases hrc : fcAtNode g f dep [] u' r with
      | none => rw [hrc] at h; cases h
      | some cr =>
        rw [hrc] at h
        obtain ⟨c1, r1⟩ := cr
        obtain ⟨ext, hext⟩ := fcFoldGo_ext2 f (fun p c u r out hx => fcAtNode_ext f p c u r out hx)
          u' hadKey pkg rest c1 r1 out h
        rw [hout] at hext
        have hc1 : c1 = [] := (List.append_eq_nil.mp hext.symm).1
        subst hc1
        obtain ⟨hsub1, hAcc1, hdep1⟩ := ihacc dep u' r ([], r1) hrc rfl hAcc
        obtain ⟨hsub2, hAcc2, hall⟩ := ih r1 out h hout hAcc1
        refine ⟨hsub1.trans hsub2, hAcc2, ?_⟩
        intro d hd
        rcases List.mem_cons.mp hd with rfl | hd2
        · exact hsub2 hdep1
        · exact hall d hd2

theorem fcAtNode_acc {g : Graph} :
    ∀ (fuel : Nat) (p : Nat) (u : List Nat) (r : Finset Nat) (out : Cyc × Finset Nat),
      fcAtNode g fuel p [] u r = some out → out.1 = [] → AllAcc g r →
      r ⊆ out.2 ∧ AllAcc g out.2 ∧ p ∈ out.2 := by
  intro fuel
  induction fuel with
  | zero => intro p u r out h; cases h
  | succ f ih =>
    intro p u r out h hout hAcc
    simp only [fcAtNode] at h
    by_cases hcond : p ∈ r ∧ hasPkgCycles ([] : Cyc) p = false
    · rw [if_pos hcond] at h
      have h2 := Option.some_inj.mp h
      rw [← h2]
      exact ⟨Finset.Subset.refl r, hAcc, hcond.1⟩
    · rw [if_neg hcond] at h
      cases hfold : fcFoldGo (fcAtNode g f) (u ++ [p]) (hasPkgCycles ([] : Cyc) p) p
          (sortF (needsOf g p)) [] r with
      | none => rw [hfold] at h; cases h
      | some cr =>
        rw [hfold] at h
        obtain ⟨c1, r1⟩ := cr
        have h2 := Option.some_inj.mp h
        have hc1 : c1 = [] := by rw [← h2] at hout; exact hout
        subst hc1
        obtain ⟨hsub, hAcc1, hdeps⟩ := fcFoldGo_acc f ih (u ++ [p])
          (hasPkgCycles ([] : Cyc) p) p (sortF (needsOf g p)) r ([], r1) hfold rfl hAcc
        have haccp : Acc (fun a b => a ∈ needsOf g b) p :=
          Acc.intro p fun a ha => hAcc1 a (hdeps a ((mem_sortF _ _).mpr ha))
        rw [← h2]
        refine ⟨hsub.trans (Finset.subset_insert p r1), ?_, Finset.mem_insert_self p r1⟩
        intro x hx
        rcases Finset.mem_insert.mp hx with rfl | hx2
        · exact haccp
        · exact hAcc1 x hx2

theorem fcTop_acc {g : Graph} :
    ∀ (ps : List Nat) (r : Finset Nat) (out : Cyc × Finset Nat),
      fcTop g ps [] r = some out → out.1 = [] → AllAcc g r →
      r ⊆ out.2 ∧ AllAcc g out.2 ∧ ∀ p ∈ ps, p ∈ out.2 := by
  intro ps
  induction ps with
  | nil =>
    intro r out h hout hAcc
    have h2 := Option.some_inj.mp h
    rw [← h2]
    exact ⟨Finset.Subset.refl r, hAcc, fun d hd => absurd hd (List.not_mem_nil d)⟩
  | cons p rest ih =>
    intro r out h hout hAcc
    simp only [fcTop] at h
    cases hat : fcAtNode g (bigFuel g) p [] [] r with
    | none => rw [hat] at h; cases h
    | some cr =>
      rw [hat] at h
      obtain ⟨c1, r1⟩ := cr
      obtain ⟨ext, hext⟩ := fcTop_ext rest c1 r1 out h
      rw [hout] at hext
      have hc1 : c1 = [] := (List.append_eq_nil.mp hext.symm).1
      subst hc1
      obtain ⟨hsub1, hAcc1, hp⟩ := fcAtNode_acc (bigFuel g) p [] r ([], r1) hat rfl hAcc
      obtain ⟨hsub2, hAcc2, hall⟩ := ih r1 out h hout hAcc1
      refine ⟨hsub1.trans hsub2, hAcc2, ?_⟩
      intro q hq
      rcases List.mem_cons.mp hq with rfl | hq2
      · exact hsub2 hp
      · exact hall q hq2

/-- Accessibility along `needs` edges rules out any cycle through the node:
rotate a cycle at its head to land on a `needs` successor. -/
theorem acc_no_cycle {g : Graph} {p : Nat}
    (hacc : Acc (fun a b => a ∈ needsOf g b) p) : AcyclicAt g p := by
  induction hacc with
  | intro x hx ih =>
    intro m hm hhead
    obtain ⟨hlen, hcyc, hpath⟩ := hm
    cases m with
    | nil => cases hhead
    | cons a t =>
      have ha : a = x := by
        have : some a = some x := hhead
        injection this
      cases t with
      | nil => simp at hlen
      | cons y t2 =>
        have hedge : y ∈ needsOf g a := (List.chain'_cons.mp hpath).1
        have htail : List.Chain' (fun a b => b ∈ needsOf g a) (y :: t2) :=
          (List.chain'_cons.mp hpath).2
        have hlast : (y :: t2).getLast? = some a := by
          have := hcyc
          rw [List.getLast?_cons_cons] at this
          exact this.symm
        rw [ha] at hedge
        refine ih y hedge ((y :: t2) ++ [y]) ⟨?_, ?_, ?_⟩ rfl
        · rw [List.length_append]
          simp
        · rw [List.getLast?_concat]
          rfl
        · refine List.Chain'.append htail (List.chain'_singleton y) ?_
          intro b hb c hc
          rw [hlast] at hb
          have hb2 : a = b := by injection hb
          have hc2 : y = c := by injection hc
          rw [← hb2, ← hc2, ha]
          exact hedge

/-- If `FindCycles` reports no cycles, the graph is acyclic at every node. -/
theorem findCycles_nil_acyclic {g : Graph} (h : findCycles g = []) (p : Nat) :
    AcyclicAt g p := by
  by_cases hk : p ∈ keysF g
  · have hsome := findCyclesO_isSome g
    cases ho : findCyclesO g with
    | none => rw [ho] at hsome; cases hsome
    | some cr =>
      have hc : cr.1 = [] := by
        rw [findCycles, ho] at h
        exact h
      have ho2 : fcTop g (keysList g).dedup [] ∅ = some cr := by
        rw [← findCyclesO]
        exact ho
      have hAccE : AllAcc g (∅ : Finset Nat) :=
        fun x hx => absurd hx (Finset.not_mem_empty x)
      obtain ⟨_, hAll, hmem⟩ := fcTop_acc (keysList g).dedup ∅ cr ho2 hc hAccE
      have hp : p ∈ (keysList g).dedup :=
        List.mem_dedup.mpr (List.mem_toFinset.mp hk)
      exact acc_no_cycle (hAll p (hmem p hp))
  · intro m hm hhead
    obtain ⟨hlen, _, hpath⟩ := hm
    cases m with
    | nil => cases hhead
    | cons a t =>
      cases t with
      | nil => simp at hlen
      | cons y t2 =>
        have ha : a = p := by
          have : some a = some p := hhead
          injection this
        have hedge : y ∈ needsOf g a := (List.chain'_cons.mp hpath).1
        rw [ha, needsOf, (findNode_eq_none_iff g p).mpr hk] at hedge
        simp at hedge

/-! ## `FindRecursiveProvides` leaves every `needs` set untouched -/

theorem frpFold_needs (recf : Graph → Finset Nat → Nat → Graph × Finset Nat)
    (hrec : ∀ g s d q, needsOf (recf g s d).1 q = needsOf g q) (pkg : Nat) :
    ∀ (deps : List Nat) (acc : Graph × Finset Nat) (q : Nat),
      needsOf (frpFold recf pkg deps acc).1 q = needsOf acc.1 q := by
  intro deps
  induction deps with
  | nil => intro acc q; rfl
  | cons dep rest ih =>
    intro acc q
    simp only [frpFold]
    rw [ih]
    rw [needsOf_mapNode_keep
      (fun n => { n with tprovides := n.tprovides ∪ tprovidesOf (recf acc.1 acc.2 dep).1 dep })
      (fun n => rfl)]
    exact hrec acc.1 acc.2 dep q

theorem frp_needs :
    ∀ (f : Nat) (g : Graph) (seen : Finset Nat) (pkg q : Nat),
      needsOf (frp f g seen pkg).1 q = needsOf g q := by
  intro f
  induction f with
  | zero => intro g seen pkg q; rfl
  | succ f ih =>
    intro g seen pkg q
    simp only [frp]
    by_cases hmem : pkg ∈ seen
    · rw [if_pos hmem]
    · rw [if_neg hmem]
      rw [frpFold_needs (frp f) (fun g s d q => ih g s d q) pkg]
      exact needsOf_mapNode_keep (fun n => { n with tprovides := n.provides })
        (fun n => rfl) g pkg q

theorem frpAll_fold_needs (g0 : Graph) (q : Nat) :
    ∀ (ps : List Nat) (acc : Graph × Finset Nat),
      needsOf (ps.foldl (fun (acc : Graph × Finset Nat) p =>
        frp (frpBound g0) acc.1 acc.2 p) acc).1 q = needsOf acc.1 q := by
  intro ps
  induction ps with
  | nil => intro acc; rfl
  | cons p rest ih =>
    intro acc
    rw [List.foldl_cons, ih]
    exact frp_needs (frpBound g0) acc.1 acc.2 p q

theorem frpAll_needs (g : Graph) (q : Nat) : needsOf (frpAll g) q = needsOf g q :=
  frpAll_fold_needs g q (keysList g).dedup (g, ∅)

/-- C1: for every input dependency tree and build environment (`idx`
assignment included), the Graph Builder terminates — `SanitizeTree`'s
cycle-break loop reaches a fixpoint within its fuel, shown by
`sanitizeTree_nocycles` — and the returned graph is acyclic: no non-empty
`needs` path leads from any package `p` back to `p`. -/
theorem C1_graph_builder_acyclic (env : BuildEnv) (t : DTree) (p : Nat) :
    AcyclicAt (genDependencyGraph env t) p := by
  have hac := findCycles_nil_acyclic
    (sanitizeTree_nocycles env (removeUnusedPackages env (reverseTree env t))) p
  intro m hm
  obtain ⟨hlen, hcyc, hpath⟩ := hm
  have hpath2 : List.Chain' (fun a b =>
      b ∈ needsOf (frpAll (sanitizeTree env (removeUnusedPackages env (reverseTree env t)))) a)
      m := hpath
  have hpath3 : IsNeedsPath (sanitizeTree env (removeUnusedPackages env (reverseTree env t))) m :=
    List.Chain'.imp (fun a b hab => by rwa [frpAll_needs] at hab) hpath2
  exact hac m ⟨hlen, hcyc, hpath3⟩

/-! ## The jobs-table cap: infrastructure for C6 -/

theorem scheduleOne_card (s : SchedState) (t : Nat) :
    (scheduleOne s t).1.jobs.card ≤ s.jobs.card + 1 := by
  cases hb : (scheduleOne s t).2 with
  | false =>
    rw [scheduleOne_jobs_false hb]
    omega
  | true =>
    obtain ⟨hj, _, _, _⟩ := scheduleOne_jobs_true hb
    rw [hj]
    exact Finset.card_insert_le t s.jobs

theorem scheduleLoopAux_procs (lh : Bool) :
    ∀ (f : Nat) (s : SchedState), (scheduleLoopAux lh f s).procs = s.procs := by
  intro f
  induction f with
  | zero => intro s; rfl
  | succ f ih =>
    intro s
    simp only [scheduleLoopAux]
    by_cases hlt : s.jobs.card < (if s.loadAvgSet = true ∧ lh = true then 1 else s.procs)
    · rw [if_pos hlt]
      cases hpop : popMin s.ready with
      | none => rfl
      | some kr =>
        obtain ⟨k, rest⟩ := kr
        dsimp only
        by_cases hfl : k.2 ∈ s.failed
        · rw [if_pos hfl]
          exact ih _
        · rw [if_neg hfl]
          rw [ih]
          exact (scheduleOne_frame _ k.2).2.2.1
    · rw [if_neg hlt]

theorem scheduleLoopAux_loadAvgSet (lh : Bool) :
    ∀ (f : Nat) (s : SchedState), (scheduleLoopAux lh f s).loadAvgSet = s.loadAvgSet := by
  intro f
  induction f with
  | zero => intro s; rfl
  | succ f ih =>
    intro s
    simp only [scheduleLoopAux]
    by_cases hlt : s.jobs.card < (if s.loadAvgSet = true ∧ lh = true then 1 else s.procs)
    · rw [if_pos hlt]
      cases hpop : popMin s.ready with
      | none => rfl
      | some kr =>
        obtain ⟨k, rest⟩ := kr
        dsimp only
        by_cases hfl : k.2 ∈ s.failed
        · rw [if_pos hfl]
          exact ih _
        · rw [if_neg hfl]
          rw [ih]
          exact (scheduleOne_frame _ k.2).2.2.2
    · rw [if_neg hlt]

theorem scheduleLoopAux_card (lh : Bool) :
    ∀ (f : Nat) (s : SchedState), 1 ≤ s.procs → s.jobs.card ≤ s.procs →
      (scheduleLoopAux lh f s).jobs.card ≤ s.procs := by
  intro f
  induction f with
  | zero => intro s _ hj; exact hj
  | succ f ih =>
    intro s hp hj
    simp only [scheduleLoopAux]
    by_cases hlt : s.jobs.card < (if s.loadAvgSet = true ∧ lh = true then 1 else s.procs)
    · rw [if_pos hlt]
      cases hpop : popMin s.ready with
      | none => exact hj
      | some kr =>
        obtain ⟨k, rest⟩ := kr
        dsimp only
        by_cases hfl : k.2 ∈ s.failed
        · rw [if_pos hfl]
          exact ih { s with ready := rest } hp hj
        · rw [if_neg hfl]
          have hneed : (if s.loadAvgSet = true ∧ lh = true then 1 else s.procs) ≤ s.procs := by
            by_cases hc : s.loadAvgSet = true ∧ lh = true
            · rw [if_pos hc]; exact hp
            · rw [if_neg hc]
          have hcard : (scheduleOne { s with ready := rest } k.2).1.jobs.card ≤ s.procs := by
            have h1 := scheduleOne_card { s with ready := rest } k.2
            dsimp only at h1
            omega
          have hpr : (scheduleOne { s with ready := rest } k.2).1.procs = s.procs :=
            (scheduleOne_frame _ k.2).2.2.1
          have := ih (scheduleOne { s with ready := rest } k.2).1
            (by rw [hpr]; exact hp) (by rw [hpr]; exact hcard)
          rw [hpr] at this
          exact this
    · rw [if_neg hlt]
      exact hj

theorem retryAux_procs :
    ∀ (q : List Nat) (s : SchedState), (retryAux q s).1.procs = s.procs := by
  intro q
  induction q with
  | nil => intro s; rfl
  | cons t rest ih =>
    intro s
    simp only [retryAux]
    by_cases hd : (scheduleOne { s with retryQueue := rest } t).2 = true
    · rw [if_pos hd]
      exact (scheduleOne_frame _ t).2.2.1
    · rw [if_neg hd]
      rw [ih]
      exact (scheduleOne_frame _ t).2.2.1

theorem retryAux_card :
    ∀ (q : List Nat) (s : SchedState),
      (retryAux q s).1.jobs.card ≤ s.jobs.card + 1 := by
  intro q
  induction q with
  | nil =>
    intro s
    simp only [retryAux]
    exact Nat.le_succ _
  | cons t rest ih =>
    intro s
    simp only [retryAux]
    by_cases hd : (scheduleOne { s with retryQueue := rest } t).2 = true
    · rw [if_pos hd]
      have := scheduleOne_card { s with retryQueue := rest } t
      dsimp only at this ⊢
      omega
    · rw [if_neg hd]
      have hd' : (scheduleOne { s with retryQueue := rest } t).2 = false := by
        revert hd; cases (scheduleOne { s with retryQueue := rest } t).2 <;> simp
      have hj := scheduleOne_jobs_false hd'
      have := ih (scheduleOne { s with retryQueue := rest } t).1
      rw [hj] at this
      dsimp only at this
      exact this

theorem preLoops_procs :
    ∀ (l : List Bool) (s : SchedState), (preLoops s l).procs = s.procs := by
  intro l
  induction l with
  | nil => intro s; rfl
  | cons lh rest ih =>
    intro s
    simp only [preLoops, List.foldl_cons]
    have := ih (scheduleLoop lh s)
    rw [preLoops] at this
    rw [this, scheduleLoop, scheduleLoopAux_procs]

theorem preLoops_card :
    ∀ (l : List Bool) (s : SchedState), 1 ≤ s.procs → s.jobs.card ≤ s.procs →
      (preLoops s l).jobs.card ≤ s.procs := by
  intro l
  induction l with
  | nil => intro s _ hj; exact hj
  | cons lh rest ih =>
    intro s hp hj
    simp only [preLoops, List.foldl_cons]
    have h1 : (scheduleLoop lh s).jobs.card ≤ s.procs := by
      rw [scheduleLoop]
      exact scheduleLoopAux_card lh _ s hp hj
    have hpr : (scheduleLoop lh s).procs = s.procs := by
      rw [scheduleLoop]
      exact scheduleLoopAux_procs lh _ s
    have := ih (scheduleLoop lh s) (by rw [hpr]; exact hp) (by rw [hpr]; exact h1)
    rw [preLoops] at this
    rw [hpr] at this
    exact this

theorem scheduleLoop_inv (lh : Bool) (X : SchedState) (pr : Nat)
    (hpr : X.procs = pr) (hp : 1 ≤ pr) (hj : X.jobs.card ≤ pr) :
    (scheduleLoop lh X).procs = pr ∧ (scheduleLoop lh X).jobs.card ≤ pr := by
  rw [scheduleLoop]
  subst hpr
  exact ⟨scheduleLoopAux_procs lh _ X, scheduleLoopAux_card lh _ X hp hj⟩

theorem phase1_cont_inv {s : SchedState} {inp : RunInput} {s2 : SchedState} {b : Bool}
    (h : phase1 s inp = .cont s2 b)
    (hp : 1 ≤ s.procs) (hj : s.jobs.card ≤ s.procs) :
    s2.procs = s.procs ∧ s2.jobs.card ≤ s2.procs := by
  simp only [phase1] at h
  by_cases hd : s.deps = []
  · rw [if_pos hd] at h; cases h
  · rw [if_neg hd] at h
    by_cases hq : s.jobs = ∅ ∧ s.ready = [] ∧ s.retryQueue = []
    · rw [if_pos hq] at h; cases h
    · rw [if_neg hq] at h
      have h1 : preLoops (if s.jobs = ∅ ∧ s.ready = [] then (retryStep s).1 else s)
          inp.pre = s2 := by
        injection h
      have hinv : (if s.jobs = ∅ ∧ s.ready = [] then (retryStep s).1 else s).procs = s.procs ∧
          (if s.jobs = ∅ ∧ s.ready = [] then (retryStep s).1 else s).jobs.card ≤ s.procs := by
        by_cases hqi : s.jobs = ∅ ∧ s.ready = []
        · rw [if_pos hqi]
          constructor
          · rw [retryStep]
            exact retryAux_procs s.retryQueue s
          · have hcz : s.jobs.card = 0 := by rw [hqi.1]; rfl
            have := retryAux_card s.retryQueue s
            rw [retryStep]
            omega
        · rw [if_neg hqi]
          exact ⟨rfl, hj⟩
      rw [← h1]
      obtain ⟨hpr1, hj1⟩ := hinv
      refine ⟨?_, ?_⟩
      · rw [preLoops_procs, hpr1]
      · rw [preLoops_procs, hpr1]
        have hc := preLoops_card inp.pre _ (by rw [hpr1]; exact hp) (by rw [hpr1]; exact hj1)
        rw [hpr1] at hc
        exact hc

theorem procMsg_inv {s2 : SchedState} {j : JobMsg} {post : Bool}
    (hmem : j.done = true → j.target ∈ s2.jobs)
    (hp : 1 ≤ s2.procs) (hj : s2.jobs.card ≤ s2.procs) :
    (procMsg s2 j post).1.procs = s2.procs ∧
      (procMsg s2 j post).1.jobs.card ≤ s2.procs := by
  simp only [procMsg, retryStep]
  by_cases hd : j.done = false
  · rw [if_pos hd]
    exact ⟨rfl, hj⟩
  · rw [if_neg hd]
    have hd2 : j.done = true := by revert hd; cases j.done <;> simp
    have ht := hmem hd2
    have hc3 : (s2.jobs.erase j.target).card = s2.jobs.card - 1 :=
      Finset.card_erase_of_mem ht
    have hpos : 1 ≤ s2.jobs.card := Finset.card_pos.mpr ⟨j.target, ht⟩
    by_cases hrc : j.retcode ≠ 0
    · rw [if_pos hrc]
      by_cases hpf : j.target ∈ s2.failed
      · rw [if_pos hpf]
        exact scheduleLoop_inv post _ s2.procs rfl hp
          (le_trans Finset.card_erase_le hj)
      · rw [if_neg hpf]
        exact scheduleLoop_inv post _ s2.procs rfl hp
          (le_trans Finset.card_erase_le hj)
    · rw [if_neg hrc]
      by_cases hpf : j.target ∈ s2.failed
      · rw [if_pos hpf]
        by_cases hrq : s2.retryQueue = []
        · rw [if_neg (fun hcon => hcon.2 hrq)]
          dsimp only
          exact scheduleLoop_inv post _ s2.procs rfl hp
            (le_trans Finset.card_erase_le hj)
        · rw [if_pos ⟨hpf, hrq⟩]
          refine scheduleLoop_inv post _ s2.procs ?_ hp ?_
          · exact retryAux_procs _ _
          · refine le_trans (retryAux_card _ _) ?_
            show (s2.jobs.erase j.target).card + 1 ≤ s2.procs
            omega
      · rw [if_neg hpf]
        rw [if_neg (fun hcon => hpf hcon.1)]
        exact scheduleLoop_inv post _ s2.procs rfl hp
          (le_trans Finset.card_erase_le hj)

theorem runStep_inv {s u : SchedState} {inp : RunInput} {b : Bool}
    (hv : ValidIn s inp) (h : runStep s inp = .cont u b)
    (hp : 1 ≤ s.procs) (hj : s.jobs.card ≤ s.procs) :
    u.procs = s.procs ∧ u.jobs.card ≤ u.procs := by
  simp only [runStep] at h
  cases hp1 : phase1 s inp with
  | halt e => rw [hp1] at h; cases h
  | cont s2 b2 =>
    rw [hp1] at h
    obtain ⟨hpr2, hj2⟩ := phase1_cont_inv hp1 hp hj
    cases hm : inp.msg with
    | none =>
      rw [hm] at h
      have h1 : s2 = u := by injection h
      rw [← h1, hpr2]
      exact ⟨rfl, by rw [← hpr2]; exact hj2⟩
    | some j =>
      rw [hm] at h
      have hmem : j.done = true → j.target ∈ s2.jobs := by
        intro hdj
        have := hv j hm hdj
        rw [afterPre, hp1] at this
        exact this
      obtain ⟨hpr3, hj3⟩ := procMsg_inv hmem (by rw [hpr2]; exact hp) hj2
      have h1 : (procMsg s2 j inp.post).1 = u := by injection h
      rw [← h1]
      refine ⟨hpr3.trans hpr2, ?_⟩
      rw [hpr3]
      exact hj3

theorem scheduleLoopAux_highload {s : SchedState}
    (hlas : s.loadAvgSet = true) (hjc : 1 ≤ s.jobs.card) :
    ∀ f, scheduleLoopAux true f s = s := by
  intro f
  cases f with
  | zero => rfl
  | succ f =>
    simp only [scheduleLoopAux]
    have hcond : s.loadAvgSet = true ∧ True := ⟨hlas, trivial⟩
    rw [if_pos hcond]
    rw [if_neg (by omega : ¬ s.jobs.card < 1)]

/-- C6, amended: along every valid run the jobs table never exceeds `procs`
(given at least one worker), and the load-average cap only gates new
dispatches — a `_ScheduleLoop` under a high load sample dispatches nothing
once a job is in flight (but does not bound the jobs already dispatched,
see the accompanying counterexample). -/
theorem C6_jobs_cap {s0 s : SchedState} (hr : Reaches s0 s)
    (hp : 1 ≤ s0.procs) (hj : s0.jobs.card ≤ s0.procs) :
    s.jobs.card ≤ s.procs ∧
      (s.loadAvgSet = true → 1 ≤ s.jobs.card → scheduleLoop true s = s) := by
  have main : 1 ≤ s.procs ∧ s.jobs.card ≤ s.procs := by
    induction hr with
    | refl => exact ⟨hp, hj⟩
    | step t u inp b hv h ht ih =>
      obtain ⟨ih1, ih2⟩ := ih
      obtain ⟨hpr, hcard⟩ := runStep_inv hv h ih1 ih2
      exact ⟨by rw [hpr]; exact ih1, hcard⟩
  refine ⟨main.2, ?_⟩
  intro hlas hjc
  rw [scheduleLoop]
  exact scheduleLoopAux_highload hlas hjc _

/-- Witness for C6 on a real one-iteration run at the two-package state. -/
theorem C6_jobs_cap_witness :
    sC6run.jobs.card ≤ sC6run.procs ∧
      (sC6run.loadAvgSet = true → 1 ≤ sC6run.jobs.card →
        scheduleLoop true sC6run = sC6run) := by
  have hne : ¬ sC6run.jobs = ∅ :=
    Finset.ne_empty_of_mem (show (1 : Nat) ∈ sC6run.jobs by decide)
  have hstep : runStep sC6run { pre := [true], msg := none, post := true } =
      .cont sC6run false := by
    unfold runStep phase1
    rw [if_neg (by decide : ¬ sC6run.deps = [])]
    rw [if_neg (fun hcon => hne hcon.1)]
    rw [if_neg (fun hcon => hne hcon.1)]
    show StepRes.cont (preLoops sC6run [true]) false = .cont sC6run false
    have hpre : preLoops sC6run [true] = sC6run := by
      show scheduleLoop true sC6run = sC6run
      rw [scheduleLoop]
      exact scheduleLoopAux_highload rfl (by decide) _
    rw [hpre]
  exact C6_jobs_cap
    (Reaches.step sC6run sC6run sC6run { pre := [true], msg := none, post := true }
      false (fun j hm _ => Option.noConfusion hm) hstep (Reaches.refl sC6run))
    (by decide) (by decide)

/-- Counterexample to the load-cap half of C6 as stated: starting from the
scheduler's initial state with `procs = 2` and the load cap set, one
iteration with a low-load sample puts two jobs in flight, and the next
iteration samples the load high yet both jobs remain in the table —
`|jobs| = 2 > 1` while the cap condition holds. -/
theorem C6_load_cap_exceeded :
    runStep (baseState gC6 2 true) { pre := [false], msg := none, post := false } =
        .cont sC6run false ∧
      runStep sC6run { pre := [true], msg := none, post := true } =
        .cont sC6run false ∧
      sC6run.loadAvgSet = true ∧ sC6run.jobs.card = 2 := by
  have hne : ¬ sC6run.jobs = ∅ :=
    Finset.ne_empty_of_mem (show (1 : Nat) ∈ sC6run.jobs by decide)
  refine ⟨?_, ?_, rfl, by decide⟩
  · unfold runStep phase1
    rw [if_neg (by decide : ¬ (baseState gC6 2 true).deps = [])]
    rw [if_neg (fun hcon => absurd hcon.2.1 (by decide : ¬ (baseState gC6 2 true).ready = []))]
    rw [if_neg (fun hcon => absurd hcon.2 (by decide : ¬ (baseState gC6 2 true).ready = []))]
    rfl
  · unfold runStep phase1
    rw [if_neg (by decide : ¬ sC6run.deps = [])]
    rw [if_neg (fun hcon => hne hcon.1)]
    rw [if_neg (fun hcon => hne hcon.1)]
    show StepRes.cont (preLoops sC6run [true]) false = .cont sC6run false
    have hpre : preLoops sC6run [true] = sC6run := by
      show scheduleLoop true sC6run = sC6run
      rw [scheduleLoop]
      exact scheduleLoopAux_highload rfl (by decide) _
    rw [hpre]

/-- C7, amended: a completion event with a non-zero exit code removes the
job-table entry and, on the first failure of its package, appends the
package to the retry queue and adds it to `failed` with the graph untouched
(no `_Finish` runs, so the package stays and its successors stay blocked),
continuing the run; on a second failure of the same package the failure is
only reported (the returned flag) — processing still ends in the ordinary
trailing `_ScheduleLoop` in both cases. -/
theorem C7_failure_retry_then_fatal (s2 : SchedState) (j : JobMsg) (post : Bool)
    (hd : j.done = true) (hrc : j.retcode ≠ 0) :
    (j.target ∉ s2.failed →
      procMsg s2 j post =
        (scheduleLoop post
          { s2 with jobs := s2.jobs.erase j.target,
                    retryQueue := s2.retryQueue ++ [j.target],
                    failed := insert j.target s2.failed }, false)) ∧
    (j.target ∈ s2.failed →
      procMsg s2 j post =
        (scheduleLoop post { s2 with jobs := s2.jobs.erase j.target }, true)) := by
  constructor
  · intro hpf
    simp only [procMsg]
    rw [hd]
    rw [if_neg (by decide : ¬ (true = false))]
    rw [if_pos hrc, if_neg hpf]
  · intro hpf
    simp only [procMsg]
    rw [hd]
    rw [if_neg (by decide : ¬ (true = false))]
    rw [if_pos hrc, if_pos hpf]

/-- Witness for C7 at the second-failure state `sC7`. -/
theorem C7_failure_retry_then_fatal_witness :
    ((0 : Nat) ∉ sC7.failed →
      procMsg sC7 { target := 0, done := true, retcode := 1 } false =
        (scheduleLoop false
          { sC7 with jobs := sC7.jobs.erase 0,
                     retryQueue := sC7.retryQueue ++ [0],
                     failed := insert 0 sC7.failed }, false)) ∧
    ((0 : Nat) ∈ sC7.failed →
      procMsg sC7 { target := 0, done := true, retcode := 1 } false =
        (scheduleLoop false { sC7 with jobs := sC7.jobs.erase 0 }, true)) :=
  C7_failure_retry_then_fatal sC7 { target := 0, done := true, retcode := 1 } false
    rfl (by decide)

/-- Counterexample to "shutdown begins" on a second failure: the iteration
that reports the doomed build returns `.cont` (the while loop keeps going)
and its trailing `_ScheduleLoop` even dispatches a fresh package. -/
theorem C7_no_shutdown_on_second_failure :
    runStep sC7
        { pre := [], msg := some { target := 0, done := true, retcode := 1 },
          post := false } = .cont sC7x true ∧
      1 ∈ sC7x.jobs ∧ 1 ∉ sC7.jobs := by
  have hne : ¬ sC7.jobs = ∅ :=
    Finset.ne_empty_of_mem (show (0 : Nat) ∈ sC7.jobs by decide)
  refine ⟨?_, by decide, by decide⟩
  unfold runStep phase1
  rw [if_neg (by decide : ¬ sC7.deps = [])]
  rw [if_neg (fun hcon => hne hcon.1)]
  rw [if_neg (fun hcon => hne hcon.1)]
  rfl

/-! ## Edge symmetry (claim C5): generic tools -/

theorem needsOf_eq {g : Graph} {p : Nat} {n : Node} (h : findNode g p = some n) :
    needsOf g p = n.needs := by
  rw [needsOf, h]
  rfl

theorem providesOf_eq {g : Graph} {p : Nat} {n : Node} (h : findNode g p = some n) :
    providesOf g p = n.provides := by
  rw [providesOf, h]
  rfl

theorem needsOf_absent {g : Graph} {p : Nat} (h : findNode g p = none) :
    needsOf g p = ∅ := by
  rw [needsOf, h]
  rfl

theorem providesOf_absent {g : Graph} {p : Nat} (h : findNode g p = none) :
    providesOf g p = ∅ := by
  rw [providesOf, h]
  rfl

/-- Membership form of `EdgeSym`: all obligations via `needsOf`/`providesOf`. -/
theorem edgeSym_iff (g : Graph) :
    EdgeSym g ↔ ∀ p : Nat,
      (∀ q ∈ needsOf g p, q ∈ keysF g ∧ p ∈ providesOf g q) ∧
      (∀ q ∈ providesOf g p, q ∈ keysF g ∧ p ∈ needsOf g q) := by
  constructor
  · intro hsym p
    cases hf : findNode g p with
    | none =>
      constructor
      · intro q hq
        rw [needsOf_absent hf] at hq
        exact absurd hq (Finset.not_mem_empty q)
      · intro q hq
        rw [providesOf_absent hf] at hq
        exact absurd hq (Finset.not_mem_empty q)
    | some n =>
      constructor
      · intro q hq
        rw [needsOf_eq hf] at hq
        obtain ⟨m, hm, hqm⟩ := (hsym p n hf).1 q hq
        exact ⟨(mem_keysF_iff g q).mpr ⟨m, hm⟩, by rw [providesOf_eq hm]; exact hqm⟩
      · intro q hq
        rw [providesOf_eq hf] at hq
        obtain ⟨m, hm, hqm⟩ := (hsym p n hf).2 q hq
        exact ⟨(mem_keysF_iff g q).mpr ⟨m, hm⟩, by rw [needsOf_eq hm]; exact hqm⟩
  · intro h p n hf
    constructor
    · intro q hq
      have h2 := (h p).1 q (by rw [needsOf_eq hf]; exact hq)
      obtain ⟨m, hm⟩ := (mem_keysF_iff g q).mp h2.1
      refine ⟨m, hm, ?_⟩
      have h3 := h2.2
      rw [providesOf_eq hm] at h3
      exact h3
    · intro q hq
      have h2 := (h p).2 q (by rw [providesOf_eq hf]; exact hq)
      obtain ⟨m, hm⟩ := (mem_keysF_iff g q).mp h2.1
      refine ⟨m, hm, ?_⟩
      have h3 := h2.2
      rw [needsOf_eq hm] at h3
      exact h3

theorem keysF_eraseEdge (g : Graph) (p q : Nat) :
    keysF (eraseEdge g p q) = keysF g := by
  rw [eraseEdge]
  rw [keysF_mapNode, keysF_mapNode]

theorem keysF_deleteEdges (env : BuildEnv) :
    ∀ (c : Cyc) (g : Graph), keysF (deleteEdges env g c) = keysF g := by
  intro c
  induction c with
  | nil => intro g; rfl
  | cons e rest ih =>
    intro g
    rw [deleteEdges_cons]
    by_cases hc : env.idxf e.1.1 ≤ env.idxf e.1.2
    · rw [if_pos hc, ih, keysF_eraseEdge]
    · rw [if_neg hc, ih]

/-- `SanitizeTree`'s deletion pass removes both sides of each selected edge,
so it preserves edge symmetry. -/
theorem EdgeSym_deleteEdges (env : BuildEnv) (g : Graph) (c : Cyc)
    (hsym : EdgeSym g) : EdgeSym (deleteEdges env g c) := by
  rw [edgeSym_iff] at hsym ⊢
  intro p
  constructor
  · intro q hq
    rw [deleteEdges_needs] at hq
    obtain ⟨hq1, hq2⟩ := Finset.mem_sdiff.mp hq
    obtain ⟨hk, hpr⟩ := (hsym p).1 q hq1
    refine ⟨by rw [keysF_deleteEdges]; exact hk, ?_⟩
    rw [deleteEdges_provides]
    refine Finset.mem_sdiff.mpr ⟨hpr, ?_⟩
    intro hcon
    obtain ⟨m', hm', hcnd⟩ := (mem_delProv env c q p).mp hcon
    exact hq2 ((mem_delNeeds env c p q).mpr ⟨m', hm', hcnd⟩)
  · intro q hq
    rw [deleteEdges_provides] at hq
    obtain ⟨hq1, hq2⟩ := Finset.mem_sdiff.mp hq
    obtain ⟨hk, hnd⟩ := (hsym p).2 q hq1
    refine ⟨by rw [keysF_deleteEdges]; exact hk, ?_⟩
    rw [deleteEdges_needs]
    refine Finset.mem_sdiff.mpr ⟨hnd, ?_⟩
    intro hcon
    obtain ⟨m', hm', hcnd⟩ := (mem_delNeeds env c q p).mp hcon
    exact hq2 ((mem_delProv env c p q).mpr ⟨m', hm', hcnd⟩)

theorem EdgeSym_sanitizeFuel (env : BuildEnv) :
    ∀ (f : Nat) (g : Graph), EdgeSym g → EdgeSym (sanitizeFuel env f g) := by
  intro f
  induction f with
  | zero => intro g h; exact h
  | succ f ih =>
    intro g h
    simp only [sanitizeFuel]
    by_cases hc : findCycles g = []
    · rw [if_pos hc]; exact h
    · rw [if_neg hc]
      exact ih _ (EdgeSym_deleteEdges env g _ h)

theorem EdgeSym_sanitizeTree (env : BuildEnv) (g : Graph) (hsym : EdgeSym g) :
    EdgeSym (sanitizeTree env g) :=
  EdgeSym_sanitizeFuel env _ g hsym

/-! ## Edge symmetry through `ReverseTree` -/

theorem findNode_append_some {g : Graph} {q : Nat} {m : Node}
    (h : findNode g q = some m) (l : Graph) : findNode (g ++ l) q = some m := by
  induction g with
  | nil => cases h
  | cons e t ih =>
    obtain ⟨k, v⟩ := e
    simp only [findNode] at h
    rw [List.cons_append]
    simp only [findNode]
    by_cases hk : k = q
    · rw [if_pos hk] at h ⊢
      exact h
    · rw [if_neg hk] at h ⊢
      exact ih h

theorem findNode_append_none {g : Graph} {q : Nat}
    (h : findNode g q = none) (l : Graph) : findNode (g ++ l) q = findNode l q := by
  induction g with
  | nil => rfl
  | cons e t ih =>
    obtain ⟨k, v⟩ := e
    simp only [findNode] at h
    rw [List.cons_append]
    simp only [findNode]
    by_cases hk : k = q
    · rw [if_pos hk] at h
      cases h
    · rw [if_neg hk] at h ⊢
      exact ih h

theorem keysF_append (g l : Graph) : keysF (g ++ l) = keysF g ∪ keysF l := by
  simp [keysF, keysList]

theorem EdgeSym_empty : EdgeSym ([] : Graph) := by
  intro p n h
  cases h

theorem EdgeSym_mapNode_keep (f : Node → Node)
    (hf : ∀ n, (f n).needs = n.needs ∧ (f n).provides = n.provides)
    (g : Graph) (p : Nat) (hsym : EdgeSym g) : EdgeSym (mapNode g p f) := by
  rw [edgeSym_iff] at hsym ⊢
  intro a
  rw [needsOf_mapNode_keep f (fun n => (hf n).1), providesOf_mapNode_keep f (fun n => (hf n).2)]
  constructor
  · intro q hq
    obtain ⟨hk, hm⟩ := (hsym a).1 q hq
    rw [keysF_mapNode, providesOf_mapNode_keep f (fun n => (hf n).2)]
    exact ⟨hk, hm⟩
  · intro q hq
    obtain ⟨hk, hm⟩ := (hsym a).2 q hq
    rw [keysF_mapNode, needsOf_mapNode_keep f (fun n => (hf n).1)]
    exact ⟨hk, hm⟩

theorem EdgeSym_append_fresh {g : Graph} (hsym : EdgeSym g) (pkg : Nat) (v : Node)
    (hn : v.needs = ∅) (hp : v.provides = ∅) :
    EdgeSym (g ++ [(pkg, v)]) := by
  intro a n hf
  by_cases ha : findNode g a = none
  · rw [findNode_append_none ha] at hf
    simp only [findNode] at hf
    by_cases hpa : pkg = a
    · rw [if_pos hpa] at hf
      have hv : v = n := by injection hf
      subst hv
      constructor
      · intro q hq
        rw [hn] at hq
        exact absurd hq (Finset.not_mem_empty q)
      · intro q hq
        rw [hp] at hq
        exact absurd hq (Finset.not_mem_empty q)
    · rw [if_neg hpa] at hf
      cases hf
  · obtain ⟨m, hm⟩ := Option.ne_none_iff_exists'.mp ha
    rw [findNode_append_some hm] at hf
    have hmn : m = n := by injection hf
    subst hmn
    constructor
    · intro q hq
      obtain ⟨m2, hm2, hq2⟩ := (hsym a m hm).1 q hq
      exact ⟨m2, findNode_append_some hm2 _, hq2⟩
    · intro q hq
      obtain ⟨m2, hm2, hq2⟩ := (hsym a m hm).2 q hq
      exact ⟨m2, findNode_append_some hm2 _, hq2⟩

theorem needsOf_addPair (g : Graph) (pkg dep : Nat) {np : Node}
    (hnp : findNode g pkg = some np) (a : Nat) :
    needsOf (mapNode (mapNode g dep fun n => { n with provides := insert pkg n.provides })
        pkg fun n => { n with needs := insert dep n.needs }) a =
      if a = pkg then insert dep (needsOf g pkg) else needsOf g a := by
  rw [needsOf_mapNode]
  by_cases ha : a = pkg
  · rw [if_pos ha, if_pos ha, findNode_mapNode]
    subst ha
    by_cases hd : a = dep
    · rw [if_pos hd, hnp]
      simp [needsOf_eq hnp]
    · rw [if_neg hd, hnp]
      simp [needsOf_eq hnp]
  · rw [if_neg ha, if_neg ha]
    exact needsOf_mapNode_keep (fun n => { n with provides := insert pkg n.provides })
      (fun n => rfl) g dep a

theorem providesOf_addPair (g : Graph) (pkg dep : Nat) {nd : Node}
    (hnd : findNode g dep = some nd) (a : Nat) :
    providesOf (mapNode (mapNode g dep fun n => { n with provides := insert pkg n.provides })
        pkg fun n => { n with needs := insert dep n.needs }) a =
      if a = dep then insert pkg (providesOf g dep) else providesOf g a := by
  rw [providesOf_mapNode_keep (fun n => { n with needs := insert dep n.needs }) (fun n => rfl)]
  rw [providesOf_mapNode]
  by_cases ha : a = dep
  · rw [if_pos ha, if_pos ha]
    subst ha
    rw [hnd]
    simp [providesOf_eq hnd]
  · rw [if_neg ha, if_neg ha]

theorem EdgeSym_addPair {g : Graph} (hsym : EdgeSym g) (pkg dep : Nat)
    (hp : pkg ∈ keysF g) (hd : dep ∈ keysF g) :
    EdgeSym (mapNode (mapNode g dep fun n => { n with provides := insert pkg n.provides })
      pkg fun n => { n with needs := insert dep n.needs }) := by
  obtain ⟨np, hnp⟩ := (mem_keysF_iff g pkg).mp hp
  obtain ⟨nd, hnd⟩ := (mem_keysF_iff g dep).mp hd
  rw [edgeSym_iff] at hsym ⊢
  intro a
  have hkeys : keysF (mapNode (mapNode g dep fun n => { n with provides := insert pkg n.provides })
      pkg fun n => { n with needs := insert dep n.needs }) = keysF g := by
    rw [keysF_mapNode, keysF_mapNode]
  constructor
  · intro q hq
    rw [needsOf_addPair g pkg dep hnp a] at hq
    rw [hkeys, providesOf_addPair g pkg dep hnd q]
    have hmain : q ∈ keysF g ∧ a ∈ providesOf g q ∨ a = pkg ∧ q = dep := by
      by_cases ha : a = pkg
      · rw [if_pos ha] at hq
        rcases Finset.mem_insert.mp hq with rfl | hq2
        · exact Or.inr ⟨ha, rfl⟩
        · subst ha
          exact Or.inl ((hsym a).1 q hq2)
      · rw [if_neg ha] at hq
        exact Or.inl ((hsym a).1 q hq)
    rcases hmain with ⟨hk, hm⟩ | ⟨ha, hqd⟩
    · refine ⟨hk, ?_⟩
      by_cases hqdep : q = dep
      · subst hqdep
        rw [if_pos rfl]
        exact Finset.mem_insert_of_mem hm
      · rw [if_neg hqdep]
        exact hm
    · subst ha
      subst hqd
      rw [if_pos rfl]
      exact ⟨hd, Finset.mem_insert_self _ _⟩
  · intro q hq
    rw [providesOf_addPair g pkg dep hnd a] at hq
    rw [hkeys, needsOf_addPair g pkg dep hnp q]
    have hmain : q ∈ keysF g ∧ a ∈ needsOf g q ∨ a = dep ∧ q = pkg := by
      by_cases ha : a = dep
      · rw [if_pos ha] at hq
        rcases Finset.mem_insert.mp hq with rfl | hq2
        · exact Or.inr ⟨ha, rfl⟩
        · subst ha
          exact Or.inl ((hsym a).2 q hq2)
      · rw [if_neg ha] at hq
        exact Or.inl ((hsym a).2 q hq)
    rcases hmain with ⟨hk, hm⟩ | ⟨ha, hqp⟩
    · refine ⟨hk, ?_⟩
      by_cases hqpkg : q = pkg
      · subst hqpkg
        rw [if_pos rfl]
        exact Finset.mem_insert_of_mem hm
      · rw [if_neg hqpkg]
        exact hm
    · subst ha
      subst hqp
      rw [if_pos rfl]
      exact ⟨hp, Finset.mem_insert_self _ _⟩

theorem addEdges_keysF (pkg : Nat) :
    ∀ (es : List (Nat × Action × List DepType × DTree)) (g : Graph),
      keysF (addEdges g pkg es) = keysF g := by
  intro es
  induction es with
  | nil => intro g; rfl
  | cons e rest ih =>
    intro g
    simp only [addEdges, List.foldl_cons] at ih ⊢
    rw [ih]
    by_cases hb : DepType.blocker ∈ e.2.2.1
    · rw [if_pos hb, keysF_mapNode]
      by_cases hn : needsDepB e.2.2.1 = true
      · rw [if_pos hn, keysF_mapNode, keysF_mapNode]
      · rw [if_neg hn]
    · rw [if_neg hb]
      by_cases hn : needsDepB e.2.2.1 = true
      · rw [if_pos hn, keysF_mapNode, keysF_mapNode]
      · rw [if_neg hn]

theorem EdgeSym_addEdges (pkg : Nat) :
    ∀ (es : List (Nat × Action × List DepType × DTree)) (g : Graph),
      EdgeSym g → pkg ∈ keysF g → (∀ e ∈ es, e.1 ∈ keysF g) →
      EdgeSym (addEdges g pkg es) := by
  intro es
  induction es with
  | nil => intro g hsym _ _; exact hsym
  | cons e rest ih =>
    intro g hsym hp hes
    simp only [addEdges, List.foldl_cons] at ih ⊢
    have hstep1 : EdgeSym (if needsDepB e.2.2.1 = true then
        mapNode (mapNode g e.1 fun n => { n with provides := insert pkg n.provides })
          pkg fun n => { n with needs := insert e.1 n.needs }
        else g) := by
      by_cases hn : needsDepB e.2.2.1 = true
      · rw [if_pos hn]
        exact EdgeSym_addPair hsym pkg e.1 hp (hes e (List.mem_cons_self _ _))
      · rw [if_neg hn]
        exact hsym
    have hk1 : keysF (if needsDepB e.2.2.1 = true then
        mapNode (mapNode g e.1 fun n => { n with provides := insert pkg n.provides })
          pkg fun n => { n with needs := insert e.1 n.needs }
        else g) = keysF g := by
      by_cases hn : needsDepB e.2.2.1 = true
      · rw [if_pos hn, keysF_mapNode, keysF_mapNode]
      · rw [if_neg hn]
    have hstep2 : EdgeSym (if DepType.blocker ∈ e.2.2.1 then
        mapNode (if needsDepB e.2.2.1 = true then
          mapNode (mapNode g e.1 fun n => { n with provides := insert pkg n.provides })
            pkg fun n => { n with needs := insert e.1 n.needs }
          else g) pkg fun n => { n with nodeps := false }
        else (if needsDepB e.2.2.1 = true then
          mapNode (mapNode g e.1 fun n => { n with provides := insert pkg n.provides })
            pkg fun n => { n with needs := insert e.1 n.needs }
          else g)) := by
      by_cases hb : DepType.blocker ∈ e.2.2.1
      · rw [if_pos hb]
        exact EdgeSym_mapNode_keep (fun n => { n with nodeps := false })
          (fun n => ⟨rfl, rfl⟩) _ pkg hstep1
      · rw [if_neg hb]
        exact hstep1
    have hk2 : keysF (if DepType.blocker ∈ e.2.2.1 then
        mapNode (if needsDepB e.2.2.1 = true then
          mapNode (mapNode g e.1 fun n => { n with provides := insert pkg n.provides })
            pkg fun n => { n with needs := insert e.1 n.needs }
          else g) pkg fun n => { n with nodeps := false }
        else (if needsDepB e.2.2.1 = true then
          mapNode (mapNode g e.1 fun n => { n with provides := insert pkg n.provides })
            pkg fun n => { n with needs := insert e.1 n.needs }
          else g)) = keysF g := by
      by_cases hb : DepType.blocker ∈ e.2.2.1
      · rw [if_pos hb, keysF_mapNode]
        exact hk1
      · rw [if_neg hb]
        exact hk1
    refine ih _ hstep2 ?_ ?_
    · rw [hk2]; exact hp
    · intro e2 he2
      rw [hk2]
      exact hes e2 (List.mem_cons_of_mem _ he2)

theorem keysF_if_mapNode (c : Prop) [Decidable c] (g : Graph) (p : Nat) (f : Node → Node) :
    keysF (if c then mapNode g p f else g) = keysF g := by
  by_cases h : c
  · rw [if_pos h, keysF_mapNode]
  · rw [if_neg h]

mutual

theorem revTreeAux_keys_mono (env : BuildEnv) (t : DTree) :
    ∀ g : Graph, keysF g ⊆ keysF (revTreeAux env g t) := by
  cases t with
  | node es =>
    intro g
    exact revEntries_keys_mono env es g

theorem revEntries_keys_mono (env : BuildEnv)
    (es : List (Nat × Action × List DepType × DTree)) :
    ∀ g : Graph, keysF g ⊆ keysF (revEntries env g es) := by
  cases es with
  | nil => intro g; exact Finset.Subset.refl _
  | cons e rest =>
    obtain ⟨pkg, act, dts, sub⟩ := e
    intro g
    simp only [revEntries]
    refine Finset.Subset.trans ?_ (revEntries_keys_mono env rest _)
    rw [addEdges_keysF]
    refine Finset.Subset.trans ?_ (revTreeAux_keys_mono env sub _)
    rw [keysF_if_mapNode, keysF_if_mapNode]
    by_cases hmem : pkg ∈ keysF g
    · rw [if_pos hmem]
    · rw [if_neg hmem, keysF_append]
      exact Finset.subset_union_left

end

theorem revEntries_keys_complete (env : BuildEnv) :
    ∀ (es : List (Nat × Action × List DepType × DTree)) (g : Graph),
      ∀ e ∈ es, e.1 ∈ keysF (revEntries env g es) := by
  intro es
  induction es with
  | nil => intro g e he; cases he
  | cons e0 rest ih =>
    intro g e he
    obtain ⟨pkg, act, dts, sub⟩ := e0
    simp only [revEntries]
    rcases List.mem_cons.mp he with rfl | he2
    · refine revEntries_keys_mono env rest _ ?_
      rw [addEdges_keysF]
      refine revTreeAux_keys_mono env sub _ ?_
      rw [keysF_if_mapNode, keysF_if_mapNode]
      by_cases hmem : pkg ∈ keysF g
      · rw [if_pos hmem]
        exact hmem
      · rw [if_neg hmem, keysF_append]
        refine Finset.mem_union_right _ ?_
        rw [keysF]
        simp [keysList]
    · exact ih _ e he2

mutual

theorem revTreeAux_sym (env : BuildEnv) (t : DTree) :
    ∀ g : Graph, EdgeSym g → EdgeSym (revTreeAux env g t) := by
  cases t with
  | node es =>
    intro g hsym
    exact revEntries_sym env es g hsym

theorem revEntries_sym (env : BuildEnv)
    (es : List (Nat × Action × List DepType × DTree)) :
    ∀ g : Graph, EdgeSym g → EdgeSym (revEntries env g es) := by
  cases es with
  | nil => intro g hsym; exact hsym
  | cons e rest =>
    obtain ⟨pkg, act, dts, sub⟩ := e
    intro g hsym
    simp only [revEntries]
    have hg1sym : EdgeSym (if pkg ∈ keysF g then g else g ++ [(pkg, defaultNode act)]) := by
      by_cases hmem : pkg ∈ keysF g
      · rw [if_pos hmem]
        exact hsym
      · rw [if_neg hmem]
        exact EdgeSym_append_fresh hsym pkg (defaultNode act) rfl rfl
    have hg1k : pkg ∈ keysF (if pkg ∈ keysF g then g else g ++ [(pkg, defaultNode act)]) := by
      by_cases hmem : pkg ∈ keysF g
      · rw [if_pos hmem]
        exact hmem
      · rw [if_neg hmem, keysF_append]
        refine Finset.mem_union_right _ ?_
        rw [keysF]
        simp [keysList]
    refine revEntries_sym env rest _ ?_
    refine EdgeSym_addEdges pkg (entriesOf sub) _ ?_ ?_ ?_
    · refine revTreeAux_sym env sub _ ?_
      by_cases hbin : env.isBin pkg = true
      · rw [if_pos hbin]
        refine EdgeSym_mapNode_keep _ ?_ _ pkg ?_
        · exact fun n => ⟨rfl, rfl⟩
        · by_cases hkeep : pkg ∈ env.keep
          · rw [if_pos hkeep]
            refine EdgeSym_mapNode_keep _ ?_ _ pkg ?_
            · exact fun n => ⟨rfl, rfl⟩
            · exact hg1sym
          · rw [if_neg hkeep]
            exact hg1sym
      · rw [if_neg hbin]
        by_cases hkeep : pkg ∈ env.keep
        · rw [if_pos hkeep]
          refine EdgeSym_mapNode_keep _ ?_ _ pkg ?_
          · exact fun n => ⟨rfl, rfl⟩
          · exact hg1sym
        · rw [if_neg hkeep]
          exact hg1sym
    · refine revTreeAux_keys_mono env sub _ ?_
      rw [keysF_if_mapNode, keysF_if_mapNode]
      exact hg1k
    · intro e2 he2
      cases sub with
      | node es2 => exact revEntries_keys_complete env es2 _ e2 he2

end

/-- `ReverseTree` builds an edge-symmetric graph from scratch. -/
theorem EdgeSym_reverseTree (env : BuildEnv) (t : DTree) :
    EdgeSym (reverseTree env t) :=
  revTreeAux_sym env t [] EdgeSym_empty

/-! ## Edge symmetry through `RemoveUnusedPackages` -/

theorem cn1_findNode (pkg : Nat) :
    ∀ (L : List Nat) (g : Graph), pkg ∉ L → L.Nodup → ∀ a : Nat,
      findNode (L.foldl (fun g d =>
          mapNode g d fun n =>
            { n with provides := ((n.provides ∪ providesOf g pkg).erase pkg).erase d }) g) a =
        if a ∈ L then
          (findNode g a).map fun n =>
            { n with provides := ((n.provides ∪ providesOf g pkg).erase pkg).erase a }
        else findNode g a := by
  intro L
  induction L with
  | nil =>
    intro g _ _ a
    rw [List.foldl_nil, if_neg (List.not_mem_nil a)]
  | cons d rest ih =>
    intro g hpkg hnd a
    rw [List.foldl_cons]
    have hdp : d ≠ pkg := fun h => hpkg (h ▸ List.mem_cons_self d rest)
    have hnd2 := List.nodup_cons.mp hnd
    have hpv : providesOf (mapNode g d fun n =>
        { n with provides := ((n.provides ∪ providesOf g pkg).erase pkg).erase d }) pkg
        = providesOf g pkg := by
      rw [providesOf_mapNode, if_neg (fun h => hdp h.symm)]
    have ihx := ih (mapNode g d fun n =>
        { n with provides := ((n.provides ∪ providesOf g pkg).erase pkg).erase d })
      (fun h => hpkg (List.mem_cons_of_mem _ h)) hnd2.2 a
    rw [hpv] at ihx
    rw [ihx]
    by_cases had : a = d
    · subst had
      rw [if_neg hnd2.1, if_pos (List.mem_cons_self a rest)]
      rw [findNode_mapNode, if_pos rfl]
    · rw [findNode_mapNode, if_neg had]
      by_cases har : a ∈ rest
      · rw [if_pos har, if_pos (List.mem_cons_of_mem _ har)]
      · rw [if_neg har, if_neg (fun h => (List.mem_cons.mp h).elim (fun h2 => had h2) har)]

theorem cn2_findNode (pkg : Nat) :
    ∀ (L : List Nat) (g : Graph), pkg ∉ L → L.Nodup → ∀ a : Nat,
      findNode (L.foldl (fun g t =>
          mapNode g t fun n =>
            { n with needs := ((n.needs ∪ needsOf g pkg).erase pkg).erase t }) g) a =
        if a ∈ L then
          (findNode g a).map fun n =>
            { n with needs := ((n.needs ∪ needsOf g pkg).erase pkg).erase a }
        else findNode g a := by
  intro L
  induction L with
  | nil =>
    intro g _ _ a
    rw [List.foldl_nil, if_neg (List.not_mem_nil a)]
  | cons d rest ih =>
    intro g hpkg hnd a
    rw [List.foldl_cons]
    have hdp : d ≠ pkg := fun h => hpkg (h ▸ List.mem_cons_self d rest)
    have hnd2 := List.nodup_cons.mp hnd
    have hpv : needsOf (mapNode g d fun n =>
        { n with needs := ((n.needs ∪ needsOf g pkg).erase pkg).erase d }) pkg
        = needsOf g pkg := by
      rw [needsOf_mapNode, if_neg (fun h => hdp h.symm)]
    have ihx := ih (mapNode g d fun n =>
        { n with needs := ((n.needs ∪ needsOf g pkg).erase pkg).erase d })
      (fun h => hpkg (List.mem_cons_of_mem _ h)) hnd2.2 a
    rw [hpv] at ihx
    rw [ihx]
    by_cases had : a = d
    · subst had
      rw [if_neg hnd2.1, if_pos (List.mem_cons_self a rest)]
      rw [findNode_mapNode, if_pos rfl]
    · rw [findNode_mapNode, if_neg had]
      by_cases har : a ∈ rest
      · rw [if_pos har, if_pos (List.mem_cons_of_mem _ har)]
      · rw [if_neg har, if_neg (fun h => (List.mem_cons.mp h).elim (fun h2 => had h2) har)]

theorem cn1_needsOf (pkg : Nat) (L : List Nat) (g : Graph)
    (h1 : pkg ∉ L) (h2 : L.Nodup) (a : Nat) :
    needsOf (L.foldl (fun g d => mapNode g d fun n =>
      { n with provides := ((n.provides ∪ providesOf g pkg).erase pkg).erase d }) g) a =
    needsOf g a := by
  simp only [needsOf]
  rw [cn1_findNode pkg L g h1 h2 a]
  by_cases ha : a ∈ L
  · rw [if_pos ha]
    cases findNode g a <;> rfl
  · rw [if_neg ha]

theorem cn1_providesOf (pkg : Nat) (L : List Nat) (g : Graph)
    (h1 : pkg ∉ L) (h2 : L.Nodup) (a : Nat) :
    providesOf (L.foldl (fun g d => mapNode g d fun n =>
      { n with provides := ((n.provides ∪ providesOf g pkg).erase pkg).erase d }) g) a =
    if a ∈ L ∧ a ∈ keysF g then ((providesOf g a ∪ providesOf g pkg).erase pkg).erase a
    else providesOf g a := by
  by_cases ha : a ∈ L
  · by_cases hk : a ∈ keysF g
    · obtain ⟨n, hn⟩ := (mem_keysF_iff g a).mp hk
      rw [if_pos ⟨ha, hk⟩, providesOf, cn1_findNode pkg L g h1 h2 a, if_pos ha, hn,
        providesOf_eq hn]
      rfl
    · have hno : findNode g a = none := (findNode_eq_none_iff g a).mpr hk
      rw [if_neg (fun hcon => hk hcon.2), providesOf, cn1_findNode pkg L g h1 h2 a,
        if_pos ha, hno, providesOf_absent hno]
      rfl
  · rw [if_neg (fun hcon => ha hcon.1), providesOf, cn1_findNode pkg L g h1 h2 a,
      if_neg ha, providesOf]

theorem cn2_providesOf (pkg : Nat) (L : List Nat) (g : Graph)
    (h1 : pkg ∉ L) (h2 : L.Nodup) (a : Nat) :
    providesOf (L.foldl (fun g t => mapNode g t fun n =>
      { n with needs := ((n.needs ∪ needsOf g pkg).erase pkg).erase t }) g) a =
    providesOf g a := by
  simp only [providesOf]
  rw [cn2_findNode pkg L g h1 h2 a]
  by_cases ha : a ∈ L
  · rw [if_pos ha]
    cases findNode g a <;> rfl
  · rw [if_neg ha]

theorem cn2_needsOf (pkg : Nat) (L : List Nat) (g : Graph)
    (h1 : pkg ∉ L) (h2 : L.Nodup) (a : Nat) :
    needsOf (L.foldl (fun g t => mapNode g t fun n =>
      { n with needs := ((n.needs ∪ needsOf g pkg).erase pkg).erase t }) g) a =
    if a ∈ L ∧ a ∈ keysF g then ((needsOf g a ∪ needsOf g pkg).erase pkg).erase a
    else needsOf g a := by
  by_cases ha : a ∈ L
  · by_cases hk : a ∈ keysF g
    · obtain ⟨n, hn⟩ := (mem_keysF_iff g a).mp hk
      rw [if_pos ⟨ha, hk⟩, needsOf, cn2_findNode pkg L g h1 h2 a, if_pos ha, hn,
        needsOf_eq hn]
      rfl
    · have hno : findNode g a = none := (findNode_eq_none_iff g a).mpr hk
      rw [if_neg (fun hcon => hk hcon.2), needsOf, cn2_findNode pkg L g h1 h2 a,
        if_pos ha, hno, needsOf_absent hno]
      rfl
  · rw [if_neg (fun hcon => ha hcon.1), needsOf, cn2_findNode pkg L g h1 h2 a,
      if_neg ha, needsOf]

theorem cn1_keysF (pkg : Nat) :
    ∀ (L : List Nat) (g : Graph),
      keysF (L.foldl (fun g d => mapNode g d fun n =>
        { n with provides := ((n.provides ∪ providesOf g pkg).erase pkg).erase d }) g) =
      keysF g := by
  intro L
  induction L with
  | nil => intro g; rfl
  | cons d rest ih =>
    intro g
    rw [List.foldl_cons, ih, keysF_mapNode]

theorem cn2_keysF (pkg : Nat) :
    ∀ (L : List Nat) (g : Graph),
      keysF (L.foldl (fun g t => mapNode g t fun n =>
        { n with needs := ((n.needs ∪ needsOf g pkg).erase pkg).erase t }) g) =
      keysF g := by
  intro L
  induction L with
  | nil => intro g; rfl
  | cons d rest ih =>
    intro g
    rw [List.foldl_cons, ih, keysF_mapNode]

theorem contractNode_keysF (g : Graph) (pkg : Nat) :
    keysF (contractNode g pkg) = (keysF g).erase pkg := by
  simp only [contractNode]
  rw [keysF_eraseNode, cn2_keysF pkg, cn1_keysF pkg]

theorem contractNode_needsOf (g : Graph) (pkg : Nat) (hsym : EdgeSym g)
    (hns : NoSelfLoop g) (a : Nat) (ha : a ≠ pkg) :
    needsOf (contractNode g pkg) a =
      if a ∈ providesOf g pkg then ((needsOf g a ∪ needsOf g pkg).erase pkg).erase a
      else needsOf g a := by
  have hsymm := (edgeSym_iff g).mp hsym
  have hnp : pkg ∉ needsOf g pkg := hns pkg
  have hpp : pkg ∉ providesOf g pkg := fun h => hnp ((hsymm pkg).2 pkg h).2
  have hKP : ∀ x, x ∈ providesOf g pkg → x ∈ keysF g := fun x h => ((hsymm pkg).2 x h).1
  have hL1 : pkg ∉ sortF (needsOf g pkg) := fun h => hnp ((mem_sortF _ _).mp h)
  have hN1 : (sortF (needsOf g pkg)).Nodup := sortF_nodup _
  have hL2 : pkg ∉ sortF (providesOf g pkg) := fun h => hpp ((mem_sortF _ _).mp h)
  have hN2 : (sortF (providesOf g pkg)).Nodup := sortF_nodup _
  simp only [contractNode]
  have hPv := cn1_providesOf pkg (sortF (needsOf g pkg)) g hL1 hN1 pkg
  rw [if_neg (fun hcon => hL1 hcon.1)] at hPv
  rw [hPv]
  rw [needsOf, findNode_eraseNode, if_neg ha, ← needsOf]
  rw [cn2_needsOf pkg (sortF (providesOf g pkg)) _ hL2 hN2 a]
  rw [cn1_needsOf pkg _ g hL1 hN1 a, cn1_needsOf pkg _ g hL1 hN1 pkg, cn1_keysF pkg]
  by_cases hmem : a ∈ providesOf g pkg
  · rw [if_pos ⟨(mem_sortF _ _).mpr hmem, hKP a hmem⟩, if_pos hmem]
  · rw [if_neg (fun hcon => hmem ((mem_sortF _ _).mp hcon.1)), if_neg hmem]

theorem contractNode_providesOf (g : Graph) (pkg : Nat) (hsym : EdgeSym g)
    (hns : NoSelfLoop g) (a : Nat) (ha : a ≠ pkg) :
    providesOf (contractNode g pkg) a =
      if a ∈ needsOf g pkg then ((providesOf g a ∪ providesOf g pkg).erase pkg).erase a
      else providesOf g a := by
  have hsymm := (edgeSym_iff g).mp hsym
  have hnp : pkg ∉ needsOf g pkg := hns pkg
  have hpp : pkg ∉ providesOf g pkg := fun h => hnp ((hsymm pkg).2 pkg h).2
  have hKN : ∀ x, x ∈ needsOf g pkg → x ∈ keysF g := fun x h => ((hsymm pkg).1 x h).1
  have hL1 : pkg ∉ sortF (needsOf g pkg) := fun h => hnp ((mem_sortF _ _).mp h)
  have hN1 : (sortF (needsOf g pkg)).Nodup := sortF_nodup _
  have hL2 : pkg ∉ sortF (providesOf g pkg) := fun h => hpp ((mem_sortF _ _).mp h)
  have hN2 : (sortF (providesOf g pkg)).Nodup := sortF_nodup _
  simp only [contractNode]
  have hPv := cn1_providesOf pkg (sortF (needsOf g pkg)) g hL1 hN1 pkg
  rw [if_neg (fun hcon => hL1 hcon.1)] at hPv
  rw [hPv]
  rw [providesOf, findNode_eraseNode, if_neg ha, ← providesOf]
  rw [cn2_providesOf pkg (sortF (providesOf g pkg)) _ hL2 hN2 a]
  rw [cn1_providesOf pkg (sortF (needsOf g pkg)) g hL1 hN1 a]
  by_cases hmem : a ∈ needsOf g pkg
  · rw [if_pos ⟨(mem_sortF _ _).mpr hmem, hKN a hmem⟩, if_pos hmem]
  · rw [if_neg (fun hcon => hmem ((mem_sortF _ _).mp hcon.1)), if_neg hmem]

theorem contractNode_needsOf_pkg (g : Graph) (pkg : Nat) :
    needsOf (contractNode g pkg) pkg = ∅ := by
  simp only [contractNode]
  rw [needsOf, findNode_eraseNode, if_pos rfl]
  rfl

theorem contractNode_providesOf_pkg (g : Graph) (pkg : Nat) :
    providesOf (contractNode g pkg) pkg = ∅ := by
  simp only [contractNode]
  rw [providesOf, findNode_eraseNode, if_pos rfl]
  rfl

/-- `RemoveUnusedPackages`' per-package contraction keeps edge symmetry and
irreflexivity. -/
theorem contractNode_master (g : Graph) (pkg : Nat) (hsym : EdgeSym g)
    (hns : NoSelfLoop g) :
    EdgeSym (contractNode g pkg) ∧ NoSelfLoop (contractNode g pkg) := by
  have hsymm := (edgeSym_iff g).mp hsym
  have hnp : pkg ∉ needsOf g pkg := hns pkg
  have hpp : pkg ∉ providesOf g pkg := fun h => hnp ((hsymm pkg).2 pkg h).2
  have hNd := contractNode_needsOf g pkg hsym hns
  have hPv := contractNode_providesOf g pkg hsym hns
  have hK := contractNode_keysF g pkg
  have hNpkg := contractNode_needsOf_pkg g pkg
  have hPpkg := contractNode_providesOf_pkg g pkg
  constructor
  · rw [edgeSym_iff]
    intro p
    constructor
    · intro q hq
      by_cases hp : p = pkg
      · subst hp
        rw [hNpkg] at hq
        exact absurd hq (Finset.not_mem_empty q)
      · rw [hNd p hp] at hq
        by_cases hpP : p ∈ providesOf g pkg
        · rw [if_pos hpP] at hq
          have hqa : q ≠ p := (Finset.mem_erase.mp hq).1
          have hq2 := (Finset.mem_erase.mp hq).2
          have hqpkg : q ≠ pkg := (Finset.mem_erase.mp hq2).1
          have hq3 := (Finset.mem_erase.mp hq2).2
          rw [hK, hPv q hqpkg]
          rcases Finset.mem_union.mp hq3 with hqN | hqN
          · obtain ⟨hqk, hpq⟩ := (hsymm p).1 q hqN
            refine ⟨Finset.mem_erase.mpr ⟨hqpkg, hqk⟩, ?_⟩
            by_cases hqN0 : q ∈ needsOf g pkg
            · rw [if_pos hqN0]
              exact Finset.mem_erase.mpr ⟨Ne.symm hqa,
                Finset.mem_erase.mpr ⟨hp, Finset.mem_union_left _ hpq⟩⟩
            · rw [if_neg hqN0]
              exact hpq
          · obtain ⟨hqk, hpkgq⟩ := (hsymm pkg).1 q hqN
            refine ⟨Finset.mem_erase.mpr ⟨hqpkg, hqk⟩, ?_⟩
            rw [if_pos hqN]
            exact Finset.mem_erase.mpr ⟨Ne.symm hqa,
              Finset.mem_erase.mpr ⟨hp, Finset.mem_union_right _ hpP⟩⟩
        · rw [if_neg hpP] at hq
          obtain ⟨hqk, hpq⟩ := (hsymm p).1 q hq
          have hqpkg : q ≠ pkg := by
            intro h
            subst h
            exact hpP hpq
          rw [hK, hPv q hqpkg]
          refine ⟨Finset.mem_erase.mpr ⟨hqpkg, hqk⟩, ?_⟩
          by_cases hqN0 : q ∈ needsOf g pkg
          · rw [if_pos hqN0]
            have hpq2 : p ≠ q := by
              intro h
              subst h
              exact hns p hq
            exact Finset.mem_erase.mpr ⟨hpq2,
              Finset.mem_erase.mpr ⟨hp, Finset.mem_union_left _ hpq⟩⟩
          · rw [if_neg hqN0]
            exact hpq
    · intro q hq
      by_cases hp : p = pkg
      · subst hp
        rw [hPpkg] at hq
        exact absurd hq (Finset.not_mem_empty q)
      · rw [hPv p hp] at hq
        by_cases hpN : p ∈ needsOf g pkg
        · rw [if_pos hpN] at hq
          have hqa : q ≠ p := (Finset.mem_erase.mp hq).1
          have hq2 := (Finset.mem_erase.mp hq).2
          have hqpkg : q ≠ pkg := (Finset.mem_erase.mp hq2).1
          have hq3 := (Finset.mem_erase.mp hq2).2
          rw [hK, hNd q hqpkg]
          rcases Finset.mem_union.mp hq3 with hqP | hqP
          · obtain ⟨hqk, hqn⟩ := (hsymm p).2 q hqP
            refine ⟨Finset.mem_erase.mpr ⟨hqpkg, hqk⟩, ?_⟩
            by_cases hqP0 : q ∈ providesOf g pkg
            · rw [if_pos hqP0]
              exact Finset.mem_erase.mpr ⟨Ne.symm hqa,
                Finset.mem_erase.mpr ⟨hp, Finset.mem_union_left _ hqn⟩⟩
            · rw [if_neg hqP0]
              exact hqn
          · obtain ⟨hqk, hpkgq⟩ := (hsymm pkg).2 q hqP
            refine ⟨Finset.mem_erase.mpr ⟨hqpkg, hqk⟩, ?_⟩
            rw [if_pos hqP]
            exact Finset.mem_erase.mpr ⟨Ne.symm hqa,
              Finset.mem_erase.mpr ⟨hp, Finset.mem_union_right _ hpN⟩⟩
        · rw [if_neg hpN] at hq
          obtain ⟨hqk, hqn⟩ := (hsymm p).2 q hq
          have hqpkg : q ≠ pkg := by
            intro h
            subst h
            exact hpN hqn
          rw [hK, hNd q hqpkg]
          refine ⟨Finset.mem_erase.mpr ⟨hqpkg, hqk⟩, ?_⟩
          by_cases hqP0 : q ∈ providesOf g pkg
          · rw [if_pos hqP0]
            have hpq2 : p ≠ q := by
              intro h
              subst h
              exact hns p hqn
            exact Finset.mem_erase.mpr ⟨hpq2,
              Finset.mem_erase.mpr ⟨hp, Finset.mem_union_left _ hqn⟩⟩
          · rw [if_neg hqP0]
            exact hqn
  · intro a
    by_cases hap : a = pkg
    · subst hap
      rw [hNpkg]
      exact Finset.not_mem_empty _
    · rw [hNd a hap]
      by_cases haP : a ∈ providesOf g pkg
      · rw [if_pos haP]
        exact Finset.not_mem_erase a _
      · rw [if_neg haP]
        exact hns a

theorem removeUnused_fold :
    ∀ (L : List Nat) (g : Graph), EdgeSym g → NoSelfLoop g →
      EdgeSym (L.foldl contractNode g) ∧ NoSelfLoop (L.foldl contractNode g) := by
  intro L
  induction L with
  | nil => intro g hsym hns; exact ⟨hsym, hns⟩
  | cons p rest ih =>
    intro g hsym hns
    rw [List.foldl_cons]
    obtain ⟨h1, h2⟩ := contractNode_master g p hsym hns
    exact ih _ h1 h2

/-- `RemoveUnusedPackages` preserves edge symmetry (and irreflexivity). -/
theorem EdgeSym_removeUnusedPackages (env : BuildEnv) (g : Graph)
    (hsym : EdgeSym g) (hns : NoSelfLoop g) :
    EdgeSym (removeUnusedPackages env g) ∧ NoSelfLoop (removeUnusedPackages env g) :=
  removeUnused_fold (sortF (keysF g \ env.keep)) g hsym hns

/-! ## Edge symmetry through `_Finish` -/

theorem edgeSymX_empty (g : Graph) : EdgeSymX g ∅ ↔ EdgeSym g := by
  rw [edgeSym_iff]
  constructor
  · intro h p
    exact h p (Finset.not_mem_empty p)
  · intro h p _
    exact h p

theorem EdgeSymX_mono {g : Graph} {X Y : Finset Nat} (hXY : X ⊆ Y)
    (h : EdgeSymX g X) : EdgeSymX g Y :=
  fun p hp => h p (fun hx => hp (hXY hx))

theorem needsOf_eraseNode (g : Graph) (t a : Nat) :
    needsOf (eraseNode g t) a = if a = t then ∅ else needsOf g a := by
  rw [needsOf, findNode_eraseNode]
  by_cases ha : a = t
  · rw [if_pos ha, if_pos ha]
    rfl
  · rw [if_neg ha, if_neg ha, needsOf]

theorem providesOf_eraseNode (g : Graph) (t a : Nat) :
    providesOf (eraseNode g t) a = if a = t then ∅ else providesOf g a := by
  rw [providesOf, findNode_eraseNode]
  by_cases ha : a = t
  · rw [if_pos ha, if_pos ha]
    rfl
  · rw [if_neg ha, if_neg ha, providesOf]

theorem needsOf_eraseT {g : Graph} {dep : Nat} {dn : Node}
    (hdn : findNode g dep = some dn) (t a : Nat) :
    needsOf (mapNode g dep fun m => { m with needs := m.needs.erase t }) a =
      if a = dep then dn.needs.erase t else needsOf g a := by
  rw [needsOf_mapNode]
  by_cases ha : a = dep
  · rw [if_pos ha, if_pos ha, ha, hdn]
    rfl
  · rw [if_neg ha, if_neg ha]

/-- Erasing the in-progress target from one dependent's `needs` keeps the
away-from-`X` symmetry. -/
theorem EdgeSymX_eraseT {g : Graph} {X : Finset Nat} {t dep : Nat} {dn : Node}
    (hsym : EdgeSymX g X) (ht : t ∈ X) (hdn : findNode g dep = some dn) :
    EdgeSymX (mapNode g dep fun m => { m with needs := m.needs.erase t }) X := by
  intro p hp
  have hclauses := hsym p hp
  have hkeys : keysF (mapNode g dep fun m => { m with needs := m.needs.erase t }) = keysF g :=
    keysF_mapNode g dep _
  have hprov : ∀ a, providesOf (mapNode g dep fun m => { m with needs := m.needs.erase t }) a
      = providesOf g a :=
    fun a => providesOf_mapNode_keep (fun m => { m with needs := m.needs.erase t })
      (fun m => rfl) g dep a
  constructor
  · intro q hq
    rw [needsOf_eraseT hdn t p] at hq
    rw [hkeys, hprov q]
    by_cases hpd : p = dep
    · rw [if_pos hpd] at hq
      have hq2 : q ∈ dn.needs := Finset.mem_of_mem_erase hq
      have hq3 : q ∈ needsOf g p := by
        rw [hpd, needsOf_eq hdn]
        exact hq2
      exact hclauses.1 q hq3
    · rw [if_neg hpd] at hq
      exact hclauses.1 q hq
  · intro q hq
    rw [hprov p] at hq
    obtain ⟨hk, hn⟩ := hclauses.2 q hq
    rw [hkeys, needsOf_eraseT hdn t q]
    by_cases hqd : q = dep
    · rw [if_pos hqd]
      refine ⟨hk, Finset.mem_erase.mpr ⟨?_, ?_⟩⟩
      · intro hpt
        rw [hpt] at hp
        exact hp ht
      · rw [hqd, needsOf_eq hdn] at hn
        exact hn
    · rw [if_neg hqd]
      exact ⟨hk, hn⟩

theorem finFoldGo_symX (f : Nat)
    (ihf : ∀ (g : Graph) (rdy : List RKey) (t : Nat) (X : Finset Nat),
      t ∉ X → t ∈ keysF g → X ⊆ keysF g →
      needsOf g t = ∅ → (∀ x ∈ X, needsOf g x = ∅) →
      EdgeSymX g X → (keysF g).card + 1 ≤ f + X.card →
      EdgeSymX (finish f g rdy t).1 X ∧
      findNode (finish f g rdy t).1 t = none ∧
      keysF (finish f g rdy t).1 ⊆ keysF g ∧
      (∀ x ∈ X, findNode (finish f g rdy t).1 x = findNode g x) ∧
      (∀ a, needsOf (finish f g rdy t).1 a ⊆ needsOf g a)) :
    ∀ (deps : List Nat) (g : Graph) (rdy : List RKey) (t : Nat) (X : Finset Nat),
      t ∈ X → X ⊆ keysF g →
      (∀ x ∈ X, needsOf g x = ∅) →
      EdgeSymX g X →
      (∀ a, t ∈ needsOf g a → a ∈ deps) →
      (∀ d ∈ deps, d ∉ X) →
      (keysF g).card + 1 ≤ f + X.card →
      EdgeSymX (finFoldGo (finish f) t deps g rdy).1 X ∧
      keysF (finFoldGo (finish f) t deps g rdy).1 ⊆ keysF g ∧
      (∀ x ∈ X, findNode (finFoldGo (finish f) t deps g rdy).1 x = findNode g x) ∧
      (∀ a, needsOf (finFoldGo (finish f) t deps g rdy).1 a ⊆ needsOf g a) ∧
      (∀ a, t ∉ needsOf (finFoldGo (finish f) t deps g rdy).1 a) := by
  intro deps
  induction deps with
  | nil =>
    intro g rdy t X ht hXk hXn hsym hpend hdisj hcard
    refine ⟨hsym, Finset.Subset.refl _, fun x _ => rfl, fun a => Finset.Subset.refl _, ?_⟩
    intro a hta
    exact absurd (hpend a hta) (List.not_mem_nil a)
  | cons dep rest ih =>
    intro g rdy t X ht hXk hXn hsym hpend hdisj hcard
    have hdX : dep ∉ X := hdisj dep (List.mem_cons_self _ _)
    cases hfd : findNode g dep with
    | none =>
      simp only [finFoldGo, hfd]
      refine ih g rdy t X ht hXk hXn hsym ?_ ?_ hcard
      · intro a hta
        have hane : a ≠ dep := by
          intro h
          subst h
          rw [needsOf, hfd] at hta
          exact absurd hta (Finset.not_mem_empty t)
        rcases List.mem_cons.mp (hpend a hta) with h | h
        · exact absurd h hane
        · exact h
      · intro d hd
        exact hdisj d (List.mem_cons_of_mem _ hd)
    | some dn =>
      simp only [finFoldGo, hfd]
      have hkeys2 : keysF (mapNode g dep fun m => { m with needs := m.needs.erase t })
          = keysF g := keysF_mapNode g dep _
      have hneeds2 := needsOf_eraseT hfd t
      have hsym2 : EdgeSymX (mapNode g dep fun m => { m with needs := m.needs.erase t }) X :=
        EdgeSymX_eraseT hsym ht hfd
      have hXn2 : ∀ x ∈ X,
          needsOf (mapNode g dep fun m => { m with needs := m.needs.erase t }) x = ∅ := by
        intro x hx
        rw [hneeds2 x, if_neg (fun h : x = dep => hdX (h ▸ hx))]
        exact hXn x hx
      have hXk2 : X ⊆ keysF (mapNode g dep fun m => { m with needs := m.needs.erase t }) := by
        rw [hkeys2]
        exact hXk
      have hpend2 : ∀ a,
          t ∈ needsOf (mapNode g dep fun m => { m with needs := m.needs.erase t }) a →
          a ∈ rest := by
        intro a hta
        rw [hneeds2 a] at hta
        by_cases had : a = dep
        · rw [if_pos had] at hta
          exact absurd rfl (Finset.mem_erase.mp hta).1
        · rw [if_neg had] at hta
          rcases List.mem_cons.mp (hpend a hta) with h | h
          · exact absurd h had
          · exact h
      have hcard2 : (keysF (mapNode g dep fun m =>
          { m with needs := m.needs.erase t })).card + 1 ≤ f + X.card := by
        rw [hkeys2]
        exact hcard
      have hsub2 : ∀ a,
          needsOf (mapNode g dep fun m => { m with needs := m.needs.erase t }) a ⊆
            needsOf g a := by
        intro a
        rw [hneeds2 a]
        by_cases had : a = dep
        · rw [if_pos had, had, needsOf_eq hfd]
          exact Finset.erase_subset t dn.needs
        · rw [if_neg had]
      have hdisj2 : ∀ d ∈ rest, d ∉ X := fun d hd => hdisj d (List.mem_cons_of_mem _ hd)
      have hfind2 : ∀ x ∈ X,
          findNode (mapNode g dep fun m => { m with needs := m.needs.erase t }) x
            = findNode g x := by
        intro x hx
        rw [findNode_mapNode, if_neg (fun h : x = dep => hdX (h ▸ hx))]
      by_cases hE : dn.needs.erase t = ∅
      · rw [if_pos hE]
        by_cases hNM : dn.nodeps = true ∧ dn.action = .nomerge
        · rw [if_pos hNM]
          have hdk2 : dep ∈ keysF (mapNode g dep fun m =>
              { m with needs := m.needs.erase t }) := by
            rw [hkeys2]
            exact (mem_keysF_iff g dep).mpr ⟨dn, hfd⟩
          have hnd2 : needsOf (mapNode g dep fun m => { m with needs := m.needs.erase t })
              dep = ∅ := by
            rw [hneeds2 dep, if_pos rfl]
            exact hE
          obtain ⟨R1, R2, R3, R4, R5⟩ := ihf
            (mapNode g dep fun m => { m with needs := m.needs.erase t }) rdy dep X
            hdX hdk2 hXk2 hnd2 hXn2 hsym2 hcard2
          have hXk3 : X ⊆ keysF (finish f
              (mapNode g dep fun m => { m with needs := m.needs.erase t }) rdy dep).1 := by
            intro x hx
            obtain ⟨m, hm2⟩ := (mem_keysF_iff _ x).mp (hXk2 hx)
            refine (mem_keysF_iff _ x).mpr ⟨m, ?_⟩
            rw [R4 x hx]
            exact hm2
          have hXn3 : ∀ x ∈ X, needsOf (finish f
              (mapNode g dep fun m => { m with needs := m.needs.erase t }) rdy dep).1 x = ∅ := by
            intro x hx
            refine Finset.subset_empty.mp ?_
            rw [← hXn2 x hx]
            exact R5 x
          obtain ⟨S1, S2, S3, S4, S5⟩ := ih
            (finish f (mapNode g dep fun m => { m with needs := m.needs.erase t }) rdy dep).1
            (finish f (mapNode g dep fun m => { m with needs := m.needs.erase t }) rdy dep).2
            t X ht hXk3 hXn3 R1
            (fun a hta => hpend2 a (R5 a hta))
            hdisj2
            (by have := Finset.card_le_card R3; omega)
          refine ⟨S1, ?_, ?_, ?_, S5⟩
          · rw [← hkeys2]
            exact S2.trans R3
          · intro x hx
            rw [S3 x hx, R4 x hx, hfind2 x hx]
          · intro a
            exact ((S4 a).trans (R5 a)).trans (hsub2 a)
        · rw [if_neg hNM]
          obtain ⟨S1, S2, S3, S4, S5⟩ := ih
            (mapNode g dep fun m => { m with needs := m.needs.erase t })
            (rdy ++ [(scoreOf dn, dep)]) t X ht hXk2 hXn2 hsym2 hpend2 hdisj2 hcard2
          refine ⟨S1, ?_, ?_, ?_, S5⟩
          · rw [← hkeys2]
            exact S2
          · intro x hx
            rw [S3 x hx, hfind2 x hx]
          · intro a
            exact (S4 a).trans (hsub2 a)
      · rw [if_neg hE]
        obtain ⟨S1, S2, S3, S4, S5⟩ := ih
          (mapNode g dep fun m => { m with needs := m.needs.erase t })
          rdy t X ht hXk2 hXn2 hsym2 hpend2 hdisj2 hcard2
        refine ⟨S1, ?_, ?_, ?_, S5⟩
        · rw [← hkeys2]
          exact S2
        · intro x hx
          rw [S3 x hx, hfind2 x hx]
        · intro a
          exact (S4 a).trans (hsub2 a)

theorem finish_symX :
    ∀ (f : Nat) (g : Graph) (rdy : List RKey) (t : Nat) (X : Finset Nat),
      t ∉ X → t ∈ keysF g → X ⊆ keysF g →
      needsOf g t = ∅ → (∀ x ∈ X, needsOf g x = ∅) →
      EdgeSymX g X → (keysF g).card + 1 ≤ f + X.card →
      EdgeSymX (finish f g rdy t).1 X ∧
      findNode (finish f g rdy t).1 t = none ∧
      keysF (finish f g rdy t).1 ⊆ keysF g ∧
      (∀ x ∈ X, findNode (finish f g rdy t).1 x = findNode g x) ∧
      (∀ a, needsOf (finish f g rdy t).1 a ⊆ needsOf g a) := by
  intro f
  induction f with
  | zero =>
    intro g rdy t X htX htk hXk _ _ _ hcard
    exfalso
    have hlt : X.card < (keysF g).card :=
      Finset.card_lt_card ⟨hXk, fun hsup => htX (hsup htk)⟩
    omega
  | succ f ihf =>
    intro g rdy t X htX htk hXk hnt hXn hsym hcard
    obtain ⟨n, hfn⟩ := (mem_keysF_iff g t).mp htk
    have hneq : n.needs = ∅ := by
      rw [← needsOf_eq hfn]
      exact hnt
    simp only [finish, hfn]
    rw [if_neg (fun hcon => hcon.1 hneq)]
    have hX2k : insert t X ⊆ keysF g := by
      intro x hx
      rcases Finset.mem_insert.mp hx with rfl | hx2
      · exact htk
      · exact hXk hx2
    have hX2n : ∀ x ∈ insert t X, needsOf g x = ∅ := by
      intro x hx
      rcases Finset.mem_insert.mp hx with rfl | hx2
      · exact hnt
      · exact hXn x hx2
    have hsym2 : EdgeSymX g (insert t X) :=
      EdgeSymX_mono (Finset.subset_insert t X) hsym
    have hpend : ∀ a, t ∈ needsOf g a → a ∈ sortF n.provides := by
      intro a hta
      have haX2 : a ∉ X := by
        intro hx
        rw [hXn a hx] at hta
        exact absurd hta (Finset.not_mem_empty t)
      obtain ⟨_, hmem⟩ := (hsym a haX2).1 t hta
      rw [providesOf_eq hfn] at hmem
      exact (mem_sortF _ _).mpr hmem
    have hdisj : ∀ d ∈ sortF n.provides, d ∉ insert t X := by
      intro d hd hdX
      have hdP : d ∈ providesOf g t := by
        rw [providesOf_eq hfn]
        exact (mem_sortF _ _).mp hd
      obtain ⟨_, hdn⟩ := (hsym t htX).2 d hdP
      rw [hX2n d hdX] at hdn
      exact absurd hdn (Finset.not_mem_empty t)
    have hcard2 : (keysF g).card + 1 ≤ f + (insert t X).card := by
      rw [Finset.card_insert_of_not_mem htX]
      omega
    obtain ⟨D1, D2, D3, D4, D5⟩ := finFoldGo_symX f ihf (sortF n.provides) g rdy t
      (insert t X) (Finset.mem_insert_self t X) hX2k hX2n hsym2 hpend hdisj hcard2
    refine ⟨?_, ?_, ?_, ?_, ?_⟩
    · intro p hpX
      by_cases hpt : p = t
      · subst hpt
        constructor
        · intro q hq
          rw [needsOf_eraseNode, if_pos rfl] at hq
          exact absurd hq (Finset.not_mem_empty q)
        · intro q hq
          rw [providesOf_eraseNode, if_pos rfl] at hq
          exact absurd hq (Finset.not_mem_empty q)
      · have hpX2 : p ∉ insert t X := by
          intro h
          rcases Finset.mem_insert.mp h with h2 | h2
          · exact hpt h2
          · exact hpX h2
        obtain ⟨hc1, hc2⟩ := D1 p hpX2
        constructor
        · intro q hq
          rw [needsOf_eraseNode, if_neg hpt] at hq
          obtain ⟨hk, hm⟩ := hc1 q hq
          have hqt : q ≠ t := by
            intro h
            exact D5 p (h ▸ hq)
          refine ⟨?_, ?_⟩
          · rw [keysF_eraseNode]
            exact Finset.mem_erase.mpr ⟨hqt, hk⟩
          · rw [providesOf_eraseNode, if_neg hqt]
            exact hm
        · intro q hq
          rw [providesOf_eraseNode, if_neg hpt] at hq
          obtain ⟨hk, hm⟩ := hc2 q hq
          have hqt : q ≠ t := by
            intro h
            have hm3 : p ∈ needsOf (finFoldGo (finish f) t (sortF n.provides) g rdy).1 t :=
              h ▸ hm
            rw [needsOf, D3 t (Finset.mem_insert_self t X), hfn] at hm3
            have hm2 : p ∈ n.needs := hm3
            rw [hneq] at hm2
            exact absurd hm2 (Finset.not_mem_empty p)
          refine ⟨?_, ?_⟩
          · rw [keysF_eraseNode]
            exact Finset.mem_erase.mpr ⟨hqt, hk⟩
          · rw [needsOf_eraseNode, if_neg hqt]
            exact hm
    · rw [findNode_eraseNode, if_pos rfl]
    · rw [keysF_eraseNode]
      exact Finset.Subset.trans (Finset.erase_subset t _) D2
    · intro x hx
      have hxt : ¬ x = t := fun h => htX (h ▸ hx)
      rw [findNode_eraseNode, if_neg hxt]
      exact D3 x (Finset.mem_insert_of_mem hx)
    · intro a
      rw [needsOf_eraseNode]
      by_cases hat : a = t
      · rw [if_pos hat]
        exact Finset.empty_subset _
      · rw [if_neg hat]
        exact D4 a

/-- `_Finish` on a completed target whose `needs` are all met preserves edge
symmetry (the demoted-`nomerge` case changes no edges at all). -/
theorem EdgeSym_finish (g : Graph) (rdy : List RKey) (t : Nat)
    (hsym : EdgeSym g) (hnt : needsOf g t = ∅) :
    EdgeSym (finish (finFuelOf g) g rdy t).1 := by
  by_cases htk : t ∈ keysF g
  · have hcard : (keysF g).card + 1 ≤ finFuelOf g + (∅ : Finset Nat).card := by
      rw [finFuelOf, Finset.card_empty]
      have h1 : (keysF g).card ≤ (keysList g).length := List.toFinset_card_le _
      have h2 : (keysList g).length = g.length := List.length_map _ _
      omega
    have := finish_symX (finFuelOf g) g rdy t ∅ (Finset.not_mem_empty t) htk
      (Finset.empty_subset _) hnt (fun x hx => absurd hx (Finset.not_mem_empty x))
      ((edgeSymX_empty g).mpr hsym) hcard
    exact (edgeSymX_empty _).mp this.1
  · have hno : findNode g t = none := (findNode_eq_none_iff g t).mpr htk
    rw [finFuelOf]
    simp only [finish, hno]
    exact hsym

theorem noSelfLoopB_spec (g : Graph) (h : noSelfLoopB g = true) : NoSelfLoop g := by
  intro p
  by_cases hk : p ∈ keysF g
  · rw [noSelfLoopB, List.all_eq_true] at h
    exact of_decide_eq_true (h p (List.mem_toFinset.mp hk))
  · rw [needsOf_absent ((findNode_eq_none_iff g p).mpr hk)]
    exact Finset.not_mem_empty p

theorem EdgeSym_finish_demote (g : Graph) (rdy : List RKey) (t : Nat) {n : Node}
    (hfn : findNode g t = some n) (hcond : n.needs ≠ ∅ ∧ n.nodeps = true)
    (hsym : EdgeSym g) (f : Nat) :
    EdgeSym (finish (f + 1) g rdy t).1 := by
  simp only [finish, hfn]
  rw [if_pos hcond]
  exact EdgeSym_mapNode_keep (fun m => { m with action := Action.nomerge })
    (fun m => ⟨rfl, rfl⟩) g t hsym

/-- C5, amended: provided no package directly needs itself (true of any real
dependency tree), edge symmetry with presence holds after `ReverseTree`
(unconditionally), after `RemoveUnusedPackages`, after `SanitizeTree`, and is
preserved at every scheduler quiescent point by `_Finish` — both for a
completed target whose `needs` are all met and for the `nodeps` demote-only
case. -/
theorem C5_edge_symmetry (env : BuildEnv) (t : DTree)
    (g : Graph) (rdy : List RKey) (tgt : Nat)
    (g2 : Graph) (rdy2 : List RKey) (tgt2 : Nat) (n2 : Node) (f2 : Nat)
    (hns : NoSelfLoop (reverseTree env t))
    (hg : EdgeSym g) (htgt : needsOf g tgt = ∅)
    (hg2 : EdgeSym g2) (hfn2 : findNode g2 tgt2 = some n2)
    (hcond2 : n2.needs ≠ ∅ ∧ n2.nodeps = true) :
    EdgeSym (reverseTree env t) ∧
    EdgeSym (removeUnusedPackages env (reverseTree env t)) ∧
    EdgeSym (sanitizeTree env (removeUnusedPackages env (reverseTree env t))) ∧
    EdgeSym (finish (finFuelOf g) g rdy tgt).1 ∧
    EdgeSym (finish (f2 + 1) g2 rdy2 tgt2).1 := by
  have h1 := EdgeSym_reverseTree env t
  have h2 := EdgeSym_removeUnusedPackages env _ h1 hns
  exact ⟨h1, h2.1, EdgeSym_sanitizeTree env _ h2.1,
    EdgeSym_finish g rdy tgt hg htgt,
    EdgeSym_finish_demote g2 rdy2 tgt2 hfn2 hcond2 hg2 f2⟩

/-- Witness for C5 on the two-package tree `tC5`, a met-needs finish at
`gC3`, and a `nodeps` demote at `gC5d`. -/
theorem C5_edge_symmetry_witness :
    EdgeSym (reverseTree envC5 tC5) ∧
    EdgeSym (removeUnusedPackages envC5 (reverseTree envC5 tC5)) ∧
    EdgeSym (sanitizeTree envC5 (removeUnusedPackages envC5 (reverseTree envC5 tC5))) ∧
    EdgeSym (finish (finFuelOf gC3) gC3 [] 0).1 ∧
    EdgeSym (finish (0 + 1) gC5d [] 0).1 :=
  C5_edge_symmetry envC5 tC5 gC3 [] 0 gC5d [] 0 _ 0
    (noSelfLoopB_spec _ (by decide)) (edgeSymB_spec (by decide)) rfl
    (edgeSymB_spec (by decide)) rfl (by decide)

/-- Counterexample to C5 as literally stated: with a (degenerate) tree where
a package directly depends on itself, `ReverseTree` still yields a
symmetric graph, but `RemoveUnusedPackages` breaks the symmetry — the
`discard(dep)` in the contraction removes the self-looping package from its
own `provides` while its `needs` entry survives. -/
theorem C5_selfdep_asymmetry :
    EdgeSym (reverseTree envSelf tSelf) ∧
    ¬ EdgeSym (removeUnusedPackages envSelf (reverseTree envSelf tSelf)) := by
  constructor
  · exact edgeSymB_spec (by decide)
  · intro hsym
    have h1 : (1 : Nat) ∈
        needsOf (removeUnusedPackages envSelf (reverseTree envSelf tSelf)) 1 := by
      decide
    have h2 := ((edgeSym_iff _).mp hsym 1).1 1 h1
    have h3 : (1 : Nat) ∉
        providesOf (removeUnusedPackages envSelf (reverseTree envSelf tSelf)) 1 := by
      decide
    exact h3 h2.2

end ParallelEmerge
